import Mathlib

/-!
Shallow embedding of the KnitScript AST transformation and verification
pipeline (src/knitscript/stitch.py, astnodes.py, interpreter.py,
verifier.py), together with proofs settling the frozen claims about it.

Modelling conventions:
* Machine integers are `Int`; stitch-count caches are `Option Int`
  (`Optional[int]` in the source).  `times` and `to_last` wrap `NaturalLit`
  values and are modelled as `Nat`.
* Python runtime failures (TypeError on `None` arithmetic, IndexError,
  ZeroDivisionError, AttributeError, KeyError, AssertionError and the
  interpreter's own `InterpretError`s) are modelled as `Except` errors.
* Source-location metadata (`line`/`column`/`sources`) carries no semantic
  content and is elided from the node type.
* `StitchLit` carries only its `Stitch` value: both constructors of the
  class derive the cached counts from the stitch value, so the cache is
  represented by the derived accessor.
* `verifier._verify_make` is not modelled: it compares against stitch
  members (`Stitch.MAKE_1_LEFT`/`MAKE_1_RIGHT`) that do not exist in the
  stitch catalog of this snapshot, so in Python it raises `AttributeError`
  on every row instead of yielding diagnostics.
-/

namespace KnitScript

/-- Stitch is the catalog of atomic stitch kinds (src/knitscript/stitch.py). -/
inductive Stitch where
  | CAST_ON
  | BIND_OFF
  | KNIT
  | PURL
  | SLIP
  | SLIP_PURLWISE
  | SLIP_2_KNITWISE
  | SLIP_2_PURLWISE
  | PSSO
  | YARN_OVER
  | KNIT_FRONT_BACK
  | PURL_FRONT_BACK
  | KNIT2TOG
  | PURL2TOG
  | SLIP_SLIP_KNIT
  | SLIP_SLIP_PURL
deriving DecidableEq, Repr

namespace Stitch

/-- Number of stitches each stitch kind consumes from the current row. -/
def consumes : Stitch → Int
  | .CAST_ON => 0
  | .BIND_OFF => 1
  | .KNIT => 1
  | .PURL => 1
  | .SLIP => 1
  | .SLIP_PURLWISE => 1
  | .SLIP_2_KNITWISE => 2
  | .SLIP_2_PURLWISE => 2
  | .PSSO => 0
  | .YARN_OVER => 0
  | .KNIT_FRONT_BACK => 1
  | .PURL_FRONT_BACK => 1
  | .KNIT2TOG => 2
  | .PURL2TOG => 2
  | .SLIP_SLIP_KNIT => 2
  | .SLIP_SLIP_PURL => 2

/-- Number of stitches each stitch kind produces for the next row; PSSO
removes an already-produced stitch, hence `-1`. -/
def produces : Stitch → Int
  | .CAST_ON => 1
  | .BIND_OFF => 0
  | .KNIT => 1
  | .PURL => 1
  | .SLIP => 1
  | .SLIP_PURLWISE => 1
  | .SLIP_2_KNITWISE => 2
  | .SLIP_2_PURLWISE => 2
  | .PSSO => -1
  | .YARN_OVER => 1
  | .KNIT_FRONT_BACK => 2
  | .PURL_FRONT_BACK => 2
  | .KNIT2TOG => 1
  | .PURL2TOG => 1
  | .SLIP_SLIP_KNIT => 1
  | .SLIP_SLIP_PURL => 1

/-- Side-reversed stitch kind, `none` when the kind has no reverse (the
thunk returns `None`; only PSSO in this catalog). -/
def reverse : Stitch → Option Stitch
  | .CAST_ON => some .CAST_ON
  | .BIND_OFF => some .BIND_OFF
  | .KNIT => some .PURL
  | .PURL => some .KNIT
  | .SLIP => some .SLIP
  | .SLIP_PURLWISE => some .SLIP_PURLWISE
  | .SLIP_2_KNITWISE => some .SLIP_2_KNITWISE
  | .SLIP_2_PURLWISE => some .SLIP_2_PURLWISE
  | .PSSO => none
  | .YARN_OVER => some .YARN_OVER
  | .KNIT_FRONT_BACK => some .PURL_FRONT_BACK
  | .PURL_FRONT_BACK => some .KNIT_FRONT_BACK
  | .KNIT2TOG => some .SLIP_SLIP_PURL
  | .PURL2TOG => some .SLIP_SLIP_KNIT
  | .SLIP_SLIP_KNIT => some .PURL2TOG
  | .SLIP_SLIP_PURL => some .KNIT2TOG

end Stitch

/-- Side of the fabric, right side (RS) or wrong side (WS)
(src/knitscript/astnodes.py, class Side). -/
inductive Side where
  | Right
  | Wrong
deriving DecidableEq, Repr

/-- Flips to the opposite side. -/
def Side.flip : Side → Side
  | .Right => .Wrong
  | .Wrong => .Right

/-- First `n` elements of the infinite alternating series produced by
`Side.alternate`: `s, s.flip(), s.flip().flip(), ...`. -/
def Side.alternates (s : Side) : Nat → List Side
  | 0 => []
  | n + 1 => s :: s.flip.alternates n

/-- Node is the KnitScript AST (src/knitscript/astnodes.py).  The class
hierarchy (Row <: FixedStitchRepeat, Pattern <: RowRepeat) is modelled by
separate constructors plus view helpers that mirror `isinstance` checks.
A `Row`'s `times` is the constant 1, a `Pattern`'s `times` is the constant
1, and the `env` of a pattern is an association list in which the first
binding for a name wins (mirroring dict update order at merge sites). -/
inductive Node where
  | stitchLit (value : Stitch)
  | fixedRep (stitches : List Node) (times : Nat)
      (consumes produces : Option Int)
  | expandingRep (stitches : List Node) (toLast : Nat)
      (consumes produces : Option Int)
  | row (stitches : List Node) (side : Option Side) (inferred : Bool)
      (consumes produces : Option Int)
  | rowRepeat (rows : List Node) (times : Nat)
      (consumes produces : Option Int)
  | pattern (rows : List Node) (params : List String)
      (env : Option (List (String × Node))) (consumes produces : Option Int)
  | block (patterns : List Node) (consumes produces : Option Int)
  | fixedBlockRepeat (blk : Node) (times : Nat)
      (consumes produces : Option Int)
  | get (name : String)
  | call (target : Node) (args : List Node)
  | nativeFunction (id : Nat)

/-- Err models hard Python failures that abort a pass: builtin exceptions
and the interpreter's `InterpretError`s. -/
inductive Err where
  | typeError
  | indexError
  | zeroDivisionError
  | attributeError
  | keyError
  | assertionError
  | valueError
  | ambiguousRepeat
  | irreversible (s : Stitch)
  | arityMismatch (got expected : Nat)
  | nativeUnsupported
  | noFuel
deriving DecidableEq, Repr

/-- KnitError is a verifier diagnostic (class KnitError in verifier.py);
each constructor records the data interpolated into the message plus the
offending node. -/
inductive KnitError where
  | expectedStitches (expected actual : Int) (node : Node)
  | leftOver (count : Int) (node : Node)
  | castOnMismatch (consumes : Option Int) (node : Node)
  | bindOffMismatch (produces : Option Int) (node : Node)
  | pssoWithoutStitch (node : Node)
  | pssoWithoutSlip (node : Node)

namespace Node

/-- Cached `consumes` attribute of a `Knittable` node: `none` when the
node kind has no such attribute (Python raises AttributeError there). -/
def consumesAttr : Node → Option (Option Int)
  | .stitchLit v => some (some v.consumes)
  | .fixedRep _ _ c _ => some c
  | .expandingRep _ _ c _ => some c
  | .row _ _ _ c _ => some c
  | .rowRepeat _ _ c _ => some c
  | .pattern _ _ _ c _ => some c
  | .block _ c _ => some c
  | .fixedBlockRepeat _ _ c _ => some c
  | _ => none

/-- Cached `produces` attribute, as `consumesAttr`. -/
def producesAttr : Node → Option (Option Int)
  | .stitchLit v => some (some v.produces)
  | .fixedRep _ _ _ p => some p
  | .expandingRep _ _ _ p => some p
  | .row _ _ _ _ p => some p
  | .rowRepeat _ _ _ p => some p
  | .pattern _ _ _ _ p => some p
  | .block _ _ p => some p
  | .fixedBlockRepeat _ _ _ p => some p
  | _ => none

/-- Mirrors `isinstance(node, Knittable)`. -/
def isKnittable (n : Node) : Bool := n.consumesAttr.isSome

end Node

/-- Forces an optional count the way Python arithmetic does: using `None`
as an integer raises `TypeError`. -/
def asInt : Option Int → Except Err Int
  | some i => .ok i
  | none => .error .typeError

/-- Reads the `consumes` attribute of a node and forces it to an integer
(AttributeError when absent, TypeError when `None` is used in
arithmetic or comparison). -/
def consOf (n : Node) : Except Err Int :=
  match n.consumesAttr with
  | some c => asInt c
  | none => .error .attributeError

/-- Reads the `produces` attribute of a node, forced, as `consOf`. -/
def prodOf (n : Node) : Except Err Int :=
  match n.producesAttr with
  | some p => asInt p
  | none => .error .attributeError

/-!
Count inference (`interpreter.infer_counts`, lines 226-339).  The fuel
argument makes every definition structurally recursive on `Nat`, so
concrete runs reduce by `rfl`; a run that returns `Except.ok` is the value
the Python recursion computes.  `to_fixed_repeat` wrappers are inlined:
`to_fixed_repeat(row)` is `FixedStitchRepeat(row.stitches, 1, row.consumes,
row.produces)`, `to_fixed_repeat(expanding)` uses `consumes=produces=None`,
and `to_fixed_repeat(pattern)` is `RowRepeat(pattern.rows, 1,
pattern.consumes, pattern.produces)` (asttools.to_fixed_repeat).
-/

/-- Mirrors `sum(map(attrgetter("consumes"), counted))` in the Block case
of infer_counts: AttributeError on a non-Knittable element, TypeError on
a `None` count. -/
def sumConsumes : List Node → Int → Except Err Int
  | [], acc => .ok acc
  | n :: ns, acc => do
    let c ← consOf n
    sumConsumes ns (acc + c)

/-- Mirrors `sum(map(attrgetter("produces"), counted))`. -/
def sumProduces : List Node → Int → Except Err Int
  | [], acc => .ok acc
  | n :: ns, acc => do
    let p ← prodOf n
    sumProduces ns (acc + p)

mutual

/-- infer_counts: fills in consumed/produced stitch counts, threading the
number of stitches `available` in the current row (`None` when unknown). -/
def inferCounts : Nat → Node → Option Int → Except Err Node
  | 0, _, _ => .error .noFuel
  | fuel + 1, .fixedRep sts t c p, avail => do
    let (counted, accC, accP) ← inferStitches fuel sts avail (some 0) (some 0)
    -- try replace with consumes*times; TypeError on None keeps old cache
    match accC, accP with
    | some cc, some pp =>
      .ok (.fixedRep counted t (some (cc * (t : Int))) (some (pp * (t : Int))))
    | _, _ => .ok (.fixedRep counted t c p)
  | fuel + 1, .expandingRep sts tl _ _, avail => do
    match avail with
    | none => .error .ambiguousRepeat
    | some a => do
      let fixed ← inferCounts fuel (.fixedRep sts 1 none none)
        (some (a - (tl : Int)))
      match fixed with
      | .fixedRep sts' _ fc fp => do
        let c ← asInt fc
        if c = 0 then .error .zeroDivisionError else
        let n : Int := (a - (tl : Int)).fdiv c
        let p ← asInt fp
        .ok (.expandingRep sts' tl (some (c * n)) (some (p * n)))
      | _ => .error .assertionError
  | fuel + 1, .row sts side inf c p, avail => do
    let counted ← inferCounts fuel (.fixedRep sts 1 c p) avail
    match counted with
    | .fixedRep sts' _ c' p' => .ok (.row sts' side inf c' p')
    | _ => .error .assertionError
  | fuel + 1, .rowRepeat rows t _c _p, avail => do
    let (counted, avail₁) ← inferRowsOnce fuel rows avail
    let availN ← inferAvailPasses fuel (max 1 t - 1) rows avail₁
    match counted.head? with
    | none => .error .indexError
    | some h =>
      match h.consumesAttr with
      | some c0 => .ok (.rowRepeat counted t c0 availN)
      | none => .error .attributeError
  | fuel + 1, .block ps _c _p, avail => do
    let counted ←
      match ps with
      | [q] => do
        let q' ← inferCounts fuel q avail
        pure [q']
      | _ => inferList fuel ps
    let sc ← sumConsumes counted 0
    let sp ← sumProduces counted 0
    .ok (.block counted (some sc) (some sp))
  | fuel + 1, .pattern rows params env c p, avail => do
    let counted ← inferCounts fuel (.rowRepeat rows 1 c p) avail
    match counted with
    | .rowRepeat rows' _ c' p' => .ok (.pattern rows' params env c' p')
    | _ => .error .assertionError
  | fuel + 1, .fixedBlockRepeat blk t _ _, avail => do
    let counted ← inferCounts fuel blk avail
    match counted with
    | .block ps' c' p' => do
      let cc ← asInt c'
      let pp ← asInt p'
      .ok (.fixedBlockRepeat (.block ps' c' p') t
        (some (cc * (t : Int))) (some (pp * (t : Int))))
    | _ => .error .assertionError
  | _ + 1, .stitchLit v, _ => .ok (.stitchLit v)
  | _ + 1, .get name, _ => .ok (.get name)
  | _ + 1, .nativeFunction i, _ => .ok (.nativeFunction i)
  | fuel + 1, .call tgt args, avail => do
    -- generic case: ast_map over target and arguments
    let tgt' ← inferCounts fuel tgt avail
    let args' ← inferCallArgs fuel args avail
    .ok (.call tgt' args')

/-- Loop body of the FixedStitchRepeat case of infer_counts: accumulates
`consumes`/`produces`, setting both to `None` once a child's count is
unknown (the `except TypeError` branch), and passing each child the
remaining budget (a TypeError when the budget is known but the running
total is already unknown). -/
def inferStitches : Nat → List Node → Option Int → Option Int → Option Int →
    Except Err (List Node × Option Int × Option Int)
  | 0, _, _, _, _ => .error .noFuel
  | _ + 1, [], _, accC, accP => .ok ([], accC, accP)
  | fuel + 1, s :: ss, avail, accC, accP => do
    let childAvail ←
      match avail with
      | none => pure (none : Option Int)
      | some a => do
        let c ← asInt accC
        pure (some (a - c))
    let s' ← inferCounts fuel s childAvail
    if s'.isKnittable then do
      let acc' :=
        match accC, s'.consumesAttr, accP, s'.producesAttr with
        | some c₁, some (some c₂), some p₁, some (some p₂) =>
          (some (c₁ + c₂), some (p₁ + p₂))
        | _, _, _, _ => ((none : Option Int), (none : Option Int))
      let (rest, accC', accP') ← inferStitches fuel ss avail acc'.1 acc'.2
      .ok (s' :: rest, accC', accP')
    else .error .assertionError

/-- Single pass of the RowRepeat loop of infer_counts: infers each row
against the budget left by its predecessor, collecting the counted rows
and the final budget. -/
def inferRowsOnce : Nat → List Node → Option Int →
    Except Err (List Node × Option Int)
  | 0, _, _ => .error .noFuel
  | _ + 1, [], avail => .ok ([], avail)
  | fuel + 1, r :: rs, avail => do
    let r' ← inferCounts fuel r avail
    if r'.isKnittable then do
      let avail' := r'.producesAttr.getD none
      let (rest, availN) ← inferRowsOnce fuel rs avail'
      .ok (r' :: rest, availN)
    else .error .assertionError

/-- Remaining `max(1, times) - 1` passes of the RowRepeat loop: the
counted rows are already collected, so only the budget is threaded. -/
def inferAvailPasses : Nat → Nat → List Node → Option Int →
    Except Err (Option Int)
  | 0, _, _, _ => .error .noFuel
  | _ + 1, 0, _, avail => .ok avail
  | fuel + 1, k + 1, rows, avail => do
    let (_, avail') ← inferRowsOnce fuel rows avail
    inferAvailPasses fuel k rows avail'

/-- Mirrors `list(map(infer_counts, block.patterns))`: each sibling of a
multi-pattern block is inferred with the default `available=None`. -/
def inferList : Nat → List Node → Except Err (List Node)
  | 0, _ => .error .noFuel
  | _ + 1, [] => .ok []
  | fuel + 1, s :: ss => do
    let s' ← inferCounts fuel s none
    let rest ← inferList fuel ss
    .ok (s' :: rest)

/-- Generic ast_map recursion of infer_counts into a call's arguments. -/
def inferCallArgs : Nat → List Node → Option Int → Except Err (List Node)
  | 0, _, _ => .error .noFuel
  | _ + 1, [], _ => .ok []
  | fuel + 1, s :: ss, avail => do
    let s' ← inferCounts fuel s avail
    let rest ← inferCallArgs fuel ss avail
    .ok (s' :: rest)

end

/-!
Verifier (src/knitscript/verifier.py).  `verify_counts` re-walks the tree
top-down, reading the cached counts and yielding diagnostics; hard Python
failures (TypeError from comparing `None`, ZeroDivisionError, the
singledispatch TypeError on unsupported node kinds) are `Except` errors.
-/

/-- Mirrors `_at_least(expected, actual, node)` (verifier.py 133-141). -/
def atLeast (expected actual : Int) (node : Node) : List KnitError :=
  if expected > actual then [.expectedStitches expected actual node] else []

/-- Mirrors `_exactly(expected, actual, node)` (verifier.py 144-148). -/
def exactly (expected actual : Int) (node : Node) : List KnitError :=
  atLeast expected actual node ++
    (if expected < actual then [.leftOver (actual - expected) node] else [])

mutual

/-- verify_counts: checks stitch counts for consistency and that every
row has enough stitches available and leaves none over. -/
def verifyCounts : Nat → Node → Option Int → Except Err (List KnitError)
  | 0, _, _ => .error .noFuel
  | _ + 1, .stitchLit v, avail => do
    let a ← asInt avail
    .ok (atLeast v.consumes a (.stitchLit v))
  | fuel + 1, .fixedRep sts t c p, avail => do
    let (errs, consumed, _) ← verifyStitches fuel sts avail 0 0
    if t > 1 then do
      let a ← asInt avail
      .ok (errs ++ atLeast ((t : Int) * consumed) a (.fixedRep sts t c p))
    else .ok errs
  | fuel + 1, .expandingRep sts tl c p, avail => do
    let a ← asInt avail
    let errs ← verifyCounts fuel (.fixedRep sts 1 none none)
      (some (a - (tl : Int)))
    let cv ← asInt c
    if cv = 0 then .error .zeroDivisionError else
    let n : Int := (a - (tl : Int)).fdiv cv
    .ok (errs ++ exactly (n * cv) (a - (tl : Int)) (.expandingRep sts tl c p))
  | fuel + 1, .row sts _side _inf c p, avail =>
    -- to_fixed_repeat(row) has times 1, so only the stitch walk runs
    verifyCounts fuel (.fixedRep sts 1 c p) avail
  | fuel + 1, .rowRepeat rows t c p, avail => do
    let (errs, fin) ← verifyRows fuel rows avail
    if t > 1 then do
      let s ← asInt avail
      let f ← asInt fin
      .ok (errs ++ exactly s f (.rowRepeat rows t c p))
    else .ok errs
  | fuel + 1, .pattern rows _params _env c p, avail =>
    verifyCounts fuel (.rowRepeat rows 1 c p) avail
  | _ + 1, _, _ => .error .typeError

/-- Loop body of the FixedStitchRepeat case of verify_counts: checks each
stitch against the remaining budget while accumulating cached counts. -/
def verifyStitches : Nat → List Node → Option Int → Int → Int →
    Except Err (List KnitError × Int × Int)
  | 0, _, _, _, _ => .error .noFuel
  | _ + 1, [], _, consumed, produced => .ok ([], consumed, produced)
  | fuel + 1, s :: ss, avail, consumed, produced => do
    let a ← asInt avail
    let errs ← verifyCounts fuel s (some (a - consumed))
    if s.isKnittable then do
      let c ← consOf s
      let p ← prodOf s
      let (rest, consumed', produced') ←
        verifyStitches fuel ss avail (consumed + c) (produced + p)
      .ok (errs ++ rest, consumed', produced')
    else .error .assertionError

/-- Loop body of the RowRepeat case of verify_counts: each row is checked
recursively, then required to consume the running budget exactly, and the
budget becomes the row's cached `produces`. -/
def verifyRows : Nat → List Node → Option Int →
    Except Err (List KnitError × Option Int)
  | 0, _, _ => .error .noFuel
  | _ + 1, [], avail => .ok ([], avail)
  | fuel + 1, r :: rs, avail => do
    let errs ← verifyCounts fuel r avail
    if r.isKnittable then do
      let e ← asInt (r.consumesAttr.getD none)
      let a ← asInt avail
      let errs₂ := exactly e a r
      let avail' := r.producesAttr.getD none
      let (rest, fin) ← verifyRows fuel rs avail'
      .ok (errs ++ errs₂ ++ rest, fin)
    else .error .assertionError

end

/-!
PSSO verification (`verifier._unroll_row`, `_unroll_slip`,
`_verify_psso`, lines 151-245).
-/

/-- Mirrors `_unroll_slip`: multi-stitch slips become runs of plain SLIP
markers. -/
def unrollSlip : Stitch → List Stitch
  | .SLIP => [.SLIP]
  | .SLIP_PURLWISE => [.SLIP]
  | .SLIP_2_KNITWISE => [.SLIP, .SLIP]
  | .SLIP_2_PURLWISE => [.SLIP, .SLIP]
  | s => [s]

mutual

/-- Mirrors `_unroll_row`: turns a row into its flat list of stitches,
expanding fixed repeats literally and expanding repeats by the quotient of
their cached counts. -/
def unrollRow : Nat → Node → Except Err (List Stitch)
  | 0, _ => .error .noFuel
  | fuel + 1, .row sts _ _ _ _ => unrollList fuel sts
  | fuel + 1, .fixedRep sts t _ _ => do
    let once ← unrollList fuel sts
    .ok (List.flatten (List.replicate t once))
  | fuel + 1, .expandingRep sts _ c _ => do
    let cv ← asInt c
    let s ← sumConsumes sts 0
    if s = 0 then .error .zeroDivisionError else
    let times : Int := cv.fdiv s
    let once ← unrollList fuel sts
    .ok (List.flatten (List.replicate times.toNat once))
  | _ + 1, .stitchLit v => .ok [v]
  | _ + 1, _ => .error .typeError

/-- Flat-maps `unrollRow` over the members of a stitch list. -/
def unrollList : Nat → List Node → Except Err (List Stitch)
  | 0, _ => .error .noFuel
  | _ + 1, [] => .ok []
  | fuel + 1, s :: ss => do
    let xs ← unrollRow fuel s
    let rest ← unrollList fuel ss
    .ok (xs ++ rest)

end

/-- Removal of the nearest preceding unconsumed SLIP: the prefix is
reversed, its first SLIP removed (`ValueError`, i.e. `none`, when there is
none) and reversed back. -/
def removeLastSlip (pre : List Stitch) : Option (List Stitch) :=
  if pre.contains .SLIP then some ((pre.reverse.erase .SLIP).reverse)
  else none

/-- Loop of the Row case of `_verify_psso`: runs for the original number
of stitches, scanning index `i` over a list from which matched SLIPs are
removed.  `stitches[i-1]` at `i = 0` is Python negative indexing and reads
the last element. -/
def pssoLoop (rowNode : Node) :
    Nat → List Stitch → Nat → Except Err (List KnitError)
  | 0, _, _ => .ok []
  | k + 1, sts, i =>
    match sts.get? i with
    | none => .error .indexError
    | some st =>
      if st = .PSSO then
        let prevIdx := if i = 0 then sts.length - 1 else i - 1
        match sts.get? prevIdx with
        | none => .error .indexError
        | some prev =>
          let errs₁ :=
            if prev = .SLIP then [KnitError.pssoWithoutStitch rowNode] else []
          match removeLastSlip (sts.take i) with
          | none => do
            let rest ← pssoLoop rowNode k sts (i + 1)
            .ok (errs₁ ++ [KnitError.pssoWithoutSlip rowNode] ++ rest)
          | some pre' => do
            let rest ← pssoLoop rowNode k (pre' ++ sts.drop i) i
            .ok (errs₁ ++ rest)
      else pssoLoop rowNode k sts (i + 1)

mutual

/-- Mirrors `_verify_psso`: every pass-over must have a preceding
unconsumed slipped stitch. -/
def verifyPsso : Nat → Node → Except Err (List KnitError)
  | 0, _ => .error .noFuel
  | fuel + 1, .pattern rows _params _env c p =>
    verifyPsso fuel (.rowRepeat rows 1 c p)
  | fuel + 1, .rowRepeat rows _ _ _ => verifyPssoRows fuel rows
  | fuel + 1, .row sts side inf c p => do
    let sts₀ ← unrollList fuel sts
    let sts₁ := sts₀.flatMap unrollSlip
    pssoLoop (.row sts side inf c p) sts₁.length sts₁ 0
  | _ + 1, _ => .error .typeError

/-- Iterates `_verify_psso` over the rows of a row repeat. -/
def verifyPssoRows : Nat → List Node → Except Err (List KnitError)
  | 0, _ => .error .noFuel
  | _ + 1, [] => .ok []
  | fuel + 1, r :: rs => do
    let errs ← verifyPsso fuel r
    let rest ← verifyPssoRows fuel rs
    .ok (errs ++ rest)

end

/-!
Reversal (`interpreter._reverse`, lines 459-509).
-/

/-- Accumulated `before` values for a stitch list (the `accumulate(chain(
[before], map(attrgetter("consumes"), rep.stitches[:-1])))` iterator):
the running prefix sums of cached consumes, starting from `before`.  The
argument is `stitches[:-1]`; the result has one more element. -/
def beforeAcc (b : Int) : List Node → Except Err (List Int)
  | [] => .ok [b]
  | s :: ss => do
    let c ← consOf s
    let rest ← beforeAcc (b + c) ss
    .ok (b :: rest)

mutual

/-- Mirrors `_reverse(node, before)`: mirrors a counted subtree, reversing
child order and recomputing each child's `before`; a stitch literal maps
to its reversed kind and is a hard `Irreversible` error when the kind has
no reverse; an expanding repeat's new `to_last` becomes `before`; a row's
side flips.  `replace` keeps the cached counts, which is sound for stitch
literals because every reverse pair in the catalog shares its counts.
`NaturalLit.of(before)` is modelled as requiring `before ≥ 0`. -/
def reverseNode : Nat → Node → Int → Except Err Node
  | 0, _, _ => .error .noFuel
  | fuel + 1, .fixedRep sts t c p, before => do
    let befs ← beforeAcc before sts.dropLast
    let sts' ← reverseZip fuel sts.reverse befs.reverse
    .ok (.fixedRep sts' t c p)
  | _ + 1, .stitchLit v, _ =>
    match v.reverse with
    | some r => .ok (.stitchLit r)
    | none => .error (.irreversible v)
  | fuel + 1, .expandingRep sts _tl _c _p, before => do
    let fixed ← reverseNode fuel (.fixedRep sts 1 none none) before
    match fixed with
    | .fixedRep sts' _ _ _ =>
      if before < 0 then .error .valueError
      else .ok (.expandingRep sts' before.toNat _c _p)
    | _ => .error .assertionError
  | fuel + 1, .row sts side inf c p, before => do
    let fixed ← reverseNode fuel (.fixedRep sts 1 c p) before
    match fixed with
    | .fixedRep sts' _ _ _ => .ok (.row sts' (side.map Side.flip) inf c p)
    | _ => .error .assertionError
  | _ + 1, _, _ => .error .typeError

/-- Mirrors `map(_reverse, reversed(stitches), reversed(before_acc))`:
pairs are consumed until the shorter list runs out. -/
def reverseZip : Nat → List Node → List Int → Except Err (List Node)
  | 0, _, _ => .error .noFuel
  | _ + 1, [], _ => .ok []
  | _ + 1, _ :: _, [] => .ok []
  | fuel + 1, s :: ss, b :: bs => do
    let s' ← reverseNode fuel s b
    let rest ← reverseZip fuel ss bs
    .ok (s' :: rest)

end

/-!
Side inference (`interpreter._infer_sides`, lines 513-564, and
`_starts_with_cast_ons`, lines 707-724, with the generic `ast_reduce`
of asttools.py inlined for the node kinds without a register; `times` and
`to_last` are numeric fields here, and applying the reducer to a
`NaturalLit` leaves the accumulator unchanged, so those calls vanish).
-/

mutual

/-- Mirrors `_starts_with_cast_ons(node, acc)`: true when the very first
row reached through patterns and row repeats folds to all cast-ons. -/
def startsWithCastOns : Nat → Node → Bool → Except Err Bool
  | 0, _, _ => .error .noFuel
  | fuel + 1, .pattern rows _ _ _ _, acc =>
    match rows.head? with
    | some r => startsWithCastOns fuel r acc
    | none => .error .indexError
  | fuel + 1, .rowRepeat rows _ _ _, acc =>
    match rows.head? with
    | some r => startsWithCastOns fuel r acc
    | none => .error .indexError
  | _ + 1, .stitchLit v, acc => .ok (acc && v = .CAST_ON)
  | fuel + 1, .fixedRep sts _ _ _, acc => swcoFold fuel sts acc
  | fuel + 1, .expandingRep sts _ _ _, acc => swcoFold fuel sts acc
  | fuel + 1, .row sts _ _ _ _, acc => swcoFold fuel sts acc
  | fuel + 1, .block ps _ _, acc => swcoFold fuel ps acc
  | fuel + 1, .fixedBlockRepeat blk _ _ _, acc => startsWithCastOns fuel blk acc
  | fuel + 1, .call tgt args, acc => do
    let acc' ← swcoFold fuel args acc
    startsWithCastOns fuel tgt acc'
  | _ + 1, .get _, acc => .ok acc
  | _ + 1, .nativeFunction _, acc => .ok acc

/-- Left fold of `_starts_with_cast_ons` over a child list (the
`reduce(lambda acc, node: function(node, acc), children, initializer)`
of `ast_reduce`). -/
def swcoFold : Nat → List Node → Bool → Except Err Bool
  | 0, _, _ => .error .noFuel
  | _ + 1, [], acc => .ok acc
  | fuel + 1, s :: ss, acc => do
    let acc' ← startsWithCastOns fuel s acc
    swcoFold fuel ss acc'

end

mutual

/-- Mirrors `_infer_sides(node, side)`: a pattern restarts from the
cast-on rule, rows and siblings receive sides from the alternating
series, and a row keeps an explicit non-inferred side. -/
def inferSides : Nat → Node → Side → Except Err Node
  | 0, _, _ => .error .noFuel
  | fuel + 1, .pattern rows params env c p, _ => do
    let co ← startsWithCastOns fuel (.pattern rows params env c p) true
    let side := if co then Side.Wrong else Side.Right
    let rows' ← inferSidesZip fuel rows (side.alternates rows.length)
    .ok (.pattern rows' params env c p)
  | fuel + 1, .block ps c p, side => do
    let ps' ← inferSidesZip fuel ps (side.alternates ps.length)
    .ok (.block ps' c p)
  | fuel + 1, .fixedBlockRepeat blk t c p, side => do
    let blk' ← inferSides fuel blk side
    .ok (.fixedBlockRepeat blk' t c p)
  | fuel + 1, .rowRepeat rows t c p, side => do
    let rows' ← inferSidesZip fuel rows (side.alternates rows.length)
    .ok (.rowRepeat rows' t c p)
  | _ + 1, .row sts side₀ inf c p, side =>
    if side₀ = none ∨ inf then .ok (.row sts (some side) true c p)
    else .ok (.row sts side₀ inf c p)
  | _ + 1, _, _ => .error .typeError

/-- Mirrors `map(_infer_sides, children, side.alternate())`. -/
def inferSidesZip : Nat → List Node → List Side → Except Err (List Node)
  | 0, _, _ => .error .noFuel
  | _ + 1, [], _ => .ok []
  | _ + 1, _ :: _, [] => .ok []
  | fuel + 1, s :: ss, d :: ds => do
    let s' ← inferSides fuel s d
    let rest ← inferSidesZip fuel ss ds
    .ok (s' :: rest)

end

/-!
Row counting (`interpreter.count_rows`, lines 190-223) and helpers of
the normalizer and horizontal composer.
-/

mutual

/-- Mirrors `count_rows`: number of physical rows of a subexpression.
For unregistered node kinds Python falls back to `ast_map` and returns a
node, which then crashes in the caller's arithmetic; that is modelled as
an immediate TypeError. -/
def countRows : Nat → Node → Except Err Int
  | 0, _ => .error .noFuel
  | _ + 1, .row _ _ _ _ _ => .ok 1
  | fuel + 1, .rowRepeat rows t _ _ => do
    let s ← sumCountRows fuel rows
    .ok (s * (t : Int))
  | fuel + 1, .pattern rows _ _ c p =>
    countRows fuel (.rowRepeat rows 1 c p)
  | fuel + 1, .block ps _ _ =>
    match ps with
    | [] => .error .valueError
    | q :: qs => do
      let c ← countRows fuel q
      maxCountRows fuel qs c
  | fuel + 1, .fixedBlockRepeat blk _ _ _ => countRows fuel blk
  | _ + 1, _ => .error .typeError

/-- Sum of `count_rows` over a list of rows. -/
def sumCountRows : Nat → List Node → Except Err Int
  | 0, _ => .error .noFuel
  | _ + 1, [] => .ok 0
  | fuel + 1, r :: rs => do
    let c ← countRows fuel r
    let rest ← sumCountRows fuel rs
    .ok (c + rest)

/-- Maximum of `count_rows` over block siblings. -/
def maxCountRows : Nat → List Node → Int → Except Err Int
  | 0, _, _ => .error .noFuel
  | _ + 1, [], acc => .ok acc
  | fuel + 1, q :: qs, acc => do
    let c ← countRows fuel q
    maxCountRows fuel qs (max acc c)
end

/-- Mirrors `_starting_side` (interpreter.py 827-839). -/
def startingSide : Nat → Node → Except Err (Option Side)
  | 0, _ => .error .noFuel
  | fuel + 1, .rowRepeat rows _ _ _ =>
    match rows.head? with
    | some r => startingSide fuel r
    | none => .error .indexError
  | _ + 1, .row _ side _ _ _ => .ok side
  | _ + 1, _ => .error .typeError

/-- Iterations of the `_repeat_rows` generator (interpreter.py 812-824):
each iteration yields the current rows; after every iteration an
odd-length row list flips the side (`None.flip()` is an AttributeError)
and re-infers the sides of the next iteration's rows. -/
def repeatRowsGo (fuel : Nat) :
    Nat → List Node → Option Side → Except Err (List Node)
  | 0, _, _ => .ok []
  | k + 1, rows, side => do
    let (side', rows') ←
      if rows.length % 2 ≠ 0 then do
        let s ← match side with
          | some s => pure s.flip
          | none => .error Err.attributeError
        let rows'' ← inferSidesZip fuel rows (s.alternates rows.length)
        pure (some s, rows'')
      else pure (side, rows)
    let rest ← repeatRowsGo fuel k rows' side'
    .ok (rows ++ rest)

/-- Mirrors `list(_repeat_rows(rows, times))`: the generator reads the
starting side of `rows[0]` before yielding anything, so an empty row list
is an IndexError even for zero repetitions. -/
def repeatRows (fuel : Nat) (rows : List Node) (times : Nat) :
    Except Err (List Node) := do
  match rows.head? with
  | none => .error .indexError
  | some r0 => do
    let side ← startingSide fuel r0
    repeatRowsGo fuel times rows side

/-!
Normalizer and horizontal composer (`interpreter._flatten`,
`_repeat_across`, `_merge_across`, `_increase_expanding_repeats`,
`_padded_zip`, `_lcm`, lines 342-455 and 608-736).
-/

/-- Mirrors `isinstance(node, FixedStitchRepeat)` (a Row is one, with
`times` 1) and reads `(stitches, times, consumes, produces)`. -/
def fsrView : Node → Option (List Node × Nat × Option Int × Option Int)
  | .fixedRep sts t c p => some (sts, t, c, p)
  | .row sts _ _ c p => some (sts, 1, c, p)
  | _ => none

/-- Mirrors `isinstance(node, RowRepeat)` (a Pattern is one, with `times`
1) and reads `(rows, times)`. -/
def rrView : Node → Option (List Node × Nat)
  | .rowRepeat rows t _ _ => some (rows, t)
  | .pattern rows _ _ _ _ => some (rows, 1)
  | _ => none

/-- Mirrors `attrgetter("rows")`. -/
def rowsAttr : Node → Except Err (List Node)
  | .rowRepeat rows _ _ _ => .ok rows
  | .pattern rows _ _ _ _ => .ok rows
  | _ => .error .attributeError

/-- Reads the fields of a Row node, AttributeError otherwise. -/
def rowView : Node →
    Except Err (List Node × Option Side × Bool × Option Int × Option Int)
  | .row sts side inf c p => .ok (sts, side, inf, c, p)
  | _ => .error .attributeError

/-- Constructor tag, mirroring `type(node)` comparisons. -/
def nodeTag : Node → Nat
  | .stitchLit _ => 0
  | .fixedRep _ _ _ _ => 1
  | .expandingRep _ _ _ _ => 2
  | .row _ _ _ _ _ => 3
  | .rowRepeat _ _ _ _ => 4
  | .pattern _ _ _ _ _ => 5
  | .block _ _ _ => 6
  | .fixedBlockRepeat _ _ _ _ => 7
  | .get _ => 8
  | .call _ _ => 9
  | .nativeFunction _ => 10

/-- Mirrors `len(set(map(type, item))) == 1` for one aligned position. -/
def allSameTag : List Node → Bool
  | [] => true
  | n :: ns => ns.all (fun m => nodeTag m = nodeTag n)

/-- Mirrors `to_fixed_repeat` (asttools.py 151-182): registered for rows,
expanding repeats and patterns only; anything else is a TypeError. -/
def toFixedRepeat : Node → Except Err Node
  | .row sts _ _ c p => .ok (.fixedRep sts 1 c p)
  | .expandingRep sts _ _ _ => .ok (.fixedRep sts 1 none none)
  | .pattern rows _ _ c p => .ok (.rowRepeat rows 1 c p)
  | _ => .error .typeError

/-- Maps `to_fixed_repeat` over merge siblings. -/
def toFixedAll : List Node → Except Err (List Node)
  | [] => .ok []
  | n :: ns => do
    let n' ← toFixedRepeat n
    let rest ← toFixedAll ns
    .ok (n' :: rest)

/-- Fill value of `_padded_zip`: an empty right-side row with zero
counts. -/
def fillRow : Node := .row [] (some .Right) false (some 0) (some 0)

/-- Steps of `zip_longest` over several row lists. -/
def pzGo : Nat → List (List Node) → List (List Node)
  | 0, _ => []
  | k + 1, ls =>
    if ls.all (·.isEmpty) then []
    else (ls.map (fun l => l.headD fillRow)) :: pzGo k (ls.map (·.tail))

/-- Mirrors `_padded_zip(*rows)` (interpreter.py 727-732). -/
def paddedZipN (ls : List (List Node)) : List (List Node) :=
  pzGo (ls.foldl (fun a l => max a l.length) 0) ls

mutual

/-- Stitch subtrees in normal form for the flattener: literals, fixed
repeats whose `times` is not 1 and whose stitch list is not a single
fixed repeat or row (so neither the collapse branch nor the splice
rewrites them), and expanding repeats of such subtrees. -/
def flatStitch : Node → Bool
  | .stitchLit _ => true
  | .fixedRep sts t _ _ =>
    decide (t ≠ 1) && flatStitchList sts &&
    (match sts with
     | [first] => (fsrView first).isNone
     | _ => true)
  | .expandingRep sts _ _ _ => flatStitchList sts
  | _ => false

/-- All members are normal-form stitch subtrees. -/
def flatStitchList : List Node → Bool
  | [] => true
  | s :: ss => flatStitch s && flatStitchList ss

end

/-- A row whose stitches are all in flattener normal form. -/
def flatRow : Node → Bool
  | .row sts _ _ _ _ => flatStitchList sts
  | _ => false

/-- All members are normal-form rows. -/
def flatRowList : List Node → Bool
  | [] => true
  | r :: rs => flatRow r && flatRowList rs

/-- A block-free pattern whose rows are all plain normal-form rows. -/
def flatPattern : Node → Bool
  | .pattern rows _ _ _ _ => flatRowList rows
  | _ => false

/-- Two aligned positions that hold the same pair of siblings in the two
opposite merge orders. -/
def swappedPair (p₁ p₂ : List Node) : Prop :=
  ∃ u v, p₁ = [u, v] ∧ p₂ = [v, u]

/-- One step of `_lcm`'s reduce: `x * y // gcd(x, y)`; `gcd(0, 0) = 0`
makes the division a ZeroDivisionError. -/
def lcmStep (x y : Int) : Except Err Int :=
  let g : Int := (Int.gcd x y : Int)
  if g = 0 then .error .zeroDivisionError else .ok ((x * y).fdiv g)

/-- Mirrors `_lcm(*nums)` (interpreter.py 735-736), folding from 1. -/
def lcmFold : List Int → Int → Except Err Int
  | [], acc => .ok acc
  | x :: xs, acc => do
    let acc' ← lcmStep acc x
    lcmFold xs acc'

/-- Mirrors `ceil(a / b)` on integer operands (ZeroDivisionError for
`b = 0`; the Python float division is exact at the magnitudes involved). -/
def ceilDiv (a b : Int) : Except Err Int :=
  if b = 0 then .error .zeroDivisionError else .ok (-((-a).fdiv b))

/-- Sum of cached `consumes` over a list (`sum(map(attrgetter(
"consumes"), rows))`). -/
def listConsSum : List Node → Except Err Int
  | [] => .ok 0
  | r :: rs => do
    let c ← consOf r
    let rest ← listConsSum rs
    .ok (c + rest)

/-- Sum of cached `produces` over a list. -/
def listProdSum : List Node → Except Err Int
  | [] => .ok 0
  | r :: rs => do
    let p ← prodOf r
    let rest ← listProdSum rs
    .ok (p + rest)

/-- For each position `i`, `sum(map(attrgetter("consumes"),
rows[i+1:]))`: the stitches contributed by rows after it. -/
def suffixConsSums : List Node → Except Err (List Int)
  | [] => .ok []
  | _ :: rs => do
    let s ← listConsSum rs
    let rest ← suffixConsSums rs
    .ok (s :: rest)

mutual

/-- Mirrors `_increase_expanding_repeats(node, n)` (interpreter.py
690-704): adds `n` to the `to_last` of every expanding repeat
(`NaturalLit.of` modelled as requiring a non-negative result). -/
def increaseExp : Nat → Node → Int → Except Err Node
  | 0, _, _ => .error .noFuel
  | fuel + 1, .expandingRep sts tl c p, n => do
    let sts' ← increaseExpList fuel sts n
    let v : Int := (tl : Int) + n
    if v < 0 then .error .valueError
    else .ok (.expandingRep sts' v.toNat c p)
  | fuel + 1, .fixedRep sts t c p, n => do
    let sts' ← increaseExpList fuel sts n
    .ok (.fixedRep sts' t c p)
  | fuel + 1, .row sts side inf c p, n => do
    let sts' ← increaseExpList fuel sts n
    .ok (.row sts' side inf c p)
  | fuel + 1, .rowRepeat rows t c p, n => do
    let rows' ← increaseExpList fuel rows n
    .ok (.rowRepeat rows' t c p)
  | fuel + 1, .pattern rows params env c p, n => do
    let rows' ← increaseExpList fuel rows n
    .ok (.pattern rows' params env c p)
  | fuel + 1, .block ps c p, n => do
    let ps' ← increaseExpList fuel ps n
    .ok (.block ps' c p)
  | fuel + 1, .fixedBlockRepeat blk t c p, n => do
    let blk' ← increaseExp fuel blk n
    .ok (.fixedBlockRepeat blk' t c p)
  | fuel + 1, .call tgt args, n => do
    let tgt' ← increaseExp fuel tgt n
    let args' ← increaseExpList fuel args n
    .ok (.call tgt' args')
  | _ + 1, .stitchLit v, _ => .ok (.stitchLit v)
  | _ + 1, .get name, _ => .ok (.get name)
  | _ + 1, .nativeFunction i, _ => .ok (.nativeFunction i)

/-- Maps `_increase_expanding_repeats` over a child list. -/
def increaseExpList : Nat → List Node → Int → Except Err (List Node)
  | 0, _, _ => .error .noFuel
  | _ + 1, [], _ => .ok []
  | fuel + 1, s :: ss, n => do
    let s' ← increaseExp fuel s n
    let rest ← increaseExpList fuel ss n
    .ok (s' :: rest)

end

mutual

/-- Mirrors `_repeat_across(node, times)` (interpreter.py 440-455): every
row's stitches are wrapped in a fixed repeat multiplied `times` times. -/
def repeatAcross : Nat → Node → Nat → Except Err Node
  | 0, _, _ => .error .noFuel
  | _ + 1, .row sts _side inf c p, t => do
    let cv ← asInt c
    let pv ← asInt p
    .ok (.row [.fixedRep sts t (some (cv * (t : Int))) (some (pv * (t : Int)))]
      _side inf (some (cv * (t : Int))) (some (pv * (t : Int))))
  | fuel + 1, .fixedRep sts tm c p, t => do
    let sts' ← repeatAcrossList fuel sts t
    .ok (.fixedRep sts' tm c p)
  | fuel + 1, .expandingRep sts tl c p, t => do
    let sts' ← repeatAcrossList fuel sts t
    .ok (.expandingRep sts' tl c p)
  | fuel + 1, .rowRepeat rows tm c p, t => do
    let rows' ← repeatAcrossList fuel rows t
    .ok (.rowRepeat rows' tm c p)
  | fuel + 1, .pattern rows params env c p, t => do
    let rows' ← repeatAcrossList fuel rows t
    .ok (.pattern rows' params env c p)
  | fuel + 1, .block ps c p, t => do
    let ps' ← repeatAcrossList fuel ps t
    .ok (.block ps' c p)
  | fuel + 1, .fixedBlockRepeat blk tm c p, t => do
    let blk' ← repeatAcross fuel blk t
    .ok (.fixedBlockRepeat blk' tm c p)
  | fuel + 1, .call tgt args, t => do
    let tgt' ← repeatAcross fuel tgt t
    let args' ← repeatAcrossList fuel args t
    .ok (.call tgt' args')
  | _ + 1, .stitchLit v, _ => .ok (.stitchLit v)
  | _ + 1, .get name, _ => .ok (.get name)
  | _ + 1, .nativeFunction i, _ => .ok (.nativeFunction i)

/-- Maps `_repeat_across` over a child list. -/
def repeatAcrossList : Nat → List Node → Nat → Except Err (List Node)
  | 0, _, _ => .error .noFuel
  | _ + 1, [], _ => .ok []
  | fuel + 1, s :: ss, t => do
    let s' ← repeatAcross fuel s t
    let rest ← repeatAcrossList fuel ss t
    .ok (s' :: rest)

end

/-- Row-merge preprocessing: every row whose side differs from the
reference side is reversed with `before = 0`. -/
def processRows (fuel : Nat) (side : Option Side) :
    List Node → Except Err (List Node)
  | [] => .ok []
  | r :: rs => do
    let (_, rside, _, _, _) ← rowView r
    let r' ← if rside = side then pure r else reverseNode fuel r 0
    let rest ← processRows fuel side rs
    .ok (r' :: rest)

/-- Applies `_increase_expanding_repeats` pointwise to rows and their
suffix-consumes amounts. -/
def increaseAll (fuel : Nat) : List Node → List Int → Except Err (List Node)
  | [], _ => .ok []
  | _ :: _, [] => .ok []
  | r :: rs, n :: ns => do
    let r' ← increaseExp fuel r n
    let rest ← increaseAll fuel rs ns
    .ok (r' :: rest)

/-- Concatenation of the merged rows' stitch lists
(`chain.from_iterable(map(attrgetter("stitches"), rows))`). -/
def stitchesConcat : List Node → Except Err (List Node)
  | [] => .ok []
  | r :: rs => do
    let (sts, _, _, _, _) ← rowView r
    let rest ← stitchesConcat rs
    .ok (sts ++ rest)

/-- Mirrors the Row register of `_merge_across` (interpreter.py 662-687):
the first row's side is the reference, right-side merges read the
siblings right-to-left, differing rows are reversed, and expanding
repeats reserve the stitches contributed by later siblings. -/
def mergeRows (fuel : Nat) (nodes : List Node) : Except Err Node := do
  match nodes.head? with
  | none => .error .indexError
  | some h => do
    let (_, side, _, _, _) ← rowView h
    let ordered := if side = some Side.Right then nodes.reverse else nodes
    let processed ← processRows fuel side ordered
    let afters ← suffixConsSums processed
    let rows₂ ← increaseAll fuel processed afters
    match rows₂.head? with
    | none => .error .indexError
    | some h₂ => do
      let (_, _, inf₀, _, _) ← rowView h₂
      let stsCat ← stitchesConcat rows₂
      let cSum ← listConsSum rows₂
      let pSum ← listProdSum rows₂
      .ok (.row stsCat side inf₀ (some cSum) (some pSum))

/-- Collapse test of the FixedStitchRepeat case of `_flatten`: fires when
`times ≠ 1` and the only stitch is itself a fixed stitch repeat. -/
def collapseView (t : Nat) (sts : List Node) :
    Option (List Node × Nat × Option Int × Option Int) :=
  if t ≠ 1 then
    match sts with
    | [first] => fsrView first
    | _ => none
  else none

/-- Per-sibling expansion data of the aligned branch of the RowRepeat
merge: `min(rep.times, num_rows // sum(count_rows(rows)))` repetitions of
its rows. -/
def expandOne (fuel : Nat) (rep : Node) (numRows : Int) :
    Except Err (List Node) := do
  match rrView rep with
  | none => .error .attributeError
  | some (rows, t) => do
    let s ← sumCountRows fuel rows
    if s = 0 then .error .zeroDivisionError else do
    let tms : Int := min (t : Int) (numRows.fdiv s)
    repeatRows fuel rows tms.toNat

/-- Maps `expandOne` over the merge siblings. -/
def expandAll (fuel : Nat) (reps : List Node) (numRows : Int) :
    Except Err (List (List Node)) :=
  match reps with
  | [] => .ok []
  | r :: rs => do
    let e ← expandOne fuel r numRows
    let rest ← expandAll fuel rs numRows
    .ok (e :: rest)

/-- Maps `rowsAttr` over the merge siblings. -/
def rowsAttrAll : List Node → Except Err (List (List Node))
  | [] => .ok []
  | r :: rs => do
    let x ← rowsAttr r
    let rest ← rowsAttrAll rs
    .ok (x :: rest)

/-- Maps `count_rows` over the merge siblings and takes the maximum
(ValueError on an empty sequence, as Python `max`). -/
def maxCountRowsAll (fuel : Nat) : List Node → Except Err Int
  | [] => .error .valueError
  | r :: rs => do
    let c ← countRows fuel r
    maxCountRows fuel rs c

/-- Maps `sum(map(count_rows, rep.rows))` over the row lists of the merge
siblings. -/
def sumsAll (fuel : Nat) : List (List Node) → Except Err (List Int)
  | [] => .ok []
  | l :: ls => do
    let s ← sumCountRows fuel l
    let rest ← sumsAll fuel ls
    .ok (s :: rest)

mutual

/-- Mirrors `_flatten(node, unroll)` (interpreter.py 342-437): collapses
nested singleton fixed repeats by multiplying their times, splices
once-only fixed repeats, row repeats with `times ≤ 1` (or any row repeat
under `unroll`), and patterns used as rows, reduces blocks through the
horizontal composer, and expands fixed block repeats horizontally.  The
`assert flattened.consumes == row.consumes` checks of the Row and Pattern
cases hold by construction (the rebuilt node keeps the caches) and are
omitted. -/
def flatten : Nat → Node → Bool → Except Err Node
  | 0, _, _ => .error .noFuel
  | fuel + 1, .fixedRep sts t c p, unroll =>
    match collapseView t sts with
    | some (fsts, ft, fc, fp) => do
      let fcv ← asInt fc
      let fpv ← asInt fp
      let fsts' ← flattenEach fuel fsts unroll
      .ok (.fixedRep fsts' (ft * t) (some (fcv * (t : Int)))
        (some (fpv * (t : Int))))
    | none => do
      let sts' ← flattenSplice fuel sts unroll
      .ok (.fixedRep sts' t c p)
  | fuel + 1, .row sts side inf c p, unroll => do
    -- to_fixed_repeat(row) has times 1, so the collapse branch never fires
    let sts' ← flattenSplice fuel sts unroll
    .ok (.row sts' side inf c p)
  | fuel + 1, .rowRepeat rows t c p, unroll => do
    let rows' ← flattenRows fuel rows unroll
    .ok (.rowRepeat rows' t c p)
  | fuel + 1, .pattern rows params env c p, unroll => do
    let rows' ← flattenRows fuel rows unroll
    .ok (.pattern rows' params env c p)
  | fuel + 1, .block ps _ _, unroll => do
    let ps' ← flattenEach fuel ps unroll
    mergeAcross fuel ps'
  | fuel + 1, .fixedBlockRepeat blk t _ _, unroll => do
    let b₁ ← flatten fuel blk unroll
    let b₂ ← repeatAcross fuel b₁ t
    let p₃ ← flatten fuel b₂ unroll
    match p₃ with
    | .pattern rows params env c p => do
      let cv ← asInt c
      let pv ← asInt p
      .ok (.pattern rows params env (some (cv * (t : Int)))
        (some (pv * (t : Int))))
    | _ => .error .assertionError
  | fuel + 1, .expandingRep sts tl c p, unroll => do
    -- generic ast_map case: children flattened in place
    let sts' ← flattenEach fuel sts unroll
    .ok (.expandingRep sts' tl c p)
  | fuel + 1, .call tgt args, unroll => do
    let tgt' ← flatten fuel tgt unroll
    let args' ← flattenEach fuel args unroll
    .ok (.call tgt' args')
  | _ + 1, .stitchLit v, _ => .ok (.stitchLit v)
  | _ + 1, .get name, _ => .ok (.get name)
  | _ + 1, .nativeFunction i, _ => .ok (.nativeFunction i)

/-- Plain `map` of `_flatten` over children (the `ast_map` recursion used
by the collapse branch and the generic case). -/
def flattenEach : Nat → List Node → Bool → Except Err (List Node)
  | 0, _, _ => .error .noFuel
  | _ + 1, [], _ => .ok []
  | fuel + 1, s :: ss, unroll => do
    let s' ← flatten fuel s unroll
    let rest ← flattenEach fuel ss unroll
    .ok (s' :: rest)

/-- Else branch of the FixedStitchRepeat case of `_flatten`: flattens
each stitch and splices the contents of any result that is a fixed
stitch repeat (a Row included) repeating exactly once. -/
def flattenSplice : Nat → List Node → Bool → Except Err (List Node)
  | 0, _, _ => .error .noFuel
  | _ + 1, [], _ => .ok []
  | fuel + 1, s :: ss, unroll => do
    let s' ← flatten fuel s unroll
    let rest ← flattenSplice fuel ss unroll
    match fsrView s' with
    | some (sts', 1, _, _) => .ok (sts' ++ rest)
    | _ => .ok (s' :: rest)

/-- RowRepeat case of `_flatten`: flattens each row and splices the rows
of a nested row repeat with `times ≤ 1` (or any nested row repeat when
unrolling; a Pattern is a RowRepeat with `times` 1, so its rows are
spliced through `_repeat_rows(rows, 1)` as well). -/
def flattenRows : Nat → List Node → Bool → Except Err (List Node)
  | 0, _, _ => .error .noFuel
  | _ + 1, [], _ => .ok []
  | fuel + 1, r :: rs, unroll => do
    let r' ← flatten fuel r unroll
    let rest ← flattenRows fuel rs unroll
    match rrView r' with
    | some (rrows, rt) =>
      if unroll ∨ rt ≤ 1 then do
        let spliced ← repeatRows fuel rrows rt
        .ok (spliced ++ rest)
      else .ok (r' :: rest)
    | none => .ok (r' :: rest)

/-- Mirrors `_merge_across(*nodes)` (interpreter.py 608-659): dispatch on
the first node (Pattern before RowRepeat, Row otherwise), TypeError on
unsupported kinds, IndexError on no arguments. -/
def mergeAcross : Nat → List Node → Except Err Node
  | 0, _ => .error .noFuel
  | fuel + 1, nodes =>
    match nodes.head? with
    | none => .error .indexError
    | some h =>
      match h with
      | .pattern _ _ _ _ _ => do
        let mapped ← toFixedAll nodes
        let rep ← mergeAcross fuel mapped
        match rep with
        | .rowRepeat rows _ c p => .ok (.pattern rows [] none c p)
        | _ => .error .assertionError
      | .rowRepeat _ _ _ _ => mergeReps fuel nodes
      | .row _ _ _ _ _ => mergeRows fuel nodes
      | _ => .error .typeError

/-- RowRepeat register of `_merge_across`: if some aligned position mixes
node kinds, unroll every sibling fully and merge row by row with an outer
repeat of 1; otherwise expand each sibling `min(times, L / rows)` times,
where `L` is the least common multiple of the siblings' total row counts,
merge position-wise, and repeat the result `ceil(max(count_rows) / L)`
times. -/
def mergeReps : Nat → List Node → Except Err Node
  | 0, _ => .error .noFuel
  | fuel + 1, reps => do
    let rl ← rowsAttrAll reps
    if ¬ (paddedZipN rl).all allSameTag then do
      let flat ← mergeFlattenAll fuel reps
      let rl' ← rowsAttrAll flat
      let rows ← mergePositions fuel (paddedZipN rl')
      match rows.head?, rows.getLast? with
      | some h, some lst =>
        match h.consumesAttr, lst.producesAttr with
        | some c₀, some pN => .ok (.rowRepeat rows 1 c₀ pN)
        | _, _ => .error .attributeError
      | _, _ => .error .indexError
    else do
      let sums ← sumsAll fuel rl
      let l ← lcmFold sums 1
      let expanded ← expandAll fuel reps l
      let rows ← mergePositions fuel (paddedZipN expanded)
      let mx ← maxCountRowsAll fuel reps
      let t ← ceilDiv mx l
      match rows.head?, rows.getLast? with
      | some h, some lst =>
        match h.consumesAttr, lst.producesAttr with
        | some c₀, some pN => .ok (.rowRepeat rows t.toNat c₀ pN)
        | _, _ => .error .attributeError
      | _, _ => .error .indexError

/-- Mirrors `starmap(_merge_across, positions)`. -/
def mergePositions : Nat → List (List Node) → Except Err (List Node)
  | 0, _ => .error .noFuel
  | _ + 1, [] => .ok []
  | fuel + 1, pos :: rest => do
    let r ← mergeAcross fuel pos
    let rs ← mergePositions fuel rest
    .ok (r :: rs)

/-- Mirrors `map(partial(_flatten, unroll=True), reps)` in the mixed-kind
branch of the RowRepeat merge. -/
def mergeFlattenAll : Nat → List Node → Except Err (List Node)
  | 0, _ => .error .noFuel
  | _ + 1, [] => .ok []
  | fuel + 1, r :: rs => do
    let r' ← flatten fuel r true
    let rest ← mergeFlattenAll fuel rs
    .ok (r' :: rest)

end

/-- verify_pattern (verifier.py 45-63): count checks, the whole-pattern
cast-on/bind-off balance checks, and PSSO checks.  `pattern.consumes != 0`
is an `!=` comparison, so a `None` cache also yields the diagnostic.
`_verify_make` is omitted (see the header note). -/
def verifyPattern (fuel : Nat) (p : Node) : Except Err (List KnitError) := do
  let errs₁ ← verifyCounts fuel p (some 0)
  if p.isKnittable then do
    let c := p.consumesAttr.getD none
    let pr := p.producesAttr.getD none
    let errs₂ := if c ≠ some 0 then [KnitError.castOnMismatch c p] else []
    let errs₃ := if pr ≠ some 0 then [KnitError.bindOffMismatch pr p] else []
    let errs₄ ← verifyPsso fuel p
    .ok (errs₁ ++ errs₂ ++ errs₃ ++ errs₄)
  else .error .assertionError

/-!
Substitution and calls (`interpreter.substitute`, `do_call`, lines
64-145).  Environments are association lists; lookup takes the first
binding, so a dict update `{**base, **over}` is `over' ++ base` with
`over'` ordered so that the last Python binding for a name comes first.
-/

/-- Mirrors `env[name]` returning `none` for a KeyError. -/
def envLookup : List (String × Node) → String → Option Node
  | [], _ => none
  | (k, v) :: rest, name => if k = name then some v else envLookup rest name

mutual

/-- Mirrors `substitute(node, env)`: a Get is replaced by its binding
(KeyError when unbound), a Call is evaluated through `do_call`, all other
nodes map substitution over their children. -/
def substitute : Nat → Node → List (String × Node) → Except Err Node
  | 0, _, _ => .error .noFuel
  | _ + 1, .get name, env =>
    match envLookup env name with
    | some v => .ok v
    | none => .error .keyError
  | fuel + 1, .call tgt args, env => doCall fuel tgt args env
  | fuel + 1, .fixedRep sts t c p, env => do
    let sts' ← substList fuel sts env
    .ok (.fixedRep sts' t c p)
  | fuel + 1, .expandingRep sts tl c p, env => do
    let sts' ← substList fuel sts env
    .ok (.expandingRep sts' tl c p)
  | fuel + 1, .row sts side inf c p, env => do
    let sts' ← substList fuel sts env
    .ok (.row sts' side inf c p)
  | fuel + 1, .rowRepeat rows t c p, env => do
    let rows' ← substList fuel rows env
    .ok (.rowRepeat rows' t c p)
  | fuel + 1, .pattern rows params penv c p, env => do
    let rows' ← substList fuel rows env
    .ok (.pattern rows' params penv c p)
  | fuel + 1, .block ps c p, env => do
    let ps' ← substList fuel ps env
    .ok (.block ps' c p)
  | fuel + 1, .fixedBlockRepeat blk t c p, env => do
    let blk' ← substitute fuel blk env
    .ok (.fixedBlockRepeat blk' t c p)
  | _ + 1, .stitchLit v, _ => .ok (.stitchLit v)
  | _ + 1, .nativeFunction i, _ => .ok (.nativeFunction i)

/-- Mirrors `do_call(call, env)` (interpreter.py 121-145): resolves a Get
target by substitution, requires a Pattern or NativeFunction target,
checks the argument count against the pattern's parameters before the
arguments are substituted (the lazy `map` is only forced by
`dict(zip(...))` after the arity check), and substitutes the body with
emptied parameters under the captured environment extended with the
parameter bindings.  A `None` captured environment is the
`{**None, ...}` TypeError.  NativeFunction targets run host code outside
the modelled fragment. -/
def doCall (fuel : Nat) (tgt : Node) (args : List Node)
    (env : List (String × Node)) : Except Err Node :=
  match fuel with
  | 0 => .error .noFuel
  | fuel + 1 => do
    let target ←
      match tgt with
      | .get name => substitute fuel (.get name) env
      | t => pure t
    match target with
    | .pattern rows params penv c p =>
      if args.length ≠ params.length then
        .error (.arityMismatch args.length params.length)
      else
        match penv with
        | none => .error .typeError
        | some te => do
          let args' ← substList fuel args env
          substitute fuel (.pattern rows [] penv c p)
            ((params.zip args').reverse ++ te)
    | .nativeFunction _ => .error .nativeUnsupported
    | _ => .error .assertionError

/-- Maps substitution over a node list. -/
def substList : Nat → List Node → List (String × Node) →
    Except Err (List Node)
  | 0, _, _ => .error .noFuel
  | _ + 1, [], _ => .ok []
  | fuel + 1, s :: ss, env => do
    let s' ← substitute fuel s env
    let rest ← substList fuel ss env
    .ok (s' :: rest)

end

/-!
Statement-side definitions: the running stitch counter of the
conservation property.
-/

/-- Running stitch counter over a row list: starting from `c`, every row
carries cached counts, the counter never goes negative (neither after
subtracting the row's consumes nor after adding its produces), and it
ends at exactly 0 after the last row. -/
def conserves : List Node → Int → Prop
  | [], c => c = 0
  | r :: rs, c => ∃ a b, r.consumesAttr = some (some a) ∧
      r.producesAttr = some (some b) ∧
      0 ≤ c ∧ 0 ≤ c - a ∧ 0 ≤ c - a + b ∧ conserves rs (c - a + b)

/-!
General helper lemmas.
-/

theorem bindOk {α β : Type} {x : Except Err α} {f : α → Except Err β} {b : β} :
    x >>= f = .ok b ↔ ∃ a, x = .ok a ∧ f a = .ok b := by
  cases x <;> simp [Bind.bind, Except.bind]

theorem asIntOk {o : Option Int} {i : Int} : asInt o = .ok i ↔ o = some i := by
  cases o <;> simp [asInt]

theorem atLeastNil {e a : Int} {n : Node} : atLeast e a n = [] ↔ e ≤ a := by
  by_cases h : e > a
  · simp [atLeast, h]
  · simp [atLeast, h]; omega

theorem exactlyNil {e a : Int} {n : Node} : exactly e a n = [] ↔ e = a := by
  by_cases h₁ : e > a <;> by_cases h₂ : e < a <;>
    simp [exactly, atLeast, h₁, h₂] <;> omega

theorem exactlyNe {e a : Int} {n : Node} (h : e ≠ a) : exactly e a n ≠ [] := by
  intro hc; exact h (exactlyNil.mp hc)

/-- Every stitch kind consumes a non-negative number of stitches. -/
theorem stitch_consumes_nonneg (v : Stitch) : 0 ≤ v.consumes := by
  cases v <;> simp [Stitch.consumes]

/-- Reversing a stitch kind twice gives it back, and reversal preserves
the consumed/produced counts. -/
theorem stitch_reverse_involutive (v r : Stitch) (h : v.reverse = some r) :
    r.reverse = some v ∧ r.consumes = v.consumes ∧ r.produces = v.produces := by
  cases v <;> simp only [Stitch.reverse] at h <;>
    first
    | exact Option.noConfusion h
    | (injection h with h'; subst h'; decide)

/-!
Claim theorems.
-/

/-- C8: a stitch literal whose kind has a reverse mapping reverses to
exactly the mapped kind, a stitch literal whose kind has none (only PSSO
in the catalog) makes reversal abort with the hard Irreversible error,
and the stitch is never dropped or passed through unchanged. -/
theorem C8_reverse_stitch_literal (v : Stitch) (fuel : Nat) (before : Int) :
    (∀ r, v.reverse = some r →
      reverseNode (fuel + 1) (.stitchLit v) before = .ok (.stitchLit r))
    ∧ (v.reverse = none →
      reverseNode (fuel + 1) (.stitchLit v) before = .error (.irreversible v))
    ∧ (v.reverse = none ↔ v = .PSSO) := by
  refine ⟨?_, ?_, ?_⟩
  · intro r hr; simp [reverseNode, hr]
  · intro hr; simp [reverseNode, hr]
  · cases v <;> simp [Stitch.reverse]

/-- C2: count inference on an expanding stitch repeat fails with the
ambiguous-repeat error exactly when the available budget is unknown; with
a known budget it computes `n = (available - to_last) // unit_consumes`
by floor division and installs `consumes = n * unit_consumes`,
`produces = n * unit_produces` even when the division has a remainder,
while the verifier (not the inferencer) reports the inexactness as a
left-over-stitches diagnostic. -/
theorem C2_expanding_repeat_inference (fuel f' : Nat) (sts sts' : List Node)
    (tl : Nat) (c p : Option Int) (a cu pu : Int) (errs₀ : List KnitError) :
    inferCounts (fuel + 1) (.expandingRep sts tl c p) none =
      .error .ambiguousRepeat
    ∧ (inferCounts fuel (.fixedRep sts 1 none none) (some (a - (tl : Int))) =
          .ok (.fixedRep sts' 1 (some cu) (some pu)) → cu ≠ 0 →
        inferCounts (fuel + 1) (.expandingRep sts tl c p) (some a) =
          .ok (.expandingRep sts' tl
            (some (cu * ((a - (tl : Int)).fdiv cu)))
            (some (pu * ((a - (tl : Int)).fdiv cu)))))
    ∧ (∀ cc pp : Int, verifyCounts f' (.fixedRep sts' 1 none none)
          (some (a - (tl : Int))) = .ok errs₀ → cc ≠ 0 →
        ¬ (cc ∣ (a - (tl : Int))) →
        ∃ errs, verifyCounts (f' + 1)
            (.expandingRep sts' tl (some cc) (some pp)) (some a) =
            .ok errs ∧ errs ≠ []) := by
  refine ⟨by simp [inferCounts], ?_, ?_⟩
  · intro h hcu
    simp only [inferCounts, h, bindOk]
    simp [Bind.bind, Except.bind, asInt, hcu]
  · intro cc pp h hcc hdvd
    refine ⟨errs₀ ++ exactly (((a - (tl : Int)).fdiv cc) * cc)
      (a - (tl : Int)) (.expandingRep sts' tl (some cc) (some pp)), ?_, ?_⟩
    · simp only [verifyCounts, asInt, bindOk]
      refine ⟨a, rfl, ?_⟩
      simp only [h, bindOk]
      refine ⟨errs₀, rfl, ?_⟩
      simp [asInt, hcc]
    · intro hc
      rcases List.append_eq_nil.mp hc with ⟨-, h₂⟩
      refine exactlyNe ?_ h₂
      intro heq
      exact hdvd ⟨(a - (tl : Int)).fdiv cc, by linarith [heq]⟩

/-- Witness for C2 on a concrete repeat: `*K2TOG; rep from * to end` with
5 stitches available infers `n = 2` despite the remainder, and the
verifier then reports the left-over stitch. -/
theorem C2_expanding_repeat_inference_witness :
    inferCounts 3 (.fixedRep [.stitchLit .KNIT2TOG] 1 none none) (some 5) =
        .ok (.fixedRep [.stitchLit .KNIT2TOG] 1 (some 2) (some 1))
    ∧ inferCounts 4
        (.expandingRep [.stitchLit .KNIT2TOG] 0 none none) (some 5) =
        .ok (.expandingRep [.stitchLit .KNIT2TOG] 0 (some 4) (some 2))
    ∧ ∃ errs, verifyCounts 4
        (.expandingRep [.stitchLit .KNIT2TOG] 0 (some 4) (some 2))
        (some 5) = .ok errs ∧ errs ≠ [] := by
  have h := C2_expanding_repeat_inference 3 3 [.stitchLit .KNIT2TOG]
    [.stitchLit .KNIT2TOG] 0 none none 5 2 1 []
  refine ⟨by rfl, ?_, ?_⟩
  · have := h.2.1 (by rfl) (by decide)
    simpa using this
  · have := h.2.2 4 2 (by rfl) (by decide) (by decide)
    simpa using this

/-- C9: calling a pattern (directly or through a Get that resolves to
one) fails with the arity-mismatch error exactly when the number of
arguments differs from the number of formal parameters — the argument
list is never truncated or padded — and on a match the body is
substituted with emptied parameters under the pattern's captured
environment extended with the parameter-to-argument bindings. -/
theorem C9_call_arity (fuel : Nat) (rows : List Node) (params : List String)
    (te env : List (String × Node)) (c p : Option Int) (args : List Node)
    (name : String) :
    (args.length ≠ params.length →
      doCall (fuel + 1) (.pattern rows params (some te) c p) args env =
        .error (.arityMismatch args.length params.length))
    ∧ (args.length = params.length →
      doCall (fuel + 1) (.pattern rows params (some te) c p) args env =
        (do
          let args' ← substList fuel args env
          substitute fuel (.pattern rows [] (some te) c p)
            ((params.zip args').reverse ++ te)))
    ∧ (envLookup env name = some (.pattern rows params (some te) c p) →
      doCall (fuel + 2) (.get name) args env =
        doCall (fuel + 2) (.pattern rows params (some te) c p) args env) := by
  refine ⟨?_, ?_, ?_⟩
  · intro h
    simp [doCall, Bind.bind, Except.bind, pure, Except.pure, h]
  · intro h
    simp [doCall, Bind.bind, Except.bind, pure, Except.pure, h]
  · intro h
    simp [doCall, substitute, Bind.bind, Except.bind, pure, Except.pure, h]

/-- Witness for C9: a one-parameter pattern called with no arguments
fails with the arity mismatch, and called with one argument substitutes
the body. -/
theorem C9_call_arity_witness :
    doCall 5 (.pattern [.get "x"] ["x"] (some []) none none) [] [] =
      .error (.arityMismatch 0 1)
    ∧ doCall 5 (.pattern [.get "x"] ["x"] (some []) none none)
        [.stitchLit .KNIT] [] =
      .ok (.pattern [.stitchLit .KNIT] [] (some []) none none) := by
  have h := C9_call_arity 4 [.get "x"] ["x"] [] [] none none
  refine ⟨(h [] "y").1 (by decide), ?_⟩
  have h2 := (h [.stitchLit .KNIT] "y").2.1 (by decide)
  simpa [substList, substitute, envLookup, Bind.bind, Except.bind] using h2

/-- C10 counterexample: a block with two siblings whose first sibling
contains an expanding stitch repeat in its second row.  Sibling inference
receives a `None` budget, but the second row's budget is recovered from
the first row's produces, so count inference succeeds instead of failing
with the ambiguous-repeat error — refuting `any ExpandingStitchRepeat
reachable inside such a sibling makes inference fail`. -/
theorem C10_counterexample :
    inferCounts 20
      (.block
        [.pattern [.row [.fixedRep [.stitchLit .CAST_ON] 2 none none]
            none false none none,
          .row [.expandingRep [.stitchLit .KNIT] 0 none none]
            none false none none] [] none none none,
         .pattern [.row [.fixedRep [.stitchLit .CAST_ON] 3 none none]
            none false none none] [] none none none]
        none none)
      (some 4) =
    .ok (.block
        [.pattern [.row [.fixedRep [.stitchLit .CAST_ON] 2 (some 0) (some 2)]
            none false (some 0) (some 2),
          .row [.expandingRep [.stitchLit .KNIT] 0 (some 2) (some 2)]
            none false (some 2) (some 2)] [] none (some 0) (some 2),
         .pattern [.row [.fixedRep [.stitchLit .CAST_ON] 3 (some 0) (some 3)]
            none false (some 0) (some 3)] [] none (some 0) (some 3)]
        (some 0) (some 5)) := by
  rfl

/-- Walking a stitch list with an unknown budget reaches an expanding
repeat after any prefix of stitch literals and raises the
ambiguous-repeat error. -/
theorem inferStitches_esr_none (pre : List Stitch) (fuel : Nat)
    (es post : List Node) (tl : Nat) (ec ep : Option Int) (x y : Int) :
    inferStitches (pre.length + fuel + 2)
      (pre.map Node.stitchLit ++ .expandingRep es tl ec ep :: post) none
      (some x) (some y) = .error .ambiguousRepeat := by
  induction pre generalizing x y with
  | nil =>
    simp [inferStitches, inferCounts, Bind.bind, Except.bind, pure,
      Except.pure]
  | cons v pre ih =>
    have h : pre.length + 1 + fuel + 2 = (pre.length + fuel + 2) + 1 := by
      omega
    simp only [List.map_cons, List.length_cons, List.cons_append, h,
      inferStitches]
    simp only [inferCounts, Bind.bind, Except.bind, pure, Except.pure]
    simp only [Node.isKnittable, Node.consumesAttr, Node.producesAttr,
      Option.isSome]
    have h₃ : pre.length + 1 + fuel + 1 = pre.length + fuel + 2 := by omega
    rw [h₃]
    simp [ih]

/-- The row-level lift of `inferStitches_esr_none`. -/
theorem inferRow_esr_none (pre : List Stitch) (fuel : Nat)
    (es post : List Node) (tl : Nat) (ec ep : Option Int)
    (sd : Option Side) (inf : Bool) (rc rp : Option Int) :
    inferCounts (pre.length + fuel + 4)
      (.row (pre.map Node.stitchLit ++ .expandingRep es tl ec ep :: post)
        sd inf rc rp) none = .error .ambiguousRepeat := by
  have h₁ : pre.length + fuel + 4 = (pre.length + fuel + 2) + 1 + 1 := by
    omega
  rw [h₁]
  simp only [inferCounts, Bind.bind, Except.bind]
  simp [inferStitches_esr_none]

/-- The pattern-level lift of `inferStitches_esr_none`: a pattern whose
first row opens with stitch literals followed by an expanding repeat
cannot be inferred with an unknown budget. -/
theorem inferPattern_esr_none (pre : List Stitch) (fuel : Nat)
    (es post rest : List Node) (tl : Nat) (ec ep : Option Int)
    (sd : Option Side) (inf : Bool) (rc rp pc pp : Option Int)
    (params : List String) (penv : Option (List (String × Node))) :
    inferCounts (pre.length + fuel + 7)
      (.pattern
        (.row (pre.map Node.stitchLit ++ .expandingRep es tl ec ep :: post)
          sd inf rc rp :: rest) params penv pc pp) none =
      .error .ambiguousRepeat := by
  have h₁ : pre.length + fuel + 7 =
      (pre.length + fuel + 4) + 1 + 1 + 1 := by omega
  rw [h₁]
  simp only [inferCounts, inferRowsOnce, Bind.bind, Except.bind]
  simp [inferStitches_esr_none]

/-- C10: amended per the counterexample.  A block with two or more
siblings infers every sibling with an unknown budget — its result is
independent of the block's own budget — so a sibling whose inference
needs the budget immediately (an ambiguous first sibling in general, and
in particular a sibling pattern whose first row starts with stitch
literals followed by an expanding repeat) makes inference fail with the
ambiguous-repeat error; an expanding repeat in a later row is instead
resolved from the previous row's produces (see the counterexample).
Only a block with exactly one sibling forwards the known budget. -/
theorem C10_block_budget (fuel : Nat) (q₁ q₂ q : Node) (qs : List Node)
    (c p : Option Int) (av av' : Option Int) (a : Int) (e : Err) :
    (inferCounts (fuel + 1) (.block (q₁ :: q₂ :: qs) c p) av =
      inferCounts (fuel + 1) (.block (q₁ :: q₂ :: qs) c p) av')
    ∧ (inferCounts fuel q₁ none = .error .ambiguousRepeat →
      inferCounts (fuel + 2) (.block (q₁ :: q₂ :: qs) c p) av =
        .error .ambiguousRepeat)
    ∧ (∀ (pre : List Stitch) (es post rest : List Node) (tl : Nat)
        (ec ep : Option Int) (sd : Option Side) (inf : Bool)
        (rc rp pc pp : Option Int) (params : List String)
        (penv : Option (List (String × Node))),
      inferCounts (pre.length + fuel + 9)
        (.block (.pattern
            (.row (pre.map Node.stitchLit ++ .expandingRep es tl ec ep :: post)
              sd inf rc rp :: rest) params penv pc pp :: q₂ :: qs) c p)
        (some a) = .error .ambiguousRepeat)
    ∧ (inferCounts fuel q (some a) = .error e →
      inferCounts (fuel + 1) (.block [q] c p) (some a) = .error e) := by
  refine ⟨rfl, ?_, ?_, ?_⟩
  · intro h
    simp only [inferCounts, inferList, Bind.bind, Except.bind, h]
  · intro pre es post rest tl ec ep sd inf rc rp pc pp params penv
    have h₁ : pre.length + fuel + 9 =
        (pre.length + fuel + 7) + 1 + 1 := by omega
    rw [h₁]
    simp only [inferCounts, inferList, Bind.bind, Except.bind]
    simp [inferRowsOnce, inferRow_esr_none, Bind.bind, Except.bind]
  · intro h
    simp only [inferCounts, Bind.bind, Except.bind, h]

/-- Witness for C10's amended statement: a two-sibling block whose first
sibling is a pattern opening with a bare expanding repeat fails with the
ambiguous-repeat error even though the block's budget is known, while the
same pattern as a single sibling succeeds. -/
theorem C10_block_budget_witness :
    inferCounts 14
      (.block [.pattern [.row [.expandingRep [.stitchLit .KNIT] 0 none none]
          none false none none] [] none none none,
        .pattern [.row [.stitchLit .KNIT] none false none none] [] none
          none none] none none) (some 2) = .error .ambiguousRepeat
    ∧ inferCounts 14
      (.block [.pattern [.row [.expandingRep [.stitchLit .KNIT] 0 none none]
          none false none none] [] none none none] none none) (some 2) =
      .ok (.block [.pattern [.row [.expandingRep [.stitchLit .KNIT] 0
          (some 2) (some 2)] none false (some 2) (some 2)] [] none
          (some 2) (some 2)] (some 2) (some 2)) := by
  constructor
  · exact (C10_block_budget 12
      (.pattern [.row [.expandingRep [.stitchLit .KNIT] 0 none none]
        none false none none] [] none none none)
      (.pattern [.row [.stitchLit .KNIT] none false none none] [] none
        none none)
      (.get "") [] none none (some 2) (some 2) 2 .typeError).2.1 (by rfl)
  · rfl

/-- Side observation of a row node. -/
def sideOf : Node → Option Side
  | .row _ side _ _ _ => side
  | _ => none

/-- Rows whose side inference may assign a side: rows lacking an explicit
side or already carrying an inferred one. -/
def assignableRow : Node → Bool
  | .row _ side₀ inf _ _ => side₀.isNone || inf
  | _ => false

/-- Folding `_starts_with_cast_ons` over a list of stitch literals is the
conjunction with `all cast-on`. -/
theorem swcoFold_stitchLits (vs : List Stitch) (fuel : Nat) (acc : Bool) :
    swcoFold (vs.length + fuel + 1) (vs.map Node.stitchLit) acc =
      .ok (acc && vs.all (· = .CAST_ON)) := by
  induction vs generalizing acc with
  | nil => simp [swcoFold]
  | cons v vs ih =>
    simp only [List.map_cons, List.length_cons, swcoFold,
      startsWithCastOns, Bind.bind, Except.bind]
    have h : vs.length + 1 + fuel = vs.length + fuel + 1 := by omega
    rw [h]
    simp only [startsWithCastOns]
    rw [ih]
    simp [Bool.and_assoc]

/-- Assigning alternating sides down a list of assignable rows yields
rows whose sides are exactly the alternating series. -/
theorem inferSidesZip_assignable (rows : List Node) (fuel : Nat)
    (ds : List Side) (h : ∀ r ∈ rows, assignableRow r = true)
    (hlen : ds.length = rows.length) :
    ∃ rows', inferSidesZip (rows.length + fuel + 1) rows ds = .ok rows'
      ∧ rows'.map sideOf = ds.map some := by
  induction rows generalizing ds with
  | nil =>
    cases ds with
    | nil => exact ⟨[], by simp [inferSidesZip], by simp⟩
    | cons d ds => simp at hlen
  | cons r rs ih =>
    cases ds with
    | nil => simp at hlen
    | cons d ds =>
      have hr := h r (List.mem_cons_self r rs)
      have hrest : ∀ x ∈ rs, assignableRow x = true :=
        fun x hx => h x (List.mem_cons_of_mem r hx)
      have hlen' : ds.length = rs.length := by simpa using hlen
      rcases ih ds hrest hlen' with ⟨rows', hzip, hmap⟩
      cases r with
      | row sts side₀ inf c p =>
        have h₁ : rs.length + 1 + fuel + 1 = (rs.length + fuel + 1) + 1 := by
          omega
        have hcond : side₀ = none ∨ inf = true := by
          rcases side₀ with _ | sd
          · exact Or.inl rfl
          · right
            simpa [assignableRow] using hr
        refine ⟨.row sts (some d) true c p :: rows', ?_, ?_⟩
        · simp only [List.length_cons, inferSidesZip]
          have h₂ : rs.length + 1 + fuel = rs.length + fuel + 1 := by omega
          rw [h₂]
          simp only [inferSides, Bind.bind, Except.bind]
          rw [if_pos hcond, hzip]
        · simp [sideOf, hmap]
      | stitchLit v => simp [assignableRow] at hr
      | fixedRep a b c d => simp [assignableRow] at hr
      | expandingRep a b c d => simp [assignableRow] at hr
      | rowRepeat a b c d => simp [assignableRow] at hr
      | pattern a b c d e => simp [assignableRow] at hr
      | block a b c => simp [assignableRow] at hr
      | fixedBlockRepeat a b c d => simp [assignableRow] at hr
      | get a => simp [assignableRow] at hr
      | call a b => simp [assignableRow] at hr
      | nativeFunction a => simp [assignableRow] at hr

/-- C7: side inference on a pattern ignores the side passed from the
enclosing context, starts from Wrong exactly when the pattern's first
row folds to all cast-on stitches (for a literal first row, when every
stitch is CAST_ON), and assigns subsequent rows strictly alternating
sides from that start. -/
theorem C7_pattern_side_inference (fuel : Nat) (rows : List Node)
    (params : List String) (env : Option (List (String × Node)))
    (c p : Option Int) (s s' : Side) :
    (inferSides (fuel + 1) (.pattern rows params env c p) s =
      inferSides (fuel + 1) (.pattern rows params env c p) s')
    ∧ (∀ co, startsWithCastOns (rows.length + fuel + 1)
          (.pattern rows params env c p) true = .ok co →
        (∀ r ∈ rows, assignableRow r = true) →
        ∃ rows', inferSides (rows.length + fuel + 2)
            (.pattern rows params env c p) s =
            .ok (.pattern rows' params env c p)
          ∧ rows'.map sideOf =
            ((if co then Side.Wrong else Side.Right).alternates
              rows.length).map some)
    ∧ (∀ (vs : List Stitch) (sd : Option Side) (inf : Bool)
        (rc rp : Option Int) (rest : List Node),
        rows = .row (vs.map Node.stitchLit) sd inf rc rp :: rest →
        startsWithCastOns (vs.length + fuel + 3)
          (.pattern rows params env c p) true =
          .ok (vs.all (· = .CAST_ON))) := by
  refine ⟨rfl, ?_, ?_⟩
  · intro co hco hassign
    have hlen : ((if co then Side.Wrong else Side.Right).alternates
        rows.length).length = rows.length := by
      generalize (if co then Side.Wrong else Side.Right) = d
      induction rows.length generalizing d with
      | zero => simp [Side.alternates]
      | succ n ih => simp [Side.alternates, ih]
    rcases inferSidesZip_assignable rows fuel _ hassign hlen with
      ⟨rows', hzip, hmap⟩
    have h₁ : rows.length + fuel + 2 = (rows.length + fuel + 1) + 1 := by
      omega
    refine ⟨rows', ?_, hmap⟩
    rw [h₁]
    simp only [inferSides, Bind.bind, Except.bind, hco, hzip]
  · intro vs sd inf rc rp rest hrows
    subst hrows
    have h₁ : vs.length + fuel + 3 = (vs.length + fuel + 2) + 1 := by omega
    have h₂ : vs.length + fuel + 2 = (vs.length + fuel + 1) + 1 := by omega
    rw [h₁]
    simp only [startsWithCastOns, List.head?]
    rw [swcoFold_stitchLits]
    simp

/-- Witness for C7: a cast-on first row starts the alternation on the
wrong side regardless of the context side. -/
theorem C7_pattern_side_inference_witness :
    (inferSides 4 (.pattern [.row [.stitchLit .CAST_ON] none false none none,
        .row [.stitchLit .KNIT] none false none none] [] none none none)
        .Right =
      inferSides 4 (.pattern [.row [.stitchLit .CAST_ON] none false none none,
        .row [.stitchLit .KNIT] none false none none] [] none none none)
        .Wrong)
    ∧ ∃ rows', inferSides 5
        (.pattern [.row [.stitchLit .CAST_ON] none false none none,
          .row [.stitchLit .KNIT] none false none none] [] none none none)
        .Right = .ok (.pattern rows' [] none none none)
      ∧ rows'.map sideOf = [some .Wrong, some .Right] := by
  have h := C7_pattern_side_inference 1
    [.row [.stitchLit .CAST_ON] none false none none,
     .row [.stitchLit .KNIT] none false none none] [] none none none
    .Right .Wrong
  refine ⟨h.1, ?_⟩
  rcases h.2.1 true (by rfl) (by decide) with ⟨rows', hz, hm⟩
  exact ⟨rows', hz, by simpa [Side.alternates, Side.flip] using hm⟩

mutual

/-- Stitch subtrees on which reversal is structure-preserving: stitch
literals of reversible kinds and fixed repeats with known counts; in
particular no expanding repeats, whose `to_last` is rewritten from the
reversal position. -/
def reversibleTree : Node → Bool
  | .stitchLit v => v.reverse.isSome
  | .fixedRep sts _ c _ => c.isSome && reversibleList sts
  | _ => false

/-- All members of a stitch list are reversible subtrees. -/
def reversibleList : List Node → Bool
  | [] => true
  | s :: ss => reversibleTree s && reversibleList ss

end

theorem reversibleList_mem {l : List Node} :
    reversibleList l = true ↔ ∀ s ∈ l, reversibleTree s = true := by
  induction l with
  | nil => simp [reversibleList]
  | cons s ss ih => simp [reversibleList, ih]

theorem reversibleList_reverse {l : List Node}
    (h : reversibleList l = true) : reversibleList l.reverse = true := by
  rw [reversibleList_mem] at h ⊢
  simpa using h

/-- A reversible subtree has a present `consumes` cache. -/
theorem reversibleTree_consOf {s : Node} (h : reversibleTree s = true) :
    ∃ cv, consOf s = .ok cv := by
  cases s with
  | stitchLit v => exact ⟨v.consumes, rfl⟩
  | fixedRep sts t c p =>
    simp only [reversibleTree, Bool.and_eq_true] at h
    rcases Option.isSome_iff_exists.mp h.1 with ⟨cv, hcv⟩
    exact ⟨cv, by simp [consOf, Node.consumesAttr, hcv, asInt]⟩
  | expandingRep a b c d => simp [reversibleTree] at h
  | row a b c d e => simp [reversibleTree] at h
  | rowRepeat a b c d => simp [reversibleTree] at h
  | pattern a b c d e => simp [reversibleTree] at h
  | block a b c => simp [reversibleTree] at h
  | fixedBlockRepeat a b c d => simp [reversibleTree] at h
  | get a => simp [reversibleTree] at h
  | call a b => simp [reversibleTree] at h
  | nativeFunction a => simp [reversibleTree] at h

/-- The before accumulator succeeds on reversible elements and has one
more entry than its input. -/
theorem beforeAcc_ok {l : List Node}
    (h : ∀ s ∈ l, reversibleTree s = true) (b : Int) :
    ∃ bl, beforeAcc b l = .ok bl ∧ bl.length = l.length + 1 := by
  induction l generalizing b with
  | nil => exact ⟨[b], rfl, rfl⟩
  | cons s ss ih =>
    rcases reversibleTree_consOf (h s (List.mem_cons_self s ss)) with ⟨cv, hcv⟩
    rcases ih (fun x hx => h x (List.mem_cons_of_mem s hx)) (b + cv) with
      ⟨bl, hbl, hlen⟩
    exact ⟨b :: bl, by simp [beforeAcc, hcv, hbl, Bind.bind, Except.bind],
      by simp [hlen]⟩

/-- If the before accumulator succeeds once it succeeds from any start,
with the same length. -/
theorem beforeAcc_switch {l : List Node} {b : Int} {bl : List Int}
    (h : beforeAcc b l = .ok bl) (b' : Int) :
    ∃ bl', beforeAcc b' l = .ok bl' ∧ bl'.length = bl.length := by
  induction l generalizing b b' bl with
  | nil =>
    simp [beforeAcc] at h
    exact ⟨[b'], rfl, by simp [← h]⟩
  | cons s ss ih =>
    simp only [beforeAcc] at h
    rw [bindOk] at h
    obtain ⟨cv, hc, h⟩ := h
    rw [bindOk] at h
    obtain ⟨bl₀, hr, h⟩ := h
    rcases ih hr (b' + cv) with ⟨bl', hbl', hlen⟩
    refine ⟨b' :: bl', ?_, ?_⟩
    · simp [beforeAcc, hc, hbl', Bind.bind, Except.bind]
    · have hb : b :: bl₀ = bl := by simpa using h
      simp [← hb, hlen]

/-- The before accumulator always returns one entry more than its input. -/
theorem beforeAcc_length {l : List Node} {b : Int} {bl : List Int}
    (h : beforeAcc b l = .ok bl) : bl.length = l.length + 1 := by
  induction l generalizing b bl with
  | nil =>
    simp [beforeAcc] at h
    simp [← h]
  | cons s ss ih =>
    simp only [beforeAcc] at h
    rw [bindOk] at h
    obtain ⟨cv, hc, h⟩ := h
    rw [bindOk] at h
    obtain ⟨bl₀, hr, h⟩ := h
    have hb : b :: bl₀ = bl := by simpa using h
    simp [← hb, ih hr]

/-- Reversal is monotone in fuel: a successful run is reproduced by any
larger fuel, for nodes and for stitch-list zips. -/
theorem reverse_mono (f : Nat) :
    (∀ s b r f', f ≤ f' → reverseNode f s b = .ok r →
      reverseNode f' s b = .ok r)
    ∧ (∀ l bl r f', f ≤ f' → reverseZip f l bl = .ok r →
      reverseZip f' l bl = .ok r) := by
  induction f using Nat.strong_induction_on with
  | _ f ih =>
    constructor
    · intro s b r f' hle h
      cases f with
      | zero => exact absurd h (by simp [reverseNode])
      | succ g =>
        obtain ⟨g', rfl⟩ : ∃ g', f' = g' + 1 := ⟨f' - 1, by omega⟩
        cases s with
        | stitchLit v =>
          simp only [reverseNode] at h ⊢
          exact h
        | fixedRep sts t c p =>
          simp only [reverseNode] at h ⊢
          rw [bindOk] at h ⊢
          obtain ⟨befs, hbefs, h⟩ := h
          rw [bindOk] at h
          obtain ⟨sts', hz, h⟩ := h
          refine ⟨befs, hbefs, ?_⟩
          rw [bindOk]
          exact ⟨sts', (ih g (by omega)).2 _ _ _ g' (by omega) hz, h⟩
        | expandingRep sts tl c p =>
          simp only [reverseNode] at h ⊢
          rw [bindOk] at h ⊢
          obtain ⟨fixed, hfx, h⟩ := h
          exact ⟨fixed, (ih g (by omega)).1 _ _ _ g' (by omega) hfx, h⟩
        | row sts side inf c p =>
          simp only [reverseNode] at h ⊢
          rw [bindOk] at h ⊢
          obtain ⟨fixed, hfx, h⟩ := h
          exact ⟨fixed, (ih g (by omega)).1 _ _ _ g' (by omega) hfx, h⟩
        | rowRepeat a b c d => simp [reverseNode] at h
        | pattern a b c d e => simp [reverseNode] at h
        | block a b c => simp [reverseNode] at h
        | fixedBlockRepeat a b c d => simp [reverseNode] at h
        | get a => simp [reverseNode] at h
        | call a b => simp [reverseNode] at h
        | nativeFunction a => simp [reverseNode] at h
    · intro l bl r f' hle h
      cases f with
      | zero => exact absurd h (by simp [reverseZip])
      | succ g =>
        obtain ⟨g', rfl⟩ : ∃ g', f' = g' + 1 := ⟨f' - 1, by omega⟩
        cases l with
        | nil =>
          simp only [reverseZip] at h ⊢
          exact h
        | cons s ss =>
          cases bl with
          | nil =>
            simp only [reverseZip] at h ⊢
            exact h
          | cons b bs =>
            simp only [reverseZip] at h ⊢
            rw [bindOk] at h ⊢
            obtain ⟨s', hs, h⟩ := h
            rw [bindOk] at h
            obtain ⟨rest, hrest, h⟩ := h
            refine ⟨s', (ih g (by omega)).1 _ _ _ g' (by omega) hs, ?_⟩
            rw [bindOk]
            exact ⟨rest, (ih g (by omega)).2 _ _ _ g' (by omega) hrest, h⟩

theorem reverseNode_mono {f f' : Nat} {s : Node} {b : Int} {r : Node}
    (hle : f ≤ f') (h : reverseNode f s b = .ok r) :
    reverseNode f' s b = .ok r :=
  (reverse_mono f).1 s b r f' hle h

theorem reverseZip_mono {f f' : Nat} {l : List Node} {bl : List Int}
    {r : List Node} (hle : f ≤ f') (h : reverseZip f l bl = .ok r) :
    reverseZip f' l bl = .ok r :=
  (reverse_mono f).2 l bl r f' hle h

/-- Successful reversal results do not depend on the fuel. -/
theorem reverseNode_det {f f' : Nat} {s : Node} {b : Int} {r r' : Node}
    (h : reverseNode f s b = .ok r) (h' : reverseNode f' s b = .ok r') :
    r = r' := by
  rcases Nat.le_total f f' with hle | hle
  · have h2 := reverseNode_mono hle h
    rw [h2] at h'
    simpa using h'
  · have h2 := reverseNode_mono hle h'
    rw [h2] at h
    simpa using h.symm

/-- A pointwise second-reversal family assembles into one zip run that
recovers the original list, for any long enough before list. -/
theorem reverseZip_of_forall2 {origs imgs : List Node}
    (h : List.Forall₂ (fun a a' => ∃ g, ∀ b, reverseNode g a' b = .ok a)
      origs imgs) :
    ∃ g, ∀ bl, imgs.length ≤ bl.length → reverseZip g imgs bl = .ok origs := by
  induction h with
  | nil => exact ⟨1, fun bl _ => by simp [reverseZip]⟩
  | cons hab htail ih =>
    obtain ⟨g₁, h₁⟩ := hab
    obtain ⟨g₂, h₂⟩ := ih
    refine ⟨max g₁ g₂ + 1, fun bl hlen => ?_⟩
    cases bl with
    | nil => simp at hlen
    | cons b bs =>
      simp only [reverseZip]
      rw [bindOk]
      refine ⟨_, reverseNode_mono (Nat.le_max_left g₁ g₂) (h₁ b), ?_⟩
      rw [bindOk]
      refine ⟨_, reverseZip_mono (Nat.le_max_right g₁ g₂)
        (h₂ bs (by simp at hlen ⊢; omega)), rfl⟩

theorem reversibleList_of_forall2 {l l' : List Node}
    (h : List.Forall₂ (fun _ a' => reversibleTree a' = true) l l') :
    reversibleList l' = true := by
  induction h with
  | nil => rfl
  | cons hab _ ih => simp [reversibleList, hab, ih]

/-- Core involution property: on a reversible subtree, a successful
reversal yields a reversible subtree that some second reversal (from any
position) maps back to the original; the zip form records the pointwise
property over a stitch list. -/
theorem reverse_involution (f : Nat) :
    (∀ s b s', reversibleTree s = true → reverseNode f s b = .ok s' →
      reversibleTree s' = true ∧ ∃ g, ∀ b₂, reverseNode g s' b₂ = .ok s)
    ∧ (∀ l bl l', reversibleList l = true → l.length ≤ bl.length →
      reverseZip f l bl = .ok l' →
      List.Forall₂ (fun a a' => reversibleTree a' = true ∧
        ∃ g, ∀ b₂, reverseNode g a' b₂ = .ok a) l l') := by
  induction f using Nat.strong_induction_on with
  | _ f ih =>
    constructor
    · intro s b s' hrev h
      cases f with
      | zero => exact absurd h (by simp [reverseNode])
      | succ g =>
        cases s with
        | stitchLit v =>
          cases hv : v.reverse with
          | none => simp [reverseNode, hv] at h
          | some r =>
            simp only [reverseNode, hv] at h
            have hs' : Node.stitchLit r = s' := by simpa using h
            obtain ⟨hrr, _, _⟩ := stitch_reverse_involutive v r hv
            subst hs'
            refine ⟨by simp [reversibleTree, hrr], 1, fun b₂ => ?_⟩
            simp [reverseNode, hrr]
        | fixedRep sts t c p =>
          simp only [reversibleTree, Bool.and_eq_true] at hrev
          simp only [reverseNode] at h
          rw [bindOk] at h
          obtain ⟨befs, hbefs, h⟩ := h
          rw [bindOk] at h
          obtain ⟨sts'', hz, h⟩ := h
          have hs' : Node.fixedRep sts'' t c p = s' := by simpa using h
          subst hs'
          have hlenb := beforeAcc_length hbefs
          have hlen : sts.reverse.length ≤ befs.reverse.length := by
            simp [hlenb, List.length_dropLast]
            omega
          have hF := (ih g (by omega)).2 sts.reverse befs.reverse sts''
            (reversibleList_reverse hrev.2) hlen hz
          have hrevl' : reversibleList sts'' = true :=
            reversibleList_of_forall2 (hF.imp (fun _ _ hx => hx.1))
          have hF2 : List.Forall₂
              (fun a a' => ∃ g, ∀ b₂, reverseNode g a' b₂ = .ok a)
              sts sts''.reverse := by
            have hF2' := hF.imp (fun _ _ hx => hx.2)
            rw [← List.reverse_reverse sts''] at hF2'
            exact List.forall₂_reverse_iff.mp hF2'
          obtain ⟨gz, hgz⟩ := reverseZip_of_forall2 hF2
          refine ⟨by simp [reversibleTree, hrev.1, hrevl'], gz + 1,
            fun b₂ => ?_⟩
          obtain ⟨befs₂, hbefs₂, hlen₂⟩ := beforeAcc_ok
            (fun x hx => reversibleList_mem.mp hrevl' x
              (List.dropLast_sublist sts''  |>.subset hx)) b₂
          simp only [reverseNode]
          rw [bindOk]
          refine ⟨befs₂, hbefs₂, ?_⟩
          rw [bindOk]
          refine ⟨sts, hgz befs₂.reverse ?_, rfl⟩
          simp [hlen₂, List.length_dropLast]
          omega
        | expandingRep a b c d => simp [reversibleTree] at hrev
        | row a b c d e => simp [reversibleTree] at hrev
        | rowRepeat a b c d => simp [reversibleTree] at hrev
        | pattern a b c d e => simp [reversibleTree] at hrev
        | block a b c => simp [reversibleTree] at hrev
        | fixedBlockRepeat a b c d => simp [reversibleTree] at hrev
        | get a => simp [reversibleTree] at hrev
        | call a b => simp [reversibleTree] at hrev
        | nativeFunction a => simp [reversibleTree] at hrev
    · intro l bl l' hrevl hlen h
      cases f with
      | zero => exact absurd h (by simp [reverseZip])
      | succ g =>
        cases l with
        | nil =>
          simp only [reverseZip] at h
          have : ([] : List Node) = l' := by simpa using h
          subst this
          exact List.Forall₂.nil
        | cons s ss =>
          cases bl with
          | nil => simp at hlen
          | cons b bs =>
            simp only [reverseZip] at h
            rw [bindOk] at h
            obtain ⟨s', hs, h⟩ := h
            rw [bindOk] at h
            obtain ⟨rest, hrest, h⟩ := h
            have hl' : s' :: rest = l' := by simpa using h
            subst hl'
            simp only [reversibleList, Bool.and_eq_true] at hrevl
            exact List.Forall₂.cons
              ((ih g (by omega)).1 s b s' hrevl.1 hs)
              ((ih g (by omega)).2 ss bs rest hrevl.2
                (by simp at hlen ⊢; omega) hrest)

/-- C5 counterexample: reversing a counted row twice is not the identity
when the row contains an expanding stitch repeat.  The row
`[expand(K; to_last 0), K]` (cached 4/4, right side) reverses once to
`[P, expand(P; to_last 0)]`, but the second reversal rewrites the
expanding repeat's `to_last` from the reversal position, giving
`[expand(K; to_last 1), K]`, which differs from the original row. -/
theorem C5_counterexample :
    reverseNode 10
      (.row [.expandingRep [.stitchLit .KNIT] 0 (some 3) (some 3),
             .stitchLit .KNIT] (some .Right) false (some 4) (some 4)) 0 =
      .ok (.row [.stitchLit .PURL,
             .expandingRep [.stitchLit .PURL] 0 (some 3) (some 3)]
        (some .Wrong) false (some 4) (some 4))
    ∧ reverseNode 10
      (.row [.stitchLit .PURL,
             .expandingRep [.stitchLit .PURL] 0 (some 3) (some 3)]
        (some .Wrong) false (some 4) (some 4)) 0 =
      .ok (.row [.expandingRep [.stitchLit .KNIT] 1 (some 3) (some 3),
             .stitchLit .KNIT] (some .Right) false (some 4) (some 4))
    ∧ (.row [.expandingRep [.stitchLit .KNIT] 1 (some 3) (some 3),
             .stitchLit .KNIT] (some .Right) false (some 4) (some 4) : Node)
      ≠ .row [.expandingRep [.stitchLit .KNIT] 0 (some 3) (some 3),
             .stitchLit .KNIT] (some .Right) false (some 4) (some 4) := by
  refine ⟨rfl, rfl, fun hc => ?_⟩
  simp at hc

/-- C5 (amended): on rows whose stitch list is built from reversible
stitch literals and fixed repeats with cached counts (no expanding
repeats), reversing twice restores the original row exactly: stitch
kinds return via the involutive reverse table, stitch order is reversed
twice, the side flips twice, and the cached counts are preserved. -/
theorem C5_row_reverse_involutive (f₁ f₂ : Nat) (sts : List Node)
    (side : Option Side) (inferred : Bool) (cv pv : Option Int)
    (b₁ b₂ : Int) (r₁ r₂ : Node)
    (hrev : reversibleList sts = true) (hc : cv.isSome = true)
    (h₁ : reverseNode f₁ (.row sts side inferred cv pv) b₁ = .ok r₁)
    (h₂ : reverseNode f₂ r₁ b₂ = .ok r₂) :
    r₂ = .row sts side inferred cv pv := by
  cases f₁ with
  | zero => exact absurd h₁ (by simp [reverseNode])
  | succ g =>
    simp only [reverseNode] at h₁
    rw [bindOk] at h₁
    obtain ⟨fixed₁, hfx₁, h₁⟩ := h₁
    obtain ⟨hrev₁, g₂, hsec⟩ := (reverse_involution g).1 _ b₁ fixed₁
      (by simp [reversibleTree, hc, hrev]) hfx₁
    have hcopy := hfx₁
    cases g with
    | zero => exact absurd hcopy (by simp [reverseNode])
    | succ g₀ =>
      simp only [reverseNode] at hcopy
      rw [bindOk] at hcopy
      obtain ⟨befs, hbefs, hcopy⟩ := hcopy
      rw [bindOk] at hcopy
      obtain ⟨sts₁, hz, hcopy⟩ := hcopy
      have hfix : Node.fixedRep sts₁ 1 cv pv = fixed₁ := by simpa using hcopy
      subst hfix
      have hr₁ : Node.row sts₁ (side.map Side.flip) inferred cv pv = r₁ := by
        simpa using h₁
      subst hr₁
      cases f₂ with
      | zero => exact absurd h₂ (by simp [reverseNode])
      | succ g₃ =>
        simp only [reverseNode] at h₂
        rw [bindOk] at h₂
        obtain ⟨fixed₂, hfx₂, h₂⟩ := h₂
        have hdet : fixed₂ = Node.fixedRep sts 1 cv pv :=
          reverseNode_det hfx₂ (hsec b₂)
        subst hdet
        have hside : (side.map Side.flip).map Side.flip = side := by
          cases side with
          | none => rfl
          | some sd => cases sd <;> rfl
        have : Node.row sts ((side.map Side.flip).map Side.flip)
            inferred cv pv = r₂ := by simpa using h₂
        rw [hside] at this
        exact this.symm

theorem C5_row_reverse_involutive_witness :
    reversibleList [.stitchLit .KNIT, .stitchLit .KNIT] = true
    ∧ (some (2 : Int)).isSome = true
    ∧ reverseNode 5 (.row [.stitchLit .KNIT, .stitchLit .KNIT]
        (some .Right) false (some 2) (some 2)) 0 =
      .ok (.row [.stitchLit .PURL, .stitchLit .PURL]
        (some .Wrong) false (some 2) (some 2))
    ∧ reverseNode 5 (.row [.stitchLit .PURL, .stitchLit .PURL]
        (some .Wrong) false (some 2) (some 2)) 0 =
      .ok (.row [.stitchLit .KNIT, .stitchLit .KNIT]
        (some .Right) false (some 2) (some 2))
    ∧ (.row [.stitchLit .KNIT, .stitchLit .KNIT]
        (some .Right) false (some 2) (some 2) : Node) =
      .row [.stitchLit .KNIT, .stitchLit .KNIT]
        (some .Right) false (some 2) (some 2) :=
  ⟨rfl, rfl, rfl, rfl,
    C5_row_reverse_involutive 5 5
      [.stitchLit .KNIT, .stitchLit .KNIT] (some .Right) false
      (some 2) (some 2) 0 0
      (.row [.stitchLit .PURL, .stitchLit .PURL]
        (some .Wrong) false (some 2) (some 2))
      (.row [.stitchLit .KNIT, .stitchLit .KNIT]
        (some .Right) false (some 2) (some 2))
      rfl rfl rfl rfl⟩

/-- C3: the PSSO verifier walks the row's flat stitch sequence and, at a
pass-over, removes the nearest preceding unconsumed SLIP from the prefix
(the last SLIP of the prefix, leaving earlier ones in place); it reports
the without-stitch diagnostic when the stitch immediately before the
pass-over is itself an unconsumed SLIP, reports the without-SLIP
diagnostic when the prefix holds no unconsumed SLIP at all, and on the
concrete rows `SL, PSSO` it yields exactly the without-stitch diagnostic
while `SL, K, PSSO` yields no diagnostic. -/
theorem C3_psso_verification (rowN : Node) (p₁ p₂ : List Stitch)
    (k₃ i₃ : Nat) (sts₃ : List Stitch) (out₃ : List KnitError)
    (k₄ i₄ : Nat) (sts₄ : List Stitch) (out₄ : List KnitError) :
    (Stitch.SLIP ∉ p₂ →
      removeLastSlip (p₁ ++ .SLIP :: p₂) = some (p₁ ++ p₂))
    ∧ (Stitch.SLIP ∉ p₁ → removeLastSlip p₁ = none)
    ∧ (sts₃[i₃]? = some .PSSO →
      sts₃[if i₃ = 0 then sts₃.length - 1 else i₃ - 1]? = some .SLIP →
      pssoLoop rowN (k₃ + 1) sts₃ i₃ = .ok out₃ →
      KnitError.pssoWithoutStitch rowN ∈ out₃)
    ∧ (sts₄[i₄]? = some .PSSO → Stitch.SLIP ∉ sts₄.take i₄ →
      pssoLoop rowN (k₄ + 1) sts₄ i₄ = .ok out₄ →
      KnitError.pssoWithoutSlip rowN ∈ out₄)
    ∧ verifyPsso 10
        (.row [.stitchLit .SLIP, .stitchLit .PSSO] none false none none) =
      .ok [KnitError.pssoWithoutStitch
        (.row [.stitchLit .SLIP, .stitchLit .PSSO] none false none none)]
    ∧ verifyPsso 10 (.row [.stitchLit .SLIP, .stitchLit .KNIT,
        .stitchLit .PSSO] none false none none) = .ok [] := by
  refine ⟨?_, ?_, ?_, ?_, rfl, rfl⟩
  · intro h
    have hc : (p₁ ++ Stitch.SLIP :: p₂).contains .SLIP = true := by
      simp [List.contains]
    simp only [removeLastSlip, hc, if_true]
    rw [List.reverse_append, List.reverse_cons, List.append_assoc,
      List.erase_append_right _ (by simpa using h),
      List.singleton_append, List.erase_cons_head]
    simp
  · intro h
    simp [removeLastSlip, List.contains, h]
  · intro hget hprev h
    rcases hrm : removeLastSlip (sts₃.take i₃) with _ | pre'
    · simp [pssoLoop, hget, hprev, hrm] at h
      rw [bindOk] at h
      obtain ⟨rest, hrest, h⟩ := h
      have hb : KnitError.pssoWithoutStitch rowN ::
          KnitError.pssoWithoutSlip rowN :: rest = out₃ := by simpa using h
      rw [← hb]
      simp
    · simp [pssoLoop, hget, hprev, hrm] at h
      rw [bindOk] at h
      obtain ⟨rest, hrest, h⟩ := h
      have hb : KnitError.pssoWithoutStitch rowN :: rest = out₃ := by
        simpa using h
      rw [← hb]
      simp
  · intro hget hnos h
    rcases hprev : sts₄[if i₄ = 0 then sts₄.length - 1 else i₄ - 1]?
      with _ | prev
    · simp [pssoLoop, hget, hprev] at h
    · have hrm : removeLastSlip (sts₄.take i₄) = none := by
        simp [removeLastSlip, List.contains, hnos]
      simp [pssoLoop, hget, hprev, hrm] at h
      rw [bindOk] at h
      obtain ⟨rest, hrest, h⟩ := h
      have hb : (if prev = .SLIP then [KnitError.pssoWithoutStitch rowN]
          else []) ++ KnitError.pssoWithoutSlip rowN :: rest = out₄ := by
        simpa using h
      rw [← hb]
      simp

theorem C3_psso_verification_witness :
    removeLastSlip [.KNIT, .SLIP, .KNIT] = some [.KNIT, .KNIT]
    ∧ removeLastSlip [.KNIT] = none
    ∧ KnitError.pssoWithoutStitch (.row [] none false none none) ∈
        [KnitError.pssoWithoutStitch (.row [] none false none none)]
    ∧ KnitError.pssoWithoutSlip (.row [] none false none none) ∈
        [KnitError.pssoWithoutSlip (.row [] none false none none)] := by
  have h := C3_psso_verification (.row [] none false none none)
      [.KNIT] [.KNIT] 0 1 [.SLIP, .PSSO]
      [KnitError.pssoWithoutStitch (.row [] none false none none)]
      0 1 [.KNIT, .PSSO]
      [KnitError.pssoWithoutSlip (.row [] none false none none)]
  exact ⟨h.1 (by decide), h.2.1 (by decide),
    h.2.2.1 (by decide) (by decide) rfl,
    h.2.2.2.1 (by decide) (by decide) rfl⟩

/-- Pointwise count agreement lifts to the row-sum fold. -/
theorem sumCountRows_congr {rows₁ rows₂ : List Node}
    (h : List.Forall₂ (fun r₁ r₂ => ∀ g, countRows g r₁ = countRows g r₂)
      rows₁ rows₂) :
    ∀ g, sumCountRows g rows₁ = sumCountRows g rows₂ := by
  induction h with
  | nil => intro g; rfl
  | cons hab htail ih =>
    intro g
    cases g with
    | zero => rfl
    | succ g' =>
      simp only [sumCountRows, hab g', ih g']

/-- `len(set(map(type, ·))) == 1` is order-blind on a two-element
position. -/
theorem allSameTag_swap (u v : Node) :
    allSameTag [u, v] = allSameTag [v, u] := by
  simp [allSameTag, eq_comm]

/-- The zip steps over two row lists in the two orders produce pairwise
swapped positions. -/
theorem pzGo_swap (k : Nat) :
    ∀ A B, List.Forall₂ swappedPair (pzGo k [A, B]) (pzGo k [B, A]) := by
  induction k with
  | zero => intro A B; exact List.Forall₂.nil
  | succ k ih =>
    intro A B
    by_cases hE : ([A, B] : List (List Node)).all (·.isEmpty)
    · have hE' : ([B, A] : List (List Node)).all (·.isEmpty) := by
        simp_all
      simp only [pzGo, hE, hE', if_true]
      exact List.Forall₂.nil
    · have hE' : ¬ ([B, A] : List (List Node)).all (·.isEmpty) := by
        simp_all [and_comm]
      simp only [pzGo, hE, hE', if_false, List.map]
      exact List.Forall₂.cons ⟨_, _, rfl, rfl⟩ (ih A.tail B.tail)

/-- `_padded_zip` of two row lists in the two orders gives pairwise
swapped positions. -/
theorem paddedZipN_swap (A B : List Node) :
    List.Forall₂ swappedPair (paddedZipN [A, B]) (paddedZipN [B, A]) := by
  have hk : ([A, B] : List (List Node)).foldl
        (fun a l => max a l.length) 0 =
      ([B, A] : List (List Node)).foldl (fun a l => max a l.length) 0 := by
    simp [List.foldl]
    omega
  rw [paddedZipN, paddedZipN, hk]
  exact pzGo_swap _ A B

/-- Pairwise swapped positions have the same homogeneity test result. -/
theorem all_allSameTag_swap {L₁ L₂ : List (List Node)}
    (h : List.Forall₂ swappedPair L₁ L₂) :
    L₁.all allSameTag = L₂.all allSameTag := by
  induction h with
  | nil => rfl
  | cons hab htail ih =>
    obtain ⟨u, v, rfl, rfl⟩ := hab
    simp only [List.all_cons, ih, allSameTag_swap u v]

theorem lcmStep_one (x : Int) : lcmStep 1 x = .ok x := by
  simp [lcmStep, Int.gcd]

theorem lcmStep_comm (x y : Int) : lcmStep x y = lcmStep y x := by
  simp only [lcmStep, Int.gcd_comm y x, Int.mul_comm y x]

/-- The two-element lcm fold is order-blind. -/
theorem lcmFold_two (a b : Int) : lcmFold [a, b] 1 = lcmFold [b, a] 1 := by
  simp only [lcmFold, Bind.bind, Except.bind, lcmStep_one, lcmStep_comm a b]

/-- Count agreement for row repeats with equal times and agreeing row
sums. -/
theorem countRows_rowRepeat_congr {rows₁ rows₂ : List Node} {t : Nat}
    {c₁ p₁ c₂ p₂ : Option Int}
    (h : ∀ g, sumCountRows g rows₁ = sumCountRows g rows₂) :
    ∀ g, countRows g (.rowRepeat rows₁ t c₁ p₁) =
      countRows g (.rowRepeat rows₂ t c₂ p₂) := by
  intro g
  cases g with
  | zero => rfl
  | succ g' => simp only [countRows, h g']

/-- Position-wise merging of pairwise swapped positions produces rows
with pointwise agreeing counts, given the swap property for single
merges at every smaller fuel. -/
theorem mergePositions_swap (fTop : Nat)
    (hind : ∀ f', f' < fTop → ∀ x y p q,
      mergeAcross f' [x, y] = .ok p → mergeAcross f' [y, x] = .ok q →
      ∀ g, countRows g p = countRows g q) :
    ∀ f, f < fTop → ∀ L₁ L₂ rows₁ rows₂,
      List.Forall₂ swappedPair L₁ L₂ →
      mergePositions f L₁ = .ok rows₁ → mergePositions f L₂ = .ok rows₂ →
      List.Forall₂ (fun r₁ r₂ => ∀ g, countRows g r₁ = countRows g r₂)
        rows₁ rows₂ := by
  intro f
  induction f with
  | zero =>
    intro _ L₁ L₂ rows₁ rows₂ _ h₁ _
    exact absurd h₁ (by simp [mergePositions])
  | succ f ihf =>
    intro hf L₁ L₂ rows₁ rows₂ hsw h₁ h₂
    cases hsw with
    | nil =>
      have e₁ : ([] : List Node) = rows₁ := by
        simpa [mergePositions] using h₁
      have e₂ : ([] : List Node) = rows₂ := by
        simpa [mergePositions] using h₂
      rw [← e₁, ← e₂]
      exact List.Forall₂.nil
    | cons hab htail =>
      obtain ⟨u, v, rfl, rfl⟩ := hab
      simp only [mergePositions] at h₁ h₂
      rw [bindOk] at h₁ h₂
      obtain ⟨r₁, hr₁, h₁⟩ := h₁
      obtain ⟨r₂, hr₂, h₂⟩ := h₂
      rw [bindOk] at h₁ h₂
      obtain ⟨rs₁, hrs₁, h₁⟩ := h₁
      obtain ⟨rs₂, hrs₂, h₂⟩ := h₂
      have e₁ : r₁ :: rs₁ = rows₁ := by simpa using h₁
      have e₂ : r₂ :: rs₂ = rows₂ := by simpa using h₂
      rw [← e₁, ← e₂]
      exact List.Forall₂.cons
        (hind f (by omega) u v r₁ r₂ hr₁ hr₂)
        (ihf (by omega) _ _ _ _ htail hrs₁ hrs₂)

/-- Row counting is monotone in fuel on success, jointly for nodes, row
sums and running maxima. -/
theorem countRows_mono_all (f : Nat) :
    (∀ s r f', f ≤ f' → countRows f s = .ok r → countRows f' s = .ok r)
    ∧ (∀ l r f', f ≤ f' → sumCountRows f l = .ok r →
        sumCountRows f' l = .ok r)
    ∧ (∀ l a r f', f ≤ f' → maxCountRows f l a = .ok r →
        maxCountRows f' l a = .ok r) := by
  induction f using Nat.strong_induction_on with
  | _ f ih =>
    refine ⟨?_, ?_, ?_⟩
    · intro s r f' hle h
      cases f with
      | zero => exact absurd h (by simp [countRows])
      | succ g =>
        obtain ⟨g', rfl⟩ : ∃ g', f' = g' + 1 := ⟨f' - 1, by omega⟩
        cases s with
        | row a b c d e => simpa [countRows] using h
        | rowRepeat rows t c p =>
          simp only [countRows] at h ⊢
          rw [bindOk] at h ⊢
          obtain ⟨sv, hs, h⟩ := h
          exact ⟨sv, (ih g (by omega)).2.1 _ _ g' (by omega) hs, h⟩
        | pattern rows a b c p =>
          simp only [countRows] at h ⊢
          exact (ih g (by omega)).1 _ _ g' (by omega) h
        | block ps a b =>
          simp only [countRows] at h ⊢
          cases ps with
          | nil => exact h
          | cons q qs =>
            rw [bindOk] at h ⊢
            obtain ⟨cv, hc, h⟩ := h
            exact ⟨cv, (ih g (by omega)).1 _ _ g' (by omega) hc,
              (ih g (by omega)).2.2 _ _ _ g' (by omega) h⟩
        | fixedBlockRepeat blk a b c =>
          simp only [countRows] at h ⊢
          exact (ih g (by omega)).1 _ _ g' (by omega) h
        | stitchLit v => simp [countRows] at h
        | fixedRep a b c d => simp [countRows] at h
        | expandingRep a b c d => simp [countRows] at h
        | get a => simp [countRows] at h
        | call a b => simp [countRows] at h
        | nativeFunction a => simp [countRows] at h
    · intro l r f' hle h
      cases f with
      | zero => exact absurd h (by simp [sumCountRows])
      | succ g =>
        obtain ⟨g', rfl⟩ : ∃ g', f' = g' + 1 := ⟨f' - 1, by omega⟩
        cases l with
        | nil => simpa [sumCountRows] using h
        | cons s ss =>
          simp only [sumCountRows] at h ⊢
          rw [bindOk] at h ⊢
          obtain ⟨cv, hc, h⟩ := h
          refine ⟨cv, (ih g (by omega)).1 _ _ g' (by omega) hc, ?_⟩
          rw [bindOk] at h ⊢
          obtain ⟨rv, hr, h⟩ := h
          exact ⟨rv, (ih g (by omega)).2.1 _ _ g' (by omega) hr, h⟩
    · intro l a r f' hle h
      cases f with
      | zero => exact absurd h (by simp [maxCountRows])
      | succ g =>
        obtain ⟨g', rfl⟩ : ∃ g', f' = g' + 1 := ⟨f' - 1, by omega⟩
        cases l with
        | nil => simpa [maxCountRows] using h
        | cons q qs =>
          simp only [maxCountRows] at h ⊢
          rw [bindOk] at h ⊢
          obtain ⟨cv, hc, h⟩ := h
          exact ⟨cv, (ih g (by omega)).1 _ _ g' (by omega) hc,
            (ih g (by omega)).2.2 _ _ _ g' (by omega) h⟩

theorem countRows_mono {f f' : Nat} {s : Node} {r : Int} (hle : f ≤ f')
    (h : countRows f s = .ok r) : countRows f' s = .ok r :=
  (countRows_mono_all f).1 s r f' hle h

theorem maxCountRows_nil_ok {f : Nat} {a m : Int}
    (h : maxCountRows f [] a = .ok m) : m = a := by
  cases f with
  | zero => exact absurd h (by simp [maxCountRows])
  | succ g => simpa [maxCountRows] using h.symm

/-- The running maximum over two siblings is the symmetric binary max of
their row counts. -/
theorem maxCountRowsAll_two {f : Nat} {a b : Node} {m : Int}
    (h : maxCountRowsAll f [a, b] = .ok m) :
    ∃ va vb, countRows f a = .ok va ∧ countRows f b = .ok vb ∧
      m = max va vb := by
  simp only [maxCountRowsAll] at h
  rw [bindOk] at h
  obtain ⟨va, hva, h⟩ := h
  cases f with
  | zero => exact absurd h (by simp [maxCountRows])
  | succ g =>
    simp only [maxCountRows] at h
    rw [bindOk] at h
    obtain ⟨vb, hvb, h⟩ := h
    exact ⟨va, vb, hva, countRows_mono (by omega) hvb,
      (maxCountRows_nil_ok h).symm ▸ rfl⟩

theorem mergeFlattenAll_two {f : Nat} {a b : Node} {out : List Node}
    (h : mergeFlattenAll f [a, b] = .ok out) :
    ∃ g fa fb, f = g + 2 ∧ flatten (g + 1) a true = .ok fa ∧
      flatten g b true = .ok fb ∧ out = [fa, fb] := by
  cases f with
  | zero => exact absurd h (by simp [mergeFlattenAll])
  | succ g =>
    simp only [mergeFlattenAll] at h
    rw [bindOk] at h
    obtain ⟨fa, hfa, h⟩ := h
    rw [bindOk] at h
    obtain ⟨rest, hrest, h⟩ := h
    cases g with
    | zero => exact absurd hrest (by simp [mergeFlattenAll])
    | succ g' =>
      simp only [mergeFlattenAll] at hrest
      rw [bindOk] at hrest
      obtain ⟨fb, hfb, hrest⟩ := hrest
      rw [bindOk] at hrest
      obtain ⟨rest₂, hrest₂, hrest⟩ := hrest
      have he : rest₂ = [] := by
        cases g' with
        | zero => exact absurd hrest₂ (by simp [mergeFlattenAll])
        | succ g₂ => simpa [mergeFlattenAll] using hrest₂.symm
      subst he
      have h1 : fb :: ([] : List Node) = rest := by simpa using hrest
      subst h1
      have h2 : fa :: [fb] = out := by simpa using h
      exact ⟨g', fa, fb, rfl, hfa, hfb, h2.symm⟩

theorem sumsAll_two {f : Nat} {A B : List Node} {out : List Int}
    (h : sumsAll f [A, B] = .ok out) :
    ∃ sA sB, sumCountRows f A = .ok sA ∧ sumCountRows f B = .ok sB ∧
      out = [sA, sB] := by
  simp only [sumsAll] at h
  rw [bindOk] at h
  obtain ⟨sA, hsA, h⟩ := h
  rw [bindOk] at h
  obtain ⟨rest, hrest, h⟩ := h
  rw [bindOk] at hrest
  obtain ⟨sB, hsB, hrest⟩ := hrest
  rw [bindOk] at hrest
  obtain ⟨rest₂, hrest₂, hrest⟩ := hrest
  have he : ([] : List Int) = rest₂ := by simpa [sumsAll] using hrest₂
  subst he
  have h1 : sB :: ([] : List Int) = rest := by simpa using hrest
  subst h1
  have h2 : sA :: [sB] = out := by simpa using h
  exact ⟨sA, sB, hsA, hsB, h2.symm⟩

theorem expandAll_two {f : Nat} {a b : Node} {l : Int} {out : List (List Node)}
    (h : expandAll f [a, b] l = .ok out) :
    ∃ ea eb, expandOne f a l = .ok ea ∧ expandOne f b l = .ok eb ∧
      out = [ea, eb] := by
  simp only [expandAll] at h
  rw [bindOk] at h
  obtain ⟨ea, hea, h⟩ := h
  rw [bindOk] at h
  obtain ⟨rest, hrest, h⟩ := h
  rw [bindOk] at hrest
  obtain ⟨eb, heb, hrest⟩ := hrest
  rw [bindOk] at hrest
  obtain ⟨rest₂, hrest₂, hrest⟩ := hrest
  have he : ([] : List (List Node)) = rest₂ := by
    simpa [expandAll] using hrest₂
  subst he
  have h1 : eb :: ([] : List (List Node)) = rest := by simpa using hrest
  subst h1
  have h2 : ea :: [eb] = out := by simpa using h
  exact ⟨ea, eb, hea, heb, h2.symm⟩

theorem rowsAttrAll_two {a b : Node} {out : List (List Node)}
    (h : rowsAttrAll [a, b] = .ok out) :
    ∃ ra rb, rowsAttr a = .ok ra ∧ rowsAttr b = .ok rb ∧
      out = [ra, rb] := by
  simp only [rowsAttrAll] at h
  rw [bindOk] at h
  obtain ⟨ra, hra, h⟩ := h
  rw [bindOk] at h
  obtain ⟨rest, hrest, h⟩ := h
  rw [bindOk] at hrest
  obtain ⟨rb, hrb, hrest⟩ := hrest
  rw [bindOk] at hrest
  obtain ⟨rest₂, hrest₂, hrest⟩ := hrest
  have he : ([] : List (List Node)) = rest₂ := by
    simpa [rowsAttrAll] using hrest₂
  subst he
  have h1 : rb :: ([] : List (List Node)) = rest := by simpa using hrest
  subst h1
  have h2 : ra :: [rb] = out := by simpa using h
  exact ⟨ra, rb, hra, hrb, h2.symm⟩

/-- A successful row merge always returns a Row node. -/
theorem mergeRows_shape {f : Nat} {l : List Node} {r : Node}
    (h : mergeRows f l = .ok r) :
    ∃ sts sd i c pp, r = .row sts sd i c pp := by
  simp only [mergeRows] at h
  rcases hh : l.head? with _ | hd
  · rw [hh] at h; exact absurd h (by simp)
  · rw [hh] at h
    rw [bindOk] at h
    obtain ⟨rv, hrv, h⟩ := h
    rw [bindOk] at h
    obtain ⟨proc, hproc, h⟩ := h
    rw [bindOk] at h
    obtain ⟨afts, hafts, h⟩ := h
    rw [bindOk] at h
    obtain ⟨rows₂, hrows₂, h⟩ := h
    rcases hh₂ : rows₂.head? with _ | hd₂
    · rw [hh₂] at h; exact absurd h (by simp)
    · rw [hh₂] at h
      rw [bindOk] at h
      obtain ⟨rv₂, hrv₂, h⟩ := h
      rw [bindOk] at h
      obtain ⟨cat, hcat, h⟩ := h
      rw [bindOk] at h
      obtain ⟨cs, hcs, h⟩ := h
      rw [bindOk] at h
      obtain ⟨ps, hps, h⟩ := h
      exact ⟨cat, rv.2.1, rv₂.2.2.1, some cs, some ps, by simpa using h.symm⟩

/-- The cast-on fold is monotone in fuel on success. -/
theorem swco_mono (f : Nat) :
    (∀ s a r f', f ≤ f' → startsWithCastOns f s a = .ok r →
      startsWithCastOns f' s a = .ok r)
    ∧ (∀ l a r f', f ≤ f' → swcoFold f l a = .ok r →
      swcoFold f' l a = .ok r) := by
  induction f using Nat.strong_induction_on with
  | _ f ih =>
    constructor
    · intro s a r f' hle h
      cases f with
      | zero => exact absurd h (by simp [startsWithCastOns])
      | succ g =>
        obtain ⟨g', rfl⟩ : ∃ g', f' = g' + 1 := ⟨f' - 1, by omega⟩
        cases s with
        | pattern rows p e c pp =>
          rcases hh : rows.head? with _ | r0
          · simp [startsWithCastOns, hh] at h
          · simp only [startsWithCastOns, hh] at h ⊢
            exact (ih g (by omega)).1 _ _ _ g' (by omega) h
        | rowRepeat rows t c pp =>
          rcases hh : rows.head? with _ | r0
          · simp [startsWithCastOns, hh] at h
          · simp only [startsWithCastOns, hh] at h ⊢
            exact (ih g (by omega)).1 _ _ _ g' (by omega) h
        | stitchLit v => simpa [startsWithCastOns] using h
        | fixedRep sts t c pp =>
          simp only [startsWithCastOns] at h ⊢
          exact (ih g (by omega)).2 _ _ _ g' (by omega) h
        | expandingRep sts tl c pp =>
          simp only [startsWithCastOns] at h ⊢
          exact (ih g (by omega)).2 _ _ _ g' (by omega) h
        | row sts sd i c pp =>
          simp only [startsWithCastOns] at h ⊢
          exact (ih g (by omega)).2 _ _ _ g' (by omega) h
        | block ps c pp =>
          simp only [startsWithCastOns] at h ⊢
          exact (ih g (by omega)).2 _ _ _ g' (by omega) h
        | fixedBlockRepeat blk t c pp =>
          simp only [startsWithCastOns] at h ⊢
          exact (ih g (by omega)).1 _ _ _ g' (by omega) h
        | call tgt args =>
          simp only [startsWithCastOns] at h ⊢
          rw [bindOk] at h ⊢
          obtain ⟨a', ha, h⟩ := h
          exact ⟨a', (ih g (by omega)).2 _ _ _ g' (by omega) ha,
            (ih g (by omega)).1 _ _ _ g' (by omega) h⟩
        | get n => simpa [startsWithCastOns] using h
        | nativeFunction i => simpa [startsWithCastOns] using h
    · intro l a r f' hle h
      cases f with
      | zero => exact absurd h (by simp [swcoFold])
      | succ g =>
        obtain ⟨g', rfl⟩ : ∃ g', f' = g' + 1 := ⟨f' - 1, by omega⟩
        cases l with
        | nil => simpa [swcoFold] using h
        | cons s ss =>
          simp only [swcoFold] at h ⊢
          rw [bindOk] at h ⊢
          obtain ⟨a', ha, h⟩ := h
          exact ⟨a', (ih g (by omega)).1 _ _ _ g' (by omega) ha,
            (ih g (by omega)).2 _ _ _ g' (by omega) h⟩

/-- Side inference is monotone in fuel on success. -/
theorem inferSides_mono (f : Nat) :
    (∀ s d r f', f ≤ f' → inferSides f s d = .ok r →
      inferSides f' s d = .ok r)
    ∧ (∀ l ds r f', f ≤ f' → inferSidesZip f l ds = .ok r →
      inferSidesZip f' l ds = .ok r) := by
  induction f using Nat.strong_induction_on with
  | _ f ih =>
    constructor
    · intro s d r f' hle h
      cases f with
      | zero => exact absurd h (by simp [inferSides])
      | succ g =>
        obtain ⟨g', rfl⟩ : ∃ g', f' = g' + 1 := ⟨f' - 1, by omega⟩
        cases s with
        | pattern rows p e c pp =>
          simp only [inferSides] at h ⊢
          rw [bindOk] at h ⊢
          obtain ⟨co, hco, h⟩ := h
          refine ⟨co, (swco_mono g).1 _ _ _ g' (by omega) hco, ?_⟩
          rw [bindOk] at h ⊢
          obtain ⟨rows', hr, h⟩ := h
          exact ⟨rows', (ih g (by omega)).2 _ _ _ g' (by omega) hr, h⟩
        | block ps c pp =>
          simp only [inferSides] at h ⊢
          rw [bindOk] at h ⊢
          obtain ⟨ps', hp, h⟩ := h
          exact ⟨ps', (ih g (by omega)).2 _ _ _ g' (by omega) hp, h⟩
        | fixedBlockRepeat blk t c pp =>
          simp only [inferSides] at h ⊢
          rw [bindOk] at h ⊢
          obtain ⟨blk', hb, h⟩ := h
          exact ⟨blk', (ih g (by omega)).1 _ _ _ g' (by omega) hb, h⟩
        | rowRepeat rows t c pp =>
          simp only [inferSides] at h ⊢
          rw [bindOk] at h ⊢
          obtain ⟨rows', hr, h⟩ := h
          exact ⟨rows', (ih g (by omega)).2 _ _ _ g' (by omega) hr, h⟩
        | row sts sd i c pp => simpa [inferSides] using h
        | stitchLit v => simp [inferSides] at h
        | fixedRep a b c dd => simp [inferSides] at h
        | expandingRep a b c dd => simp [inferSides] at h
        | get a => simp [inferSides] at h
        | call a b => simp [inferSides] at h
        | nativeFunction a => simp [inferSides] at h
    · intro l ds r f' hle h
      cases f with
      | zero => exact absurd h (by simp [inferSidesZip])
      | succ g =>
        obtain ⟨g', rfl⟩ : ∃ g', f' = g' + 1 := ⟨f' - 1, by omega⟩
        cases l with
        | nil => simpa [inferSidesZip] using h
        | cons s ss =>
          cases ds with
          | nil => simpa [inferSidesZip] using h
          | cons d dds =>
            simp only [inferSidesZip] at h ⊢
            rw [bindOk] at h ⊢
            obtain ⟨s', hs, h⟩ := h
            refine ⟨s', (ih g (by omega)).1 _ _ _ g' (by omega) hs, ?_⟩
            rw [bindOk] at h ⊢
            obtain ⟨rest, hr, h⟩ := h
            exact ⟨rest, (ih g (by omega)).2 _ _ _ g' (by omega) hr, h⟩

/-- `_starting_side` is monotone in fuel on success. -/
theorem startingSide_mono {f : Nat} :
    ∀ {s r f'}, f ≤ f' → startingSide f s = .ok r →
      startingSide f' s = .ok r := by
  induction f using Nat.strong_induction_on with
  | _ f ih =>
    intro s r f' hle h
    cases f with
    | zero => exact absurd h (by simp [startingSide])
    | succ g =>
      obtain ⟨g', rfl⟩ : ∃ g', f' = g' + 1 := ⟨f' - 1, by omega⟩
      cases s with
      | rowRepeat rows t c pp =>
        rcases hh : rows.head? with _ | r0
        · simp [startingSide, hh] at h
        · simp only [startingSide, hh] at h ⊢
          exact ih g (by omega) (by omega) h
      | row sts sd i c pp => simpa [startingSide] using h
      | stitchLit v => simp [startingSide] at h
      | fixedRep a b c dd => simp [startingSide] at h
      | expandingRep a b c dd => simp [startingSide] at h
      | pattern a b c dd e => simp [startingSide] at h
      | block a b c => simp [startingSide] at h
      | fixedBlockRepeat a b c dd => simp [startingSide] at h
      | get a => simp [startingSide] at h
      | call a b => simp [startingSide] at h
      | nativeFunction a => simp [startingSide] at h

/-- `_increase_expanding_repeats` is monotone in fuel on success. -/
theorem increaseExp_mono (f : Nat) :
    (∀ s n r f', f ≤ f' → increaseExp f s n = .ok r →
      increaseExp f' s n = .ok r)
    ∧ (∀ l n r f', f ≤ f' → increaseExpList f l n = .ok r →
      increaseExpList f' l n = .ok r) := by
  induction f using Nat.strong_induction_on with
  | _ f ih =>
    constructor
    · intro s n r f' hle h
      cases f with
      | zero => exact absurd h (by simp [increaseExp])
      | succ g =>
        obtain ⟨g', rfl⟩ : ∃ g', f' = g' + 1 := ⟨f' - 1, by omega⟩
        cases s with
        | expandingRep sts tl c pp =>
          simp only [increaseExp] at h ⊢
          rw [bindOk] at h ⊢
          obtain ⟨sts', hs, h⟩ := h
          exact ⟨sts', (ih g (by omega)).2 _ _ _ g' (by omega) hs, h⟩
        | fixedRep sts t c pp =>
          simp only [increaseExp] at h ⊢
          rw [bindOk] at h ⊢
          obtain ⟨sts', hs, h⟩ := h
          exact ⟨sts', (ih g (by omega)).2 _ _ _ g' (by omega) hs, h⟩
        | row sts sd i c pp =>
          simp only [increaseExp] at h ⊢
          rw [bindOk] at h ⊢
          obtain ⟨sts', hs, h⟩ := h
          exact ⟨sts', (ih g (by omega)).2 _ _ _ g' (by omega) hs, h⟩
        | rowRepeat rows t c pp =>
          simp only [increaseExp] at h ⊢
          rw [bindOk] at h ⊢
          obtain ⟨rows', hs, h⟩ := h
          exact ⟨rows', (ih g (by omega)).2 _ _ _ g' (by omega) hs, h⟩
        | pattern rows p e c pp =>
          simp only [increaseExp] at h ⊢
          rw [bindOk] at h ⊢
          obtain ⟨rows', hs, h⟩ := h
          exact ⟨rows', (ih g (by omega)).2 _ _ _ g' (by omega) hs, h⟩
        | block ps c pp =>
          simp only [increaseExp] at h ⊢
          rw [bindOk] at h ⊢
          obtain ⟨ps', hs, h⟩ := h
          exact ⟨ps', (ih g (by omega)).2 _ _ _ g' (by omega) hs, h⟩
        | fixedBlockRepeat blk t c pp =>
          simp only [increaseExp] at h ⊢
          rw [bindOk] at h ⊢
          obtain ⟨blk', hb, h⟩ := h
          exact ⟨blk', (ih g (by omega)).1 _ _ _ g' (by omega) hb, h⟩
        | call tgt args =>
          simp only [increaseExp] at h ⊢
          rw [bindOk] at h ⊢
          obtain ⟨tgt', ht, h⟩ := h
          refine ⟨tgt', (ih g (by omega)).1 _ _ _ g' (by omega) ht, ?_⟩
          rw [bindOk] at h ⊢
          obtain ⟨args', ha, h⟩ := h
          exact ⟨args', (ih g (by omega)).2 _ _ _ g' (by omega) ha, h⟩
        | stitchLit v => simpa [increaseExp] using h
        | get a => simpa [increaseExp] using h
        | nativeFunction a => simpa [increaseExp] using h
    · intro l n r f' hle h
      cases f with
      | zero => exact absurd h (by simp [increaseExpList])
      | succ g =>
        obtain ⟨g', rfl⟩ : ∃ g', f' = g' + 1 := ⟨f' - 1, by omega⟩
        cases l with
        | nil => simpa [increaseExpList] using h
        | cons s ss =>
          simp only [increaseExpList] at h ⊢
          rw [bindOk] at h ⊢
          obtain ⟨s', hs, h⟩ := h
          refine ⟨s', (ih g (by omega)).1 _ _ _ g' (by omega) hs, ?_⟩
          rw [bindOk] at h ⊢
          obtain ⟨rest, hr, h⟩ := h
          exact ⟨rest, (ih g (by omega)).2 _ _ _ g' (by omega) hr, h⟩

/-- `_repeat_across` is monotone in fuel on success. -/
theorem repeatAcross_mono (f : Nat) :
    (∀ s t r f', f ≤ f' → repeatAcross f s t = .ok r →
      repeatAcross f' s t = .ok r)
    ∧ (∀ l t r f', f ≤ f' → repeatAcrossList f l t = .ok r →
      repeatAcrossList f' l t = .ok r) := by
  induction f using Nat.strong_induction_on with
  | _ f ih =>
    constructor
    · intro s t r f' hle h
      cases f with
      | zero => exact absurd h (by simp [repeatAcross])
      | succ g =>
        obtain ⟨g', rfl⟩ : ∃ g', f' = g' + 1 := ⟨f' - 1, by omega⟩
        cases s with
        | row sts sd i c pp => simpa [repeatAcross] using h
        | fixedRep sts tm c pp =>
          simp only [repeatAcross] at h ⊢
          rw [bindOk] at h ⊢
          obtain ⟨sts', hs, h⟩ := h
          exact ⟨sts', (ih g (by omega)).2 _ _ _ g' (by omega) hs, h⟩
        | expandingRep sts tl c pp =>
          simp only [repeatAcross] at h ⊢
          rw [bindOk] at h ⊢
          obtain ⟨sts', hs, h⟩ := h
          exact ⟨sts', (ih g (by omega)).2 _ _ _ g' (by omega) hs, h⟩
        | rowRepeat rows tm c pp =>
          simp only [repeatAcross] at h ⊢
          rw [bindOk] at h ⊢
          obtain ⟨rows', hs, h⟩ := h
          exact ⟨rows', (ih g (by omega)).2 _ _ _ g' (by omega) hs, h⟩
        | pattern rows p e c pp =>
          simp only [repeatAcross] at h ⊢
          rw [bindOk] at h ⊢
          obtain ⟨rows', hs, h⟩ := h
          exact ⟨rows', (ih g (by omega)).2 _ _ _ g' (by omega) hs, h⟩
        | block ps c pp =>
          simp only [repeatAcross] at h ⊢
          rw [bindOk] at h ⊢
          obtain ⟨ps', hs, h⟩ := h
          exact ⟨ps', (ih g (by omega)).2 _ _ _ g' (by omega) hs, h⟩
        | fixedBlockRepeat blk tm c pp =>
          simp only [repeatAcross] at h ⊢
          rw [bindOk] at h ⊢
          obtain ⟨blk', hb, h⟩ := h
          exact ⟨blk', (ih g (by omega)).1 _ _ _ g' (by omega) hb, h⟩
        | call tgt args =>
          simp only [repeatAcross] at h ⊢
          rw [bindOk] at h ⊢
          obtain ⟨tgt', ht, h⟩ := h
          refine ⟨tgt', (ih g (by omega)).1 _ _ _ g' (by omega) ht, ?_⟩
          rw [bindOk] at h ⊢
          obtain ⟨args', ha, h⟩ := h
          exact ⟨args', (ih g (by omega)).2 _ _ _ g' (by omega) ha, h⟩
        | stitchLit v => simpa [repeatAcross] using h
        | get a => simpa [repeatAcross] using h
        | nativeFunction a => simpa [repeatAcross] using h
    · intro l t r f' hle h
      cases f with
      | zero => exact absurd h (by simp [repeatAcrossList])
      | succ g =>
        obtain ⟨g', rfl⟩ : ∃ g', f' = g' + 1 := ⟨f' - 1, by omega⟩
        cases l with
        | nil => simpa [repeatAcrossList] using h
        | cons s ss =>
          simp only [repeatAcrossList] at h ⊢
          rw [bindOk] at h ⊢
          obtain ⟨s', hs, h⟩ := h
          refine ⟨s', (ih g (by omega)).1 _ _ _ g' (by omega) hs, ?_⟩
          rw [bindOk] at h ⊢
          obtain ⟨rest, hr, h⟩ := h
          exact ⟨rest, (ih g (by omega)).2 _ _ _ g' (by omega) hr, h⟩

theorem sumCountRows_mono {f f' : Nat} {l : List Node} {r : Int}
    (hle : f ≤ f') (h : sumCountRows f l = .ok r) :
    sumCountRows f' l = .ok r :=
  (countRows_mono_all f).2.1 l r f' hle h

theorem maxCountRows_mono {f f' : Nat} {l : List Node} {a r : Int}
    (hle : f ≤ f') (h : maxCountRows f l a = .ok r) :
    maxCountRows f' l a = .ok r :=
  (countRows_mono_all f).2.2 l a r f' hle h

theorem processRows_mono {f f' : Nat} {sd : Option Side} (hle : f ≤ f') :
    ∀ {l r}, processRows f sd l = .ok r → processRows f' sd l = .ok r := by
  intro l
  induction l with
  | nil => intro r h; simpa [processRows] using h
  | cons x xs ih =>
    intro r h
    simp only [processRows] at h ⊢
    rw [bindOk] at h ⊢
    obtain ⟨rv, hrv, h⟩ := h
    refine ⟨rv, hrv, ?_⟩
    by_cases hc : (rv.2.1 : Option Side) = sd
    · rw [if_pos hc] at h ⊢
      rw [bindOk] at h ⊢
      obtain ⟨x', hx, h⟩ := h
      refine ⟨x', hx, ?_⟩
      rw [bindOk] at h ⊢
      obtain ⟨rest, hr, h⟩ := h
      exact ⟨rest, ih hr, h⟩
    · rw [if_neg hc] at h ⊢
      rw [bindOk] at h ⊢
      obtain ⟨x', hx, h⟩ := h
      refine ⟨x', reverseNode_mono hle hx, ?_⟩
      rw [bindOk] at h ⊢
      obtain ⟨rest, hr, h⟩ := h
      exact ⟨rest, ih hr, h⟩

theorem increaseAll_mono {f f' : Nat} (hle : f ≤ f') :
    ∀ {l ns r}, increaseAll f l ns = .ok r → increaseAll f' l ns = .ok r := by
  intro l
  induction l with
  | nil => intro ns r h; simpa [increaseAll] using h
  | cons x xs ih =>
    intro ns r h
    cases ns with
    | nil => simpa [increaseAll] using h
    | cons n nns =>
      simp only [increaseAll] at h ⊢
      rw [bindOk] at h ⊢
      obtain ⟨x', hx, h⟩ := h
      refine ⟨x', (increaseExp_mono f).1 _ _ _ f' hle hx, ?_⟩
      rw [bindOk] at h ⊢
      obtain ⟨rest, hr, h⟩ := h
      exact ⟨rest, ih hr, h⟩

theorem repeatRowsGo_mono {f f' : Nat} (hle : f ≤ f') :
    ∀ {k rows sd r}, repeatRowsGo f k rows sd = .ok r →
      repeatRowsGo f' k rows sd = .ok r := by
  intro k
  induction k with
  | zero => intro rows sd r h; simpa [repeatRowsGo] using h
  | succ k ih =>
    intro rows sd r h
    simp only [repeatRowsGo] at h ⊢
    by_cases hodd : rows.length % 2 ≠ 0
    · rw [if_pos hodd] at h ⊢
      cases sd with
      | none => simp [Bind.bind, Except.bind] at h
      | some sdv =>
        rw [bindOk] at h ⊢
        obtain ⟨sv, hsv, h⟩ := h
        refine ⟨sv, hsv, ?_⟩
        rw [bindOk] at h ⊢
        obtain ⟨rows', hrw, h⟩ := h
        refine ⟨rows', (inferSides_mono f).2 _ _ _ f' hle hrw, ?_⟩
        rw [bindOk] at h ⊢
        obtain ⟨pr, hpr, h⟩ := h
        refine ⟨pr, hpr, ?_⟩
        rw [bindOk] at h ⊢
        obtain ⟨rest, hr, h⟩ := h
        exact ⟨rest, ih hr, h⟩
    · rw [if_neg hodd] at h ⊢
      rw [bindOk] at h ⊢
      obtain ⟨pr, hpr, h⟩ := h
      refine ⟨pr, hpr, ?_⟩
      rw [bindOk] at h ⊢
      obtain ⟨rest, hr, h⟩ := h
      exact ⟨rest, ih hr, h⟩

theorem repeatRows_mono {f f' : Nat} {rows : List Node} {t : Nat}
    {r : List Node} (hle : f ≤ f') (h : repeatRows f rows t = .ok r) :
    repeatRows f' rows t = .ok r := by
  rcases hh : rows.head? with _ | r0
  · simp [repeatRows, hh] at h
  · simp only [repeatRows, hh] at h ⊢
    rw [bindOk] at h ⊢
    obtain ⟨sd, hsd, h⟩ := h
    exact ⟨sd, startingSide_mono hle hsd, repeatRowsGo_mono hle h⟩

theorem expandOne_mono {f f' : Nat} {rep : Node} {n : Int} {r : List Node}
    (hle : f ≤ f') (h : expandOne f rep n = .ok r) :
    expandOne f' rep n = .ok r := by
  rcases hv : rrView rep with _ | rt
  · simp [expandOne, hv] at h
  · simp only [expandOne, hv] at h ⊢
    rw [bindOk] at h ⊢
    obtain ⟨sv, hsv, h⟩ := h
    refine ⟨sv, sumCountRows_mono hle hsv, ?_⟩
    by_cases hz : sv = 0
    · rw [if_pos hz] at h; exact absurd h (by simp)
    · rw [if_neg hz] at h ⊢
      exact repeatRows_mono hle h

theorem expandAll_mono {f f' : Nat} {n : Int} (hle : f ≤ f') :
    ∀ {l r}, expandAll f l n = .ok r → expandAll f' l n = .ok r := by
  intro l
  induction l with
  | nil => intro r h; simpa [expandAll] using h
  | cons x xs ih =>
    intro r h
    simp only [expandAll] at h ⊢
    rw [bindOk] at h ⊢
    obtain ⟨e, he, h⟩ := h
    refine ⟨e, expandOne_mono hle he, ?_⟩
    rw [bindOk] at h ⊢
    obtain ⟨rest, hr, h⟩ := h
    exact ⟨rest, ih hr, h⟩

theorem sumsAll_mono {f f' : Nat} (hle : f ≤ f') :
    ∀ {l r}, sumsAll f l = .ok r → sumsAll f' l = .ok r := by
  intro l
  induction l with
  | nil => intro r h; simpa [sumsAll] using h
  | cons x xs ih =>
    intro r h
    simp only [sumsAll] at h ⊢
    rw [bindOk] at h ⊢
    obtain ⟨sv, hs, h⟩ := h
    refine ⟨sv, sumCountRows_mono hle hs, ?_⟩
    rw [bindOk] at h ⊢
    obtain ⟨rest, hr, h⟩ := h
    exact ⟨rest, ih hr, h⟩

theorem maxCountRowsAll_mono {f f' : Nat} {l : List Node} {r : Int}
    (hle : f ≤ f') (h : maxCountRowsAll f l = .ok r) :
    maxCountRowsAll f' l = .ok r := by
  cases l with
  | nil => exact h
  | cons q qs =>
    simp only [maxCountRowsAll] at h ⊢
    rw [bindOk] at h ⊢
    obtain ⟨c, hc, h⟩ := h
    exact ⟨c, countRows_mono hle hc, maxCountRows_mono hle h⟩

theorem mergeRows_mono {f f' : Nat} {l : List Node} {r : Node}
    (hle : f ≤ f') (h : mergeRows f l = .ok r) : mergeRows f' l = .ok r := by
  rcases hh : l.head? with _ | hd
  · simp [mergeRows, hh] at h
  · simp only [mergeRows, hh] at h ⊢
    rw [bindOk] at h ⊢
    obtain ⟨rv, hrv, h⟩ := h
    refine ⟨rv, hrv, ?_⟩
    rw [bindOk] at h ⊢
    obtain ⟨proc, hproc, h⟩ := h
    refine ⟨proc, processRows_mono hle hproc, ?_⟩
    rw [bindOk] at h ⊢
    obtain ⟨afts, hafts, h⟩ := h
    refine ⟨afts, hafts, ?_⟩
    rw [bindOk] at h ⊢
    obtain ⟨rows₂, hrows₂, h⟩ := h
    exact ⟨rows₂, increaseAll_mono hle hrows₂, h⟩

/-- A successful row-repeat merge presupposes readable `rows`
attributes on every sibling. -/
theorem mergeReps_ok_inv {f : Nat} {reps : List Node} {r : Node}
    (h : mergeReps f reps = .ok r) :
    ∃ rl, rowsAttrAll reps = .ok rl := by
  cases f with
  | zero => exact absurd h (by simp [mergeReps])
  | succ g =>
    simp only [mergeReps] at h
    rw [bindOk] at h
    obtain ⟨rl, hrl, _⟩ := h
    exact ⟨rl, hrl⟩

/-- The normalizer and horizontal composer are monotone in fuel on
success: flattening, its child maps, merging, position-wise merging and
the unroll map all reproduce a successful run at any larger fuel. -/
theorem flatten_mono_all (f : Nat) :
    (∀ s u r f', f ≤ f' → flatten f s u = .ok r → flatten f' s u = .ok r)
    ∧ (∀ l u r f', f ≤ f' → flattenEach f l u = .ok r →
        flattenEach f' l u = .ok r)
    ∧ (∀ l u r f', f ≤ f' → flattenSplice f l u = .ok r →
        flattenSplice f' l u = .ok r)
    ∧ (∀ l u r f', f ≤ f' → flattenRows f l u = .ok r →
        flattenRows f' l u = .ok r)
    ∧ (∀ l r f', f ≤ f' → mergeAcross f l = .ok r →
        mergeAcross f' l = .ok r)
    ∧ (∀ L r f', f ≤ f' → mergePositions f L = .ok r →
        mergePositions f' L = .ok r)
    ∧ (∀ l r f', f ≤ f' → mergeFlattenAll f l = .ok r →
        mergeFlattenAll f' l = .ok r) := by
  induction f using Nat.strong_induction_on with
  | _ f ih =>
    refine ⟨?_, ?_, ?_, ?_, ?_, ?_, ?_⟩
    · intro s u r f' hle h
      cases f with
      | zero => exact absurd h (by simp [flatten])
      | succ g =>
        obtain ⟨g', rfl⟩ : ∃ g', f' = g' + 1 := ⟨f' - 1, by omega⟩
        cases s with
        | fixedRep sts t c p =>
          rcases hcv : collapseView t sts with _ | quad
          · simp only [flatten, hcv] at h ⊢
            rw [bindOk] at h ⊢
            obtain ⟨sts', hs, h⟩ := h
            exact ⟨sts', (ih g (by omega)).2.2.1 _ _ _ g' (by omega) hs, h⟩
          · simp only [flatten, hcv] at h ⊢
            rw [bindOk] at h ⊢
            obtain ⟨cv, hc, h⟩ := h
            refine ⟨cv, hc, ?_⟩
            rw [bindOk] at h ⊢
            obtain ⟨pv, hp, h⟩ := h
            refine ⟨pv, hp, ?_⟩
            rw [bindOk] at h ⊢
            obtain ⟨sts', hs, h⟩ := h
            exact ⟨sts', (ih g (by omega)).2.1 _ _ _ g' (by omega) hs, h⟩
        | row sts sd i c p =>
          simp only [flatten] at h ⊢
          rw [bindOk] at h ⊢
          obtain ⟨sts', hs, h⟩ := h
          exact ⟨sts', (ih g (by omega)).2.2.1 _ _ _ g' (by omega) hs, h⟩
        | rowRepeat rows t c p =>
          simp only [flatten] at h ⊢
          rw [bindOk] at h ⊢
          obtain ⟨rows', hs, h⟩ := h
          exact ⟨rows', (ih g (by omega)).2.2.2.1 _ _ _ g' (by omega) hs, h⟩
        | pattern rows pa e c p =>
          simp only [flatten] at h ⊢
          rw [bindOk] at h ⊢
          obtain ⟨rows', hs, h⟩ := h
          exact ⟨rows', (ih g (by omega)).2.2.2.1 _ _ _ g' (by omega) hs, h⟩
        | block ps c p =>
          simp only [flatten] at h ⊢
          rw [bindOk] at h ⊢
          obtain ⟨ps', hs, h⟩ := h
          exact ⟨ps', (ih g (by omega)).2.1 _ _ _ g' (by omega) hs,
            (ih g (by omega)).2.2.2.2.1 _ _ g' (by omega) h⟩
        | fixedBlockRepeat blk t c p =>
          simp only [flatten] at h ⊢
          rw [bindOk] at h ⊢
          obtain ⟨b₁, hb₁, h⟩ := h
          refine ⟨b₁, (ih g (by omega)).1 _ _ _ g' (by omega) hb₁, ?_⟩
          rw [bindOk] at h ⊢
          obtain ⟨b₂, hb₂, h⟩ := h
          refine ⟨b₂, (repeatAcross_mono g).1 _ _ _ g' (by omega) hb₂, ?_⟩
          rw [bindOk] at h ⊢
          obtain ⟨p₃, hp₃, h⟩ := h
          exact ⟨p₃, (ih g (by omega)).1 _ _ _ g' (by omega) hp₃, h⟩
        | expandingRep sts tl c p =>
          simp only [flatten] at h ⊢
          rw [bindOk] at h ⊢
          obtain ⟨sts', hs, h⟩ := h
          exact ⟨sts', (ih g (by omega)).2.1 _ _ _ g' (by omega) hs, h⟩
        | call tgt args =>
          simp only [flatten] at h ⊢
          rw [bindOk] at h ⊢
          obtain ⟨tgt', ht, h⟩ := h
          refine ⟨tgt', (ih g (by omega)).1 _ _ _ g' (by omega) ht, ?_⟩
          rw [bindOk] at h ⊢
          obtain ⟨args', ha, h⟩ := h
          exact ⟨args', (ih g (by omega)).2.1 _ _ _ g' (by omega) ha, h⟩
        | stitchLit v => simpa [flatten] using h
        | get a => simpa [flatten] using h
        | nativeFunction a => simpa [flatten] using h
    · intro l u r f' hle h
      cases f with
      | zero => exact absurd h (by simp [flattenEach])
      | succ g =>
        obtain ⟨g', rfl⟩ : ∃ g', f' = g' + 1 := ⟨f' - 1, by omega⟩
        cases l with
        | nil => simpa [flattenEach] using h
        | cons s ss =>
          simp only [flattenEach] at h ⊢
          rw [bindOk] at h ⊢
          obtain ⟨s', hs, h⟩ := h
          refine ⟨s', (ih g (by omega)).1 _ _ _ g' (by omega) hs, ?_⟩
          rw [bindOk] at h ⊢
          obtain ⟨rest, hr, h⟩ := h
          exact ⟨rest, (ih g (by omega)).2.1 _ _ _ g' (by omega) hr, h⟩
    · intro l u r f' hle h
      cases f with
      | zero => exact absurd h (by simp [flattenSplice])
      | succ g =>
        obtain ⟨g', rfl⟩ : ∃ g', f' = g' + 1 := ⟨f' - 1, by omega⟩
        cases l with
        | nil => simpa [flattenSplice] using h
        | cons s ss =>
          simp only [flattenSplice] at h ⊢
          rw [bindOk] at h ⊢
          obtain ⟨s', hs, h⟩ := h
          refine ⟨s', (ih g (by omega)).1 _ _ _ g' (by omega) hs, ?_⟩
          rw [bindOk] at h ⊢
          obtain ⟨rest, hr, h⟩ := h
          exact ⟨rest, (ih g (by omega)).2.2.1 _ _ _ g' (by omega) hr, h⟩
    · intro l u r f' hle h
      cases f with
      | zero => exact absurd h (by simp [flattenRows])
      | succ g =>
        obtain ⟨g', rfl⟩ : ∃ g', f' = g' + 1 := ⟨f' - 1, by omega⟩
        cases l with
        | nil => simpa [flattenRows] using h
        | cons s ss =>
          simp only [flattenRows] at h ⊢
          rw [bindOk] at h ⊢
          obtain ⟨s', hs, h⟩ := h
          refine ⟨s', (ih g (by omega)).1 _ _ _ g' (by omega) hs, ?_⟩
          rw [bindOk] at h ⊢
          obtain ⟨rest, hr, h⟩ := h
          refine ⟨rest, (ih g (by omega)).2.2.2.1 _ _ _ g' (by omega) hr, ?_⟩
          rcases hrv : rrView s' with _ | pr
          · rw [hrv] at h
            exact h
          · rw [hrv] at h
            obtain ⟨rrows, rt⟩ := pr
            have h' : (if u = true ∨ rt ≤ 1 then do
                  let spliced ← repeatRows g rrows rt
                  Except.ok (spliced ++ rest)
                else Except.ok (s' :: rest)) = Except.ok r := h
            show (if u = true ∨ rt ≤ 1 then do
                let spliced ← repeatRows g' rrows rt
                Except.ok (spliced ++ rest)
              else Except.ok (s' :: rest)) = Except.ok r
            by_cases hc : (u = true) ∨ rt ≤ 1
            · rw [if_pos hc] at h' ⊢
              rw [bindOk] at h' ⊢
              obtain ⟨spl, hspl, h'⟩ := h'
              exact ⟨spl, repeatRows_mono (by omega) hspl, h'⟩
            · rw [if_neg hc] at h' ⊢
              exact h'
    · intro l r f' hle h
      cases f with
      | zero => exact absurd h (by simp [mergeAcross])
      | succ g =>
        obtain ⟨g', rfl⟩ : ∃ g', f' = g' + 1 := ⟨f' - 1, by omega⟩
        rcases hh : l.head? with _ | hd
        · simp [mergeAcross, hh] at h
        · simp only [mergeAcross, hh] at h ⊢
          cases hd with
          | pattern rows pa e c p =>
            rw [bindOk] at h ⊢
            obtain ⟨mapped, hm, h⟩ := h
            refine ⟨mapped, hm, ?_⟩
            rw [bindOk] at h ⊢
            obtain ⟨rep, hrep, h⟩ := h
            exact ⟨rep, (ih g (by omega)).2.2.2.2.1 _ _ g' (by omega) hrep, h⟩
          | rowRepeat rows t c p =>
            cases g with
            | zero => exact absurd h (by simp [mergeReps])
            | succ g₀ =>
              obtain ⟨g₀', rfl⟩ : ∃ g₀', g' = g₀' + 1 := ⟨g' - 1, by omega⟩
              simp only [mergeReps] at h ⊢
              rw [bindOk] at h ⊢
              obtain ⟨rl, hrl, h⟩ := h
              refine ⟨rl, hrl, ?_⟩
              by_cases hcond : ¬ ((paddedZipN rl).all allSameTag = true)
              · rw [if_pos hcond] at h ⊢
                rw [bindOk] at h ⊢
                obtain ⟨flat, hflat, h⟩ := h
                refine ⟨flat,
                  (ih g₀ (by omega)).2.2.2.2.2.2 _ _ g₀' (by omega)
                    hflat, ?_⟩
                rw [bindOk] at h ⊢
                obtain ⟨rl', hrl', h⟩ := h
                refine ⟨rl', hrl', ?_⟩
                rw [bindOk] at h ⊢
                obtain ⟨rows', hrows, h⟩ := h
                exact ⟨rows',
                  (ih g₀ (by omega)).2.2.2.2.2.1 _ _ g₀' (by omega) hrows, h⟩
              · rw [if_neg hcond] at h ⊢
                rw [bindOk] at h ⊢
                obtain ⟨sums, hsums, h⟩ := h
                refine ⟨sums, sumsAll_mono (by omega) hsums, ?_⟩
                rw [bindOk] at h ⊢
                obtain ⟨lv, hl, h⟩ := h
                refine ⟨lv, hl, ?_⟩
                rw [bindOk] at h ⊢
                obtain ⟨exp, hexp, h⟩ := h
                refine ⟨exp, expandAll_mono (by omega) hexp, ?_⟩
                rw [bindOk] at h ⊢
                obtain ⟨rows', hrows, h⟩ := h
                refine ⟨rows',
                  (ih g₀ (by omega)).2.2.2.2.2.1 _ _ g₀' (by omega)
                    hrows, ?_⟩
                rw [bindOk] at h ⊢
                obtain ⟨mx, hmx, h⟩ := h
                exact ⟨mx, maxCountRowsAll_mono (by omega) hmx, h⟩
          | row sts sd i c p =>
            exact mergeRows_mono (by omega) h
          | stitchLit v => simp at h
          | fixedRep a b c d => simp at h
          | expandingRep a b c d => simp at h
          | block a b c => simp at h
          | fixedBlockRepeat a b c d => simp at h
          | get a => simp at h
          | call a b => simp at h
          | nativeFunction a => simp at h
    · intro L r f' hle h
      cases f with
      | zero => exact absurd h (by simp [mergePositions])
      | succ g =>
        obtain ⟨g', rfl⟩ : ∃ g', f' = g' + 1 := ⟨f' - 1, by omega⟩
        cases L with
        | nil => simpa [mergePositions] using h
        | cons pos rest =>
          simp only [mergePositions] at h ⊢
          rw [bindOk] at h ⊢
          obtain ⟨r₁, hr₁, h⟩ := h
          refine ⟨r₁, (ih g (by omega)).2.2.2.2.1 _ _ g' (by omega) hr₁, ?_⟩
          rw [bindOk] at h ⊢
          obtain ⟨rs, hrs, h⟩ := h
          exact ⟨rs, (ih g (by omega)).2.2.2.2.2.1 _ _ g' (by omega) hrs, h⟩
    · intro l r f' hle h
      cases f with
      | zero => exact absurd h (by simp [mergeFlattenAll])
      | succ g =>
        obtain ⟨g', rfl⟩ : ∃ g', f' = g' + 1 := ⟨f' - 1, by omega⟩
        cases l with
        | nil => simpa [mergeFlattenAll] using h
        | cons s ss =>
          simp only [mergeFlattenAll] at h ⊢
          rw [bindOk] at h ⊢
          obtain ⟨s', hs, h⟩ := h
          refine ⟨s', (ih g (by omega)).1 _ _ _ g' (by omega) hs, ?_⟩
          rw [bindOk] at h ⊢
          obtain ⟨rest, hr, h⟩ := h
          exact ⟨rest, (ih g (by omega)).2.2.2.2.2.2 _ _ g' (by omega) hr, h⟩

theorem flatten_mono {f f' : Nat} {s : Node} {u : Bool} {r : Node}
    (hle : f ≤ f') (h : flatten f s u = .ok r) : flatten f' s u = .ok r :=
  (flatten_mono_all f).1 s u r f' hle h

/-- Merging two siblings in the two opposite orders yields results with
the same row count at every fuel; if both results are row repeats they
also share `times` and pointwise row-count sums. -/
theorem merge_swap_counts (f : Nat) :
    ∀ x y p q, mergeAcross f [x, y] = .ok p → mergeAcross f [y, x] = .ok q →
      (∀ g, countRows g p = countRows g q)
      ∧ (∀ r₁ t₁ c₁ pp₁ r₂ t₂ c₂ pp₂,
          p = .rowRepeat r₁ t₁ c₁ pp₁ → q = .rowRepeat r₂ t₂ c₂ pp₂ →
          t₁ = t₂ ∧ ∀ g, sumCountRows g r₁ = sumCountRows g r₂) := by
  induction f using Nat.strong_induction_on with
  | _ f ih =>
    intro x y p q h₁ h₂
    cases f with
    | zero => exact absurd h₁ (by simp [mergeAcross])
    | succ F =>
      cases x with
      | row sx sdx ix cx px =>
        cases y with
        | row sy sdy iy cy py =>
          simp only [mergeAcross, List.head?_cons] at h₁ h₂
          obtain ⟨sts₁, sd₁, i₁, c₁, pp₁, rfl⟩ := mergeRows_shape h₁
          obtain ⟨sts₂, sd₂, i₂, c₂, pp₂, rfl⟩ := mergeRows_shape h₂
          constructor
          · intro g
            cases g with
            | zero => rfl
            | succ g' => rfl
          · intro r₁ t₁ cc₁ ppp₁ r₂ t₂ cc₂ ppp₂ hp hq
            exact absurd hp (by simp)
        | pattern rowsy pys eys cys prys =>
          simp only [mergeAcross, List.head?_cons] at h₂
          rw [bindOk] at h₂
          obtain ⟨mapped, hm, h₂⟩ := h₂
          have hmv : mapped =
              [.rowRepeat rowsy 1 cys prys, .fixedRep sx 1 cx px] := by
            simp [toFixedAll, toFixedRepeat, Bind.bind, Except.bind] at hm
            exact hm.symm
          subst hmv
          rw [bindOk] at h₂
          obtain ⟨rep, hrep, h₂⟩ := h₂
          cases F with
          | zero => simp [mergeAcross] at hrep
          | succ F' =>
            simp only [mergeAcross, List.head?_cons] at hrep
            obtain ⟨rl, hrl⟩ := mergeReps_ok_inv hrep
            simp [rowsAttrAll, rowsAttr, Bind.bind, Except.bind] at hrl
        | rowRepeat rowsy ty cy pry =>
          simp only [mergeAcross, List.head?_cons] at h₂
          obtain ⟨rl, hrl⟩ := mergeReps_ok_inv h₂
          simp [rowsAttrAll, rowsAttr, Bind.bind, Except.bind] at hrl
        | stitchLit v => simp [mergeAcross, List.head?_cons] at h₂
        | fixedRep a b c d => simp [mergeAcross, List.head?_cons] at h₂
        | expandingRep a b c d => simp [mergeAcross, List.head?_cons] at h₂
        | block a b c => simp [mergeAcross, List.head?_cons] at h₂
        | fixedBlockRepeat a b c d =>
          simp [mergeAcross, List.head?_cons] at h₂
        | get a => simp [mergeAcross, List.head?_cons] at h₂
        | call a b => simp [mergeAcross, List.head?_cons] at h₂
        | nativeFunction a => simp [mergeAcross, List.head?_cons] at h₂
      | pattern rowsx pxs exs cxs prxs =>
        cases y with
        | pattern rowsy pys eys cys prys =>
          simp only [mergeAcross, List.head?_cons] at h₁ h₂
          rw [bindOk] at h₁ h₂
          obtain ⟨m₁, hm₁, h₁⟩ := h₁
          obtain ⟨m₂, hm₂, h₂⟩ := h₂
          have hm₁v : m₁ =
              [.rowRepeat rowsx 1 cxs prxs, .rowRepeat rowsy 1 cys prys] := by
            simp [toFixedAll, toFixedRepeat, Bind.bind, Except.bind] at hm₁
            exact hm₁.symm
          have hm₂v : m₂ =
              [.rowRepeat rowsy 1 cys prys, .rowRepeat rowsx 1 cxs prxs] := by
            simp [toFixedAll, toFixedRepeat, Bind.bind, Except.bind] at hm₂
            exact hm₂.symm
          subst hm₁v hm₂v
          rw [bindOk] at h₁ h₂
          obtain ⟨rep₁, hrep₁, h₁⟩ := h₁
          obtain ⟨rep₂, hrep₂, h₂⟩ := h₂
          have hih := ih F (by omega) _ _ rep₁ rep₂ hrep₁ hrep₂
          cases rep₁ with
          | rowRepeat rows₁ t₁ c₁ pp₁ =>
            cases rep₂ with
            | rowRepeat rows₂ t₂ c₂ pp₂ =>
              have hp : Node.pattern rows₁ [] none c₁ pp₁ = p := by
                simpa using h₁
              have hq : Node.pattern rows₂ [] none c₂ pp₂ = q := by
                simpa using h₂
              subst hp hq
              obtain ⟨ht, hsum⟩ :=
                hih.2 rows₁ t₁ c₁ pp₁ rows₂ t₂ c₂ pp₂ rfl rfl
              constructor
              · intro g
                cases g with
                | zero => rfl
                | succ g' =>
                  simp only [countRows]
                  exact countRows_rowRepeat_congr hsum g'
              · intro r₁ tt₁ cc₁ ppp₁ r₂ tt₂ cc₂ ppp₂ hp' hq'
                exact absurd hp' (by simp)
            | stitchLit v => simp at h₂
            | fixedRep a b c d => simp at h₂
            | expandingRep a b c d => simp at h₂
            | row a b c d e => simp at h₂
            | pattern a b c d e => simp at h₂
            | block a b c => simp at h₂
            | fixedBlockRepeat a b c d => simp at h₂
            | get a => simp at h₂
            | call a b => simp at h₂
            | nativeFunction a => simp at h₂
          | stitchLit v => simp at h₁
          | fixedRep a b c d => simp at h₁
          | expandingRep a b c d => simp at h₁
          | row a b c d e => simp at h₁
          | pattern a b c d e => simp at h₁
          | block a b c => simp at h₁
          | fixedBlockRepeat a b c d => simp at h₁
          | get a => simp at h₁
          | call a b => simp at h₁
          | nativeFunction a => simp at h₁
        | row sy sdy iy cy py =>
          simp only [mergeAcross, List.head?_cons] at h₁
          rw [bindOk] at h₁
          obtain ⟨mapped, hm, h₁⟩ := h₁
          have hmv : mapped =
              [.rowRepeat rowsx 1 cxs prxs, .fixedRep sy 1 cy py] := by
            simp [toFixedAll, toFixedRepeat, Bind.bind, Except.bind] at hm
            exact hm.symm
          subst hmv
          rw [bindOk] at h₁
          obtain ⟨rep, hrep, h₁⟩ := h₁
          cases F with
          | zero => simp [mergeAcross] at hrep
          | succ F' =>
            simp only [mergeAcross, List.head?_cons] at hrep
            obtain ⟨rl, hrl⟩ := mergeReps_ok_inv hrep
            simp [rowsAttrAll, rowsAttr, Bind.bind, Except.bind] at hrl
        | expandingRep sts tl c pp =>
          simp only [mergeAcross, List.head?_cons] at h₁
          rw [bindOk] at h₁
          obtain ⟨mapped, hm, h₁⟩ := h₁
          have hmv : mapped =
              [.rowRepeat rowsx 1 cxs prxs, .fixedRep sts 1 none none] := by
            simp [toFixedAll, toFixedRepeat, Bind.bind, Except.bind] at hm
            exact hm.symm
          subst hmv
          rw [bindOk] at h₁
          obtain ⟨rep, hrep, h₁⟩ := h₁
          cases F with
          | zero => simp [mergeAcross] at hrep
          | succ F' =>
            simp only [mergeAcross, List.head?_cons] at hrep
            obtain ⟨rl, hrl⟩ := mergeReps_ok_inv hrep
            simp [rowsAttrAll, rowsAttr, Bind.bind, Except.bind] at hrl
        | rowRepeat a b c d =>
          simp [mergeAcross, List.head?_cons, toFixedAll, toFixedRepeat,
            Bind.bind, Except.bind] at h₁
        | stitchLit v =>
          simp [mergeAcross, List.head?_cons, toFixedAll, toFixedRepeat,
            Bind.bind, Except.bind] at h₁
        | fixedRep a b c d =>
          simp [mergeAcross, List.head?_cons, toFixedAll, toFixedRepeat,
            Bind.bind, Except.bind] at h₁
        | block a b c =>
          simp [mergeAcross, List.head?_cons, toFixedAll, toFixedRepeat,
            Bind.bind, Except.bind] at h₁
        | fixedBlockRepeat a b c d =>
          simp [mergeAcross, List.head?_cons, toFixedAll, toFixedRepeat,
            Bind.bind, Except.bind] at h₁
        | get a =>
          simp [mergeAcross, List.head?_cons, toFixedAll, toFixedRepeat,
            Bind.bind, Except.bind] at h₁
        | call a b =>
          simp [mergeAcross, List.head?_cons, toFixedAll, toFixedRepeat,
            Bind.bind, Except.bind] at h₁
        | nativeFunction a =>
          simp [mergeAcross, List.head?_cons, toFixedAll, toFixedRepeat,
            Bind.bind, Except.bind] at h₁
      | rowRepeat rowsx tx cx prx =>
        cases y with
        | rowRepeat rowsy ty cy pry =>
          simp only [mergeAcross, List.head?_cons] at h₁ h₂
          have hFpos : F ≠ 0 := by
            rintro rfl
            simp [mergeReps] at h₁
          obtain ⟨F₀, rfl⟩ : ∃ F₀, F = F₀ + 1 := ⟨F - 1, by omega⟩
          simp only [mergeReps] at h₁ h₂
          rw [bindOk] at h₁ h₂
          obtain ⟨rl₁, hrl₁, h₁⟩ := h₁
          obtain ⟨rl₂, hrl₂, h₂⟩ := h₂
          have hrl₁v : rl₁ = [rowsx, rowsy] := by
            simp [rowsAttrAll, rowsAttr, Bind.bind, Except.bind] at hrl₁
            exact hrl₁.symm
          have hrl₂v : rl₂ = [rowsy, rowsx] := by
            simp [rowsAttrAll, rowsAttr, Bind.bind, Except.bind] at hrl₂
            exact hrl₂.symm
          subst hrl₁v hrl₂v
          have hcsw : (paddedZipN [rowsx, rowsy]).all allSameTag
              = (paddedZipN [rowsy, rowsx]).all allSameTag :=
            all_allSameTag_swap (paddedZipN_swap rowsx rowsy)
          by_cases hcond : (paddedZipN [rowsx, rowsy]).all allSameTag = true
          · rw [if_neg (by simp [hcond])] at h₁
            rw [if_neg (by rw [← hcsw]; simp [hcond])] at h₂
            rw [bindOk] at h₁ h₂
            obtain ⟨sums₁, hsums₁, h₁⟩ := h₁
            obtain ⟨sums₂, hsums₂, h₂⟩ := h₂
            obtain ⟨sA, sB, hsA, hsB, hsv₁⟩ := sumsAll_two hsums₁
            obtain ⟨sB', sA', hsB', hsA', hsv₂⟩ := sumsAll_two hsums₂
            have hsAe : sA = sA' := by
              rw [hsA] at hsA'; simpa using hsA'
            have hsBe : sB = sB' := by
              rw [hsB] at hsB'; simpa using hsB'
            subst hsAe hsBe hsv₁ hsv₂
            rw [bindOk] at h₁ h₂
            obtain ⟨l₁, hl₁, h₁⟩ := h₁
            obtain ⟨l₂, hl₂, h₂⟩ := h₂
            have hlev : l₁ = l₂ := by
              rw [lcmFold_two sB sA, hl₁] at hl₂
              simpa using hl₂
            subst hlev
            rw [bindOk] at h₁ h₂
            obtain ⟨ex₁, hex₁, h₁⟩ := h₁
            obtain ⟨ex₂, hex₂, h₂⟩ := h₂
            obtain ⟨eA, eB, heA, heB, hexv₁⟩ := expandAll_two hex₁
            obtain ⟨eB', eA', heB', heA', hexv₂⟩ := expandAll_two hex₂
            have heAe : eA = eA' := by
              rw [heA] at heA'; simpa using heA'
            have heBe : eB = eB' := by
              rw [heB] at heB'; simpa using heB'
            subst heAe heBe hexv₁ hexv₂
            rw [bindOk] at h₁ h₂
            obtain ⟨rows₁, hrows₁, h₁⟩ := h₁
            obtain ⟨rows₂, hrows₂, h₂⟩ := h₂
            have hF2 := mergePositions_swap (F₀ + 1)
              (fun f' hf' x' y' p' q' ha hb =>
                (ih f' (by omega) x' y' p' q' ha hb).1)
              F₀ (by omega) _ _ _ _ (paddedZipN_swap eA eB) hrows₁ hrows₂
            rw [bindOk] at h₁ h₂
            obtain ⟨mx₁, hmx₁, h₁⟩ := h₁
            obtain ⟨mx₂, hmx₂, h₂⟩ := h₂
            obtain ⟨vA, vB, hvA, hvB, hmxv₁⟩ := maxCountRowsAll_two hmx₁
            obtain ⟨vB', vA', hvB', hvA', hmxv₂⟩ := maxCountRowsAll_two hmx₂
            have hvAe : vA = vA' := by
              rw [hvA] at hvA'; simpa using hvA'
            have hvBe : vB = vB' := by
              rw [hvB] at hvB'; simpa using hvB'
            subst hvAe hvBe hmxv₁
            rw [hmxv₂, max_comm vB vA] at h₂
            rw [bindOk] at h₁ h₂
            obtain ⟨t₁, ht₁, h₁⟩ := h₁
            obtain ⟨t₂, ht₂, h₂⟩ := h₂
            have hte : t₁ = t₂ := by
              rw [ht₁] at ht₂; simpa using ht₂
            subst hte

            rcases hh₁ : rows₁.head? with _ | hd₁
            · simp [hh₁] at h₁
            rcases hg₁ : rows₁.getLast? with _ | lst₁
            · simp [hh₁, hg₁] at h₁
            rcases hh₂ : rows₂.head? with _ | hd₂
            · simp [hh₂] at h₂
            rcases hg₂ : rows₂.getLast? with _ | lst₂
            · simp [hh₂, hg₂] at h₂
            simp only [hh₁, hg₁] at h₁
            simp only [hh₂, hg₂] at h₂
            rcases hca₁ : hd₁.consumesAttr with _ | c₀₁
            · simp [hca₁] at h₁
            rcases hpa₁ : lst₁.producesAttr with _ | pN₁
            · simp [hca₁, hpa₁] at h₁
            rcases hca₂ : hd₂.consumesAttr with _ | c₀₂
            · simp [hca₂] at h₂
            rcases hpa₂ : lst₂.producesAttr with _ | pN₂
            · simp [hca₂, hpa₂] at h₂
            simp only [hca₁, hpa₁] at h₁
            simp only [hca₂, hpa₂] at h₂

            have hpv : Node.rowRepeat rows₁ t₁.toNat c₀₁ pN₁ = p := by
              simpa using h₁
            have hqv : Node.rowRepeat rows₂ t₁.toNat c₀₂ pN₂ = q := by
              simpa using h₂
            subst hpv hqv

            have hsum := sumCountRows_congr hF2
            constructor
            · exact countRows_rowRepeat_congr hsum
            · intro r₁ tt₁ cc₁ ppp₁ r₂ tt₂ cc₂ ppp₂ hp' hq'
              simp only [Node.rowRepeat.injEq] at hp' hq'
              obtain ⟨hr₁, htt₁, _, _⟩ := hp'
              obtain ⟨hr₂, htt₂, _, _⟩ := hq'
              subst hr₁ htt₁ hr₂ htt₂
              exact ⟨rfl, hsum⟩

          · rw [if_pos (by simp [hcond])] at h₁
            rw [if_pos (by rw [← hcsw]; simp [hcond])] at h₂
            rw [bindOk] at h₁ h₂
            obtain ⟨flat₁, hflat₁, h₁⟩ := h₁
            obtain ⟨flat₂, hflat₂, h₂⟩ := h₂
            obtain ⟨g₁, fa, fb, hFe₁, hfa, hfb, hfl₁⟩ :=
              mergeFlattenAll_two hflat₁
            obtain ⟨g₂, fb', fa', hFe₂, hfb', hfa', hfl₂⟩ :=
              mergeFlattenAll_two hflat₂
            have hge : g₁ = g₂ := by omega
            subst hge
            have hfae : fa = fa' := by
              have hl := @flatten_mono g₁ (g₁ + 1)
                (Node.rowRepeat rowsx tx cx prx) true fa' (by omega) hfa'
              rw [hfa] at hl
              simpa using hl
            have hfbe : fb = fb' := by
              have hl := @flatten_mono g₁ (g₁ + 1)
                (Node.rowRepeat rowsy ty cy pry) true fb (by omega) hfb
              rw [hfb'] at hl
              simpa using hl.symm
            subst hfae hfbe hfl₁ hfl₂
            rw [bindOk] at h₁ h₂
            obtain ⟨rl₁', hrl₁', h₁⟩ := h₁
            obtain ⟨rl₂', hrl₂', h₂⟩ := h₂
            obtain ⟨rA, rB, hrA, hrB, hrlv₁⟩ := rowsAttrAll_two hrl₁'
            obtain ⟨rB', rA', hrB', hrA', hrlv₂⟩ := rowsAttrAll_two hrl₂'
            have hrAe : rA = rA' := by
              rw [hrA] at hrA'; simpa using hrA'
            have hrBe : rB = rB' := by
              rw [hrB] at hrB'; simpa using hrB'
            subst hrAe hrBe hrlv₁ hrlv₂
            rw [bindOk] at h₁ h₂
            obtain ⟨rows₁, hrows₁, h₁⟩ := h₁
            obtain ⟨rows₂, hrows₂, h₂⟩ := h₂
            have hF2 := mergePositions_swap (F₀ + 1)
              (fun f' hf' x' y' p' q' ha hb =>
                (ih f' (by omega) x' y' p' q' ha hb).1)
              F₀ (by omega) _ _ _ _ (paddedZipN_swap rA rB) hrows₁ hrows₂

            rcases hh₁ : rows₁.head? with _ | hd₁
            · simp [hh₁] at h₁
            rcases hg₁ : rows₁.getLast? with _ | lst₁
            · simp [hh₁, hg₁] at h₁
            rcases hh₂ : rows₂.head? with _ | hd₂
            · simp [hh₂] at h₂
            rcases hg₂ : rows₂.getLast? with _ | lst₂
            · simp [hh₂, hg₂] at h₂
            simp only [hh₁, hg₁] at h₁
            simp only [hh₂, hg₂] at h₂
            rcases hca₁ : hd₁.consumesAttr with _ | c₀₁
            · simp [hca₁] at h₁
            rcases hpa₁ : lst₁.producesAttr with _ | pN₁
            · simp [hca₁, hpa₁] at h₁
            rcases hca₂ : hd₂.consumesAttr with _ | c₀₂
            · simp [hca₂] at h₂
            rcases hpa₂ : lst₂.producesAttr with _ | pN₂
            · simp [hca₂, hpa₂] at h₂
            simp only [hca₁, hpa₁] at h₁
            simp only [hca₂, hpa₂] at h₂

            have hpv : Node.rowRepeat rows₁ 1 c₀₁ pN₁ = p := by
              simpa using h₁
            have hqv : Node.rowRepeat rows₂ 1 c₀₂ pN₂ = q := by
              simpa using h₂
            subst hpv hqv

            have hsum := sumCountRows_congr hF2
            constructor
            · exact countRows_rowRepeat_congr hsum
            · intro r₁ tt₁ cc₁ ppp₁ r₂ tt₂ cc₂ ppp₂ hp' hq'
              simp only [Node.rowRepeat.injEq] at hp' hq'
              obtain ⟨hr₁, htt₁, _, _⟩ := hp'
              obtain ⟨hr₂, htt₂, _, _⟩ := hq'
              subst hr₁ htt₁ hr₂ htt₂
              exact ⟨rfl, hsum⟩

        | pattern rowsy pys eys cys prys =>
          simp [mergeAcross, List.head?_cons, toFixedAll, toFixedRepeat,
            Bind.bind, Except.bind] at h₂
        | row sy sdy iy cy py =>
          simp only [mergeAcross, List.head?_cons] at h₁
          obtain ⟨rl, hrl⟩ := mergeReps_ok_inv h₁
          simp [rowsAttrAll, rowsAttr, Bind.bind, Except.bind] at hrl
        | stitchLit v => simp [mergeAcross, List.head?_cons] at h₂
        | fixedRep a b c d => simp [mergeAcross, List.head?_cons] at h₂
        | expandingRep a b c d => simp [mergeAcross, List.head?_cons] at h₂
        | block a b c => simp [mergeAcross, List.head?_cons] at h₂
        | fixedBlockRepeat a b c d =>
          simp [mergeAcross, List.head?_cons] at h₂
        | get a => simp [mergeAcross, List.head?_cons] at h₂
        | call a b => simp [mergeAcross, List.head?_cons] at h₂
        | nativeFunction a => simp [mergeAcross, List.head?_cons] at h₂
      | stitchLit v => simp [mergeAcross, List.head?_cons] at h₁
      | fixedRep a b c d => simp [mergeAcross, List.head?_cons] at h₁
      | expandingRep a b c d => simp [mergeAcross, List.head?_cons] at h₁
      | block a b c => simp [mergeAcross, List.head?_cons] at h₁
      | fixedBlockRepeat a b c d =>
        simp [mergeAcross, List.head?_cons] at h₁
      | get a => simp [mergeAcross, List.head?_cons] at h₁
      | call a b => simp [mergeAcross, List.head?_cons] at h₁
      | nativeFunction a => simp [mergeAcross, List.head?_cons] at h₁

/-- C4: for two patterns merged side by side in either order, the two
results have the same row count (at every counting fuel); the row-count
symmetry holds whenever both merges succeed, independently of the side
convention. -/
theorem C4_merge_row_count_symmetric (f g : Nat)
    (rowsa : List Node) (psa : List String)
    (ea : Option (List (String × Node))) (ca pra : Option Int)
    (rowsb : List Node) (psb : List String)
    (eb : Option (List (String × Node))) (cb prb : Option Int)
    (p q : Node)
    (h₁ : mergeAcross f [.pattern rowsa psa ea ca pra,
      .pattern rowsb psb eb cb prb] = .ok p)
    (h₂ : mergeAcross f [.pattern rowsb psb eb cb prb,
      .pattern rowsa psa ea ca pra] = .ok q) :
    countRows g p = countRows g q :=
  (merge_swap_counts f _ _ p q h₁ h₂).1 g

theorem C4_merge_row_count_symmetric_witness :
    mergeAcross 20
      [.pattern [.row [.stitchLit .KNIT] (some .Right) false
          (some 1) (some 1)] [] none (some 1) (some 1),
       .pattern [.row [.stitchLit .PURL] (some .Right) false
          (some 1) (some 1)] [] none (some 1) (some 1)] =
      .ok (.pattern [.row [.stitchLit .PURL, .stitchLit .KNIT]
          (some .Right) false (some 2) (some 2)] [] none (some 2) (some 2))
    ∧ mergeAcross 20
      [.pattern [.row [.stitchLit .PURL] (some .Right) false
          (some 1) (some 1)] [] none (some 1) (some 1),
       .pattern [.row [.stitchLit .KNIT] (some .Right) false
          (some 1) (some 1)] [] none (some 1) (some 1)] =
      .ok (.pattern [.row [.stitchLit .KNIT, .stitchLit .PURL]
          (some .Right) false (some 2) (some 2)] [] none (some 2) (some 2))
    ∧ countRows 3
        (.pattern [.row [.stitchLit .PURL, .stitchLit .KNIT]
          (some .Right) false (some 2) (some 2)] [] none (some 2) (some 2)) =
      countRows 3
        (.pattern [.row [.stitchLit .KNIT, .stitchLit .PURL]
          (some .Right) false (some 2) (some 2)] [] none (some 2) (some 2)) :=
  ⟨rfl, rfl,
    C4_merge_row_count_symmetric 20 3
      [.row [.stitchLit .KNIT] (some .Right) false (some 1) (some 1)]
      [] none (some 1) (some 1)
      [.row [.stitchLit .PURL] (some .Right) false (some 1) (some 1)]
      [] none (some 1) (some 1)
      (.pattern [.row [.stitchLit .PURL, .stitchLit .KNIT]
        (some .Right) false (some 2) (some 2)] [] none (some 2) (some 2))
      (.pattern [.row [.stitchLit .KNIT, .stitchLit .PURL]
        (some .Right) false (some 2) (some 2)] [] none (some 2) (some 2))
      rfl rfl⟩

/-- The flattener is the identity on normal-form stitch subtrees, rows
and block-free patterns: neither the collapse branch, the splice, nor
the row splice can fire on them. -/
theorem flatten_fixes (f : Nat) :
    (∀ s u s', (flatStitch s = true ∨ flatRow s = true ∨
        flatPattern s = true) →
      flatten f s u = .ok s' → s' = s)
    ∧ (∀ l u l', flatStitchList l = true →
      flattenEach f l u = .ok l' → l' = l)
    ∧ (∀ l u l', flatStitchList l = true →
      flattenSplice f l u = .ok l' → l' = l)
    ∧ (∀ l u l', flatRowList l = true →
      flattenRows f l u = .ok l' → l' = l) := by
  induction f using Nat.strong_induction_on with
  | _ f ih =>
    refine ⟨?_, ?_, ?_, ?_⟩
    · intro s u s' hfrag h
      cases f with
      | zero => exact absurd h (by simp [flatten])
      | succ g =>
        cases s with
        | stitchLit v =>
          simp only [flatten] at h
          simpa using h.symm
        | fixedRep sts t c p =>
          rcases hfrag with hf | hf | hf
          · simp only [flatStitch, Bool.and_eq_true,
              decide_eq_true_eq] at hf
            obtain ⟨⟨ht1, hlist⟩, hsingle⟩ := hf
            have hcv : collapseView t sts = none := by
              simp only [collapseView, if_pos ht1]
              rcases sts with _ | ⟨a, _ | ⟨b, rest⟩⟩
              · rfl
              · simp only [] at hsingle
                exact Option.isNone_iff_eq_none.mp hsingle
              · rfl
            simp only [flatten, hcv] at h
            rw [bindOk] at h
            obtain ⟨sts', hs, h⟩ := h
            have he := (ih g (by omega)).2.2.1 sts u sts' hlist hs
            subst he
            simpa using h.symm
          · simp [flatRow] at hf
          · simp [flatPattern] at hf
        | expandingRep sts tl c p =>
          rcases hfrag with hf | hf | hf
          · simp only [flatStitch] at hf
            simp only [flatten] at h
            rw [bindOk] at h
            obtain ⟨sts', hs, h⟩ := h
            have he := (ih g (by omega)).2.1 sts u sts' hf hs
            subst he
            simpa using h.symm
          · simp [flatRow] at hf
          · simp [flatPattern] at hf
        | row sts sd i c p =>
          rcases hfrag with hf | hf | hf
          · simp [flatStitch] at hf
          · simp only [flatRow] at hf
            simp only [flatten] at h
            rw [bindOk] at h
            obtain ⟨sts', hs, h⟩ := h
            have he := (ih g (by omega)).2.2.1 sts u sts' hf hs
            subst he
            simpa using h.symm
          · simp [flatPattern] at hf
        | pattern rows ps e c p =>
          rcases hfrag with hf | hf | hf
          · simp [flatStitch] at hf
          · simp [flatRow] at hf
          · simp only [flatPattern] at hf
            simp only [flatten] at h
            rw [bindOk] at h
            obtain ⟨rows', hs, h⟩ := h
            have he := (ih g (by omega)).2.2.2 rows u rows' hf hs
            subst he
            simpa using h.symm
        | rowRepeat a b c d =>
          rcases hfrag with hf | hf | hf <;>
            simp [flatStitch, flatRow, flatPattern] at hf
        | block a b c =>
          rcases hfrag with hf | hf | hf <;>
            simp [flatStitch, flatRow, flatPattern] at hf
        | fixedBlockRepeat a b c d =>
          rcases hfrag with hf | hf | hf <;>
            simp [flatStitch, flatRow, flatPattern] at hf
        | get a =>
          rcases hfrag with hf | hf | hf <;>
            simp [flatStitch, flatRow, flatPattern] at hf
        | call a b =>
          rcases hfrag with hf | hf | hf <;>
            simp [flatStitch, flatRow, flatPattern] at hf
        | nativeFunction a =>
          rcases hfrag with hf | hf | hf <;>
            simp [flatStitch, flatRow, flatPattern] at hf
    · intro l u l' hl h
      cases f with
      | zero => exact absurd h (by simp [flattenEach])
      | succ g =>
        cases l with
        | nil =>
          simp only [flattenEach] at h
          simpa using h.symm
        | cons s ss =>
          simp only [flatStitchList, Bool.and_eq_true] at hl
          simp only [flattenEach] at h
          rw [bindOk] at h
          obtain ⟨s₁, hs, h⟩ := h
          have he := (ih g (by omega)).1 s u s₁ (Or.inl hl.1) hs
          subst he
          rw [bindOk] at h
          obtain ⟨rest, hr, h⟩ := h
          have he₂ := (ih g (by omega)).2.1 ss u rest hl.2 hr
          subst he₂
          simpa using h.symm
    · intro l u l' hl h
      cases f with
      | zero => exact absurd h (by simp [flattenSplice])
      | succ g =>
        cases l with
        | nil =>
          simp only [flattenSplice] at h
          simpa using h.symm
        | cons s ss =>
          simp only [flatStitchList, Bool.and_eq_true] at hl
          simp only [flattenSplice] at h
          rw [bindOk] at h
          obtain ⟨s₁, hs, h⟩ := h
          have he := (ih g (by omega)).1 s u s₁ (Or.inl hl.1) hs
          subst he
          rw [bindOk] at h
          obtain ⟨rest, hr, h⟩ := h
          have he₂ := (ih g (by omega)).2.2.1 ss u rest hl.2 hr
          subst he₂
          cases s₁ with
          | stitchLit v =>
            simp only [fsrView] at h
            simpa using h.symm
          | fixedRep sts₀ t₀ c₀ p₀ =>
            have ht1 : t₀ ≠ 1 := by
              have := hl.1
              simp only [flatStitch, Bool.and_eq_true,
                decide_eq_true_eq] at this
              exact this.1.1
            rcases t₀ with _ | t₁
            · simp only [fsrView] at h
              simpa using h.symm
            · rcases t₁ with _ | t₂
              · exact absurd rfl ht1
              · simp only [fsrView] at h
                simpa using h.symm
          | expandingRep a b c d =>
            simp only [fsrView] at h
            simpa using h.symm
          | row a b c d e => simp [flatStitch] at hl
          | rowRepeat a b c d => simp [flatStitch] at hl
          | pattern a b c d e => simp [flatStitch] at hl
          | block a b c => simp [flatStitch] at hl
          | fixedBlockRepeat a b c d => simp [flatStitch] at hl
          | get a => simp [flatStitch] at hl
          | call a b => simp [flatStitch] at hl
          | nativeFunction a => simp [flatStitch] at hl
    · intro l u l' hl h
      cases f with
      | zero => exact absurd h (by simp [flattenRows])
      | succ g =>
        cases l with
        | nil =>
          simp only [flattenRows] at h
          simpa using h.symm
        | cons r rs =>
          simp only [flatRowList, Bool.and_eq_true] at hl
          simp only [flattenRows] at h
          rw [bindOk] at h
          obtain ⟨r₁, hrr, h⟩ := h
          have he := (ih g (by omega)).1 r u r₁ (Or.inr (Or.inl hl.1)) hrr
          subst he
          rw [bindOk] at h
          obtain ⟨rest, hr, h⟩ := h
          have he₂ := (ih g (by omega)).2.2.2 rs u rest hl.2 hr
          subst he₂
          cases r₁ with
          | row a b c d e =>
            simp only [rrView] at h
            simpa using h.symm
          | stitchLit v => simp [flatRow] at hl
          | fixedRep a b c d => simp [flatRow] at hl
          | expandingRep a b c d => simp [flatRow] at hl
          | rowRepeat a b c d => simp [flatRow] at hl
          | pattern a b c d e => simp [flatRow] at hl
          | block a b c => simp [flatRow] at hl
          | fixedBlockRepeat a b c d => simp [flatRow] at hl
          | get a => simp [flatRow] at hl
          | call a b => simp [flatRow] at hl
          | nativeFunction a => simp [flatRow] at hl

/-- C6 counterexample: flattening is not idempotent.  On the pattern with
the one row `[FSR(2, [FSR(3, [FSR(1, [K, P])])])]` (honest caches), the
collapse branch merges only one nesting level per pass: the first pass
yields the row `[FSR(6, [FSR(1, [K, P])])]` and the second pass changes
it again to `[FSR(6, [K, P])]`. -/
theorem C6_counterexample :
    flatten 10 (.pattern
      [.row [.fixedRep [.fixedRep
          [.fixedRep [.stitchLit .KNIT, .stitchLit .PURL] 1
            (some 2) (some 2)] 3 (some 6) (some 6)] 2 (some 12) (some 12)]
        (some .Right) false (some 12) (some 12)]
      [] none (some 12) (some 12)) false =
      .ok (.pattern
        [.row [.fixedRep [.fixedRep [.stitchLit .KNIT, .stitchLit .PURL] 1
            (some 2) (some 2)] 6 (some 12) (some 12)]
          (some .Right) false (some 12) (some 12)]
        [] none (some 12) (some 12))
    ∧ flatten 10 (.pattern
        [.row [.fixedRep [.fixedRep [.stitchLit .KNIT, .stitchLit .PURL] 1
            (some 2) (some 2)] 6 (some 12) (some 12)]
          (some .Right) false (some 12) (some 12)]
        [] none (some 12) (some 12)) false =
      .ok (.pattern
        [.row [.fixedRep [.stitchLit .KNIT, .stitchLit .PURL] 6
            (some 12) (some 12)]
          (some .Right) false (some 12) (some 12)]
        [] none (some 12) (some 12))
    ∧ (.pattern
        [.row [.fixedRep [.stitchLit .KNIT, .stitchLit .PURL] 6
            (some 12) (some 12)]
          (some .Right) false (some 12) (some 12)]
        [] none (some 12) (some 12) : Node) ≠
      .pattern
        [.row [.fixedRep [.fixedRep [.stitchLit .KNIT, .stitchLit .PURL] 1
            (some 2) (some 2)] 6 (some 12) (some 12)]
          (some .Right) false (some 12) (some 12)]
        [] none (some 12) (some 12) := by
  refine ⟨rfl, rfl, fun hc => ?_⟩
  simp at hc

/-- C6 (amended): flattening is idempotent on block-free patterns in
flattener normal form: every row's stitch list is built from stitch
literals, fixed repeats whose `times` is not 1 and whose stitch list is
not a single nested repeat, and expanding repeats of such subtrees.  On
this fragment a first successful flatten returns its input unchanged,
and so does any second flatten. -/
theorem C6_flatten_idempotent (f₁ f₂ : Nat) (p q r : Node)
    (hp : flatPattern p = true)
    (h₁ : flatten f₁ p false = .ok q)
    (h₂ : flatten f₂ q false = .ok r) :
    r = q := by
  have hq : q = p :=
    (flatten_fixes f₁).1 p false q (Or.inr (Or.inr hp)) h₁
  subst hq
  exact (flatten_fixes f₂).1 q false r (Or.inr (Or.inr hp)) h₂

theorem C6_flatten_idempotent_witness :
    flatPattern (.pattern
      [.row [.fixedRep [.stitchLit .KNIT, .stitchLit .PURL] 2
          (some 4) (some 4)]
        (some .Right) false (some 4) (some 4)]
      [] none (some 4) (some 4)) = true
    ∧ flatten 10 (.pattern
        [.row [.fixedRep [.stitchLit .KNIT, .stitchLit .PURL] 2
            (some 4) (some 4)]
          (some .Right) false (some 4) (some 4)]
        [] none (some 4) (some 4)) false =
      .ok (.pattern
        [.row [.fixedRep [.stitchLit .KNIT, .stitchLit .PURL] 2
            (some 4) (some 4)]
          (some .Right) false (some 4) (some 4)]
        [] none (some 4) (some 4))
    ∧ ((.pattern
        [.row [.fixedRep [.stitchLit .KNIT, .stitchLit .PURL] 2
            (some 4) (some 4)]
          (some .Right) false (some 4) (some 4)]
        [] none (some 4) (some 4) : Node) =
      .pattern
        [.row [.fixedRep [.stitchLit .KNIT, .stitchLit .PURL] 2
            (some 4) (some 4)]
          (some .Right) false (some 4) (some 4)]
        [] none (some 4) (some 4)) :=
  ⟨rfl, rfl,
    C6_flatten_idempotent 10 10
      (.pattern
        [.row [.fixedRep [.stitchLit .KNIT, .stitchLit .PURL] 2
            (some 4) (some 4)]
          (some .Right) false (some 4) (some 4)]
        [] none (some 4) (some 4))
      (.pattern
        [.row [.fixedRep [.stitchLit .KNIT, .stitchLit .PURL] 2
            (some 4) (some 4)]
          (some .Right) false (some 4) (some 4)]
        [] none (some 4) (some 4))
      (.pattern
        [.row [.fixedRep [.stitchLit .KNIT, .stitchLit .PURL] 2
            (some 4) (some 4)]
          (some .Right) false (some 4) (some 4)]
        [] none (some 4) (some 4))
      rfl rfl rfl⟩

/-- A `getD none` that yields a concrete value pins down the attribute. -/
theorem getD_some {o : Option (Option Int)} {v : Int}
    (h : o.getD none = some v) : o = some (some v) := by
  cases o with
  | none => simp at h
  | some x => simpa using h

/-- Inversion of one step of the `inferStitches` walk with a concrete
accumulator, splitting on how the child budget is formed from the
threaded `avail`. -/
theorem inferStitches_cons_ok {F : Nat} {s : Node} {ss : List Node}
    {av : Option Int} {cI pI : Int}
    {out : List Node × Option Int × Option Int}
    (h : inferStitches (F + 1) (s :: ss) av (some cI) (some pI) =
      .ok out) :
    ∃ CA s' rest accC' accP',
      ((av = none ∧ CA = none) ∨
        (∃ a₀, av = some a₀ ∧ CA = some (a₀ - cI))) ∧
      inferCounts F s CA = .ok s' ∧ s'.isKnittable = true ∧
      inferStitches F ss av
        (match some cI, s'.consumesAttr, some pI, s'.producesAttr with
          | some c₁, some (some c₂), some p₁, some (some p₂) =>
            (some (c₁ + c₂), some (p₁ + p₂))
          | _, _, _, _ => ((none : Option Int), (none : Option Int))).1
        (match some cI, s'.consumesAttr, some pI, s'.producesAttr with
          | some c₁, some (some c₂), some p₁, some (some p₂) =>
            (some (c₁ + c₂), some (p₁ + p₂))
          | _, _, _, _ => ((none : Option Int), (none : Option Int))).2
      = .ok (rest, accC', accP') ∧
      out = (s' :: rest, accC', accP') := by
  cases av with
  | none =>
    simp only [inferStitches] at h
    rw [bindOk] at h
    obtain ⟨y, hy, h⟩ := h
    have hy0 : y = none := by
      symm
      simpa [Pure.pure, Except.pure] using hy
    subst hy0
    rw [bindOk] at h
    obtain ⟨s', hs', h⟩ := h
    by_cases hkn : s'.isKnittable
    · rw [if_pos hkn] at h
      rw [bindOk] at h
      obtain ⟨d, hd, h⟩ := h
      obtain ⟨rest, accC', accP'⟩ := d
      refine ⟨none, s', rest, accC', accP', Or.inl ⟨rfl, rfl⟩, hs',
        hkn, hd, ?_⟩
      have h2 : (s' :: rest, accC', accP') = out := by simpa using h
      exact h2.symm
    · rw [if_neg hkn] at h
      exact absurd h (by simp)
  | some a₀ =>
    simp only [inferStitches] at h
    rw [bindOk] at h
    obtain ⟨cva, hcva, h⟩ := h
    have hcva0 : cI = cva := by
      simpa [asInt] using hcva
    subst hcva0
    rw [bindOk] at h
    obtain ⟨y, hy, h⟩ := h
    have hy0 : y = some (a₀ - cI) := by
      symm
      simpa [Pure.pure, Except.pure] using hy
    subst hy0
    rw [bindOk] at h
    obtain ⟨s', hs', h⟩ := h
    by_cases hkn : s'.isKnittable
    · rw [if_pos hkn] at h
      rw [bindOk] at h
      obtain ⟨d, hd, h⟩ := h
      obtain ⟨rest, accC', accP'⟩ := d
      refine ⟨some (a₀ - cI), s', rest, accC', accP',
        Or.inr ⟨a₀, rfl, rfl⟩, hs', hkn, hd, ?_⟩
      have h2 : (s' :: rest, accC', accP') = out := by simpa using h
      exact h2.symm
    · rw [if_neg hkn] at h
      exact absurd h (by simp)

/-- Master invariant of the pipeline: a node left fixed by count
inference and accepted without diagnostics by count verification carries
a concrete non-negative cached `consumes` that fits in the verification
budget, and its `produces` attribute is present; the second part is the
matching invariant of the stitch-list walks, relating the inference
accumulator to the verification accumulator. -/
theorem infer_verify_counts (f : Nat) :
    (∀ n av f' a, inferCounts f n av = .ok n →
      verifyCounts f' n (some a) = .ok [] → (av = some a ∨ av = none) →
      (∃ c, n.consumesAttr = some (some c) ∧ 0 ≤ c ∧ (1 ≤ c → c ≤ a))
      ∧ ∃ po, n.producesAttr = some po)
    ∧ (∀ sts av cI pI counted accC₂ accP₂,
      inferStitches f sts av (some cI) (some pI) =
        .ok (counted, accC₂, accP₂) →
      counted = sts →
      ∀ f' a S P errsv S₂ P₂,
        verifyStitches f' sts (some a) S P = .ok (errsv, S₂, P₂) →
        errsv = [] →
        (av = none ∨ ∃ a₀, av = some a₀ ∧ a₀ - cI = a - S) →
        ∃ sc sp, accC₂ = some (cI + sc) ∧ accP₂ = some (pI + sp) ∧
          S₂ = S + sc ∧ P₂ = P + sp ∧ 0 ≤ sc ∧ (1 ≤ sc → sc ≤ a - S)) := by
  induction f using Nat.strong_induction_on with
  | _ f ih =>
    constructor
    · intro n av f' a hinf hver hlink
      cases f with
      | zero => exact absurd hinf (by simp [inferCounts])
      | succ F =>
        cases n with
        | stitchLit v =>
          cases f' with
          | zero => exact absurd hver (by simp [verifyCounts])
          | succ F' =>
            simp only [verifyCounts] at hver
            rw [bindOk] at hver
            obtain ⟨av', hav, hver⟩ := hver
            have hav' : a = av' := by simpa [asInt] using hav
            subst hav'
            have hle : v.consumes ≤ a := by
              have hx : atLeast v.consumes a (.stitchLit v) = [] := by
                simpa using hver
              exact atLeastNil.mp hx
            exact ⟨⟨v.consumes, rfl, stitch_consumes_nonneg v,
              fun _ => hle⟩, some v.produces, rfl⟩
        | fixedRep sts t c p =>
          simp only [inferCounts] at hinf
          rw [bindOk] at hinf
          obtain ⟨tri, htri, hinf⟩ := hinf
          obtain ⟨counted, accC, accP⟩ := tri
          cases f' with
          | zero => exact absurd hver (by simp [verifyCounts])
          | succ F' =>
            simp only [verifyCounts] at hver
            rw [bindOk] at hver
            obtain ⟨triv, htriv, hver⟩ := hver
            obtain ⟨errsW, S₂, P₂⟩ := triv
            have hlink' : (av = none ∨
                ∃ a₀, av = some a₀ ∧ a₀ - 0 = a - 0) := by
              rcases hlink with h | h
              · exact Or.inr ⟨a, h, by omega⟩
              · exact Or.inl h
            have herrsW : errsW = [] := by
              by_cases ht : t > 1
              · rw [if_pos ht] at hver
                rw [bindOk] at hver
                obtain ⟨a', ha', hver⟩ := hver
                simp only [Except.ok.injEq] at hver
                exact (List.append_eq_nil.mp hver).1
              · rw [if_neg ht] at hver
                simpa using hver
            rcases accC with _ | cc
            · have hcnt : counted = sts := by
                have := hinf
                simp at this
                exact this
              obtain ⟨sc, sp, hsc, _⟩ := (ih F (by omega)).2 sts av 0 0
                counted none accP htri hcnt F' a 0 0 errsW S₂ P₂ htriv
                herrsW hlink'
              exact absurd hsc (by simp)
            · rcases accP with _ | pp
              · have hcnt : counted = sts := by
                  have := hinf
                  simp at this
                  exact this
                obtain ⟨sc, sp, hsc, hsp, _⟩ := (ih F (by omega)).2 sts av
                  0 0 counted (some cc) none htri hcnt F' a 0 0 errsW S₂ P₂
                  htriv herrsW hlink'
                exact absurd hsp (by simp)
              · have hstb : counted = sts ∧ some (cc * (t : Int)) = c ∧
                    some (pp * (t : Int)) = p := by
                  have := hinf
                  simp at this
                  exact ⟨this.1, this.2.1, this.2.2⟩
                obtain ⟨hcnt, hc, hp⟩ := hstb
                obtain ⟨sc, sp, hsc, hsp, hS2, hP2, hnn, hbd⟩ :=
                  (ih F (by omega)).2 sts av 0 0 counted (some cc)
                    (some pp) htri hcnt F' a 0 0 errsW S₂ P₂ htriv
                    herrsW hlink'
                have hcc : cc = sc := by
                  have hq := hsc
                  simp at hq
                  omega
                subst hcc
                refine ⟨⟨cc * (t : Int), ?_,
                  mul_nonneg hnn (by positivity), fun h1 => ?_⟩, p, rfl⟩
                · show some c = some (some (cc * (t : Int)))
                  rw [← hc]
                · by_cases ht : t > 1
                  · rw [if_pos ht] at hver
                    rw [bindOk] at hver
                    obtain ⟨a', ha', hver⟩ := hver
                    have ha'' : a = a' := by simpa [asInt] using ha'
                    subst ha''
                    simp only [Except.ok.injEq] at hver
                    have hbig : (t : Int) * S₂ ≤ a :=
                      atLeastNil.mp (List.append_eq_nil.mp hver).2
                    rw [hS2] at hbig
                    calc cc * (t : Int) = (t : Int) * (0 + cc) := by ring
                    _ ≤ a := hbig
                  · have ht1 : t = 0 ∨ t = 1 := by omega
                    rcases ht1 with ht1 | ht1
                    · subst ht1
                      simp at h1
                    · subst ht1
                      have h1' : 1 ≤ cc := by simpa using h1
                      have := hbd h1'
                      simpa using this
        | expandingRep sts tl c p =>
          rcases hlink with hl | hl
          · subst hl
            simp only [inferCounts] at hinf
            rw [bindOk] at hinf
            obtain ⟨fixed, hfx, hinf⟩ := hinf
            cases F with
            | zero => exact absurd hfx (by simp [inferCounts])
            | succ F₂ =>
              simp only [inferCounts] at hfx
              rw [bindOk] at hfx
              obtain ⟨tri, htri, hfx⟩ := hfx
              obtain ⟨counted, accC, accP⟩ := tri
              rcases accC with _ | cc
              · have hfe : Node.fixedRep counted 1 none none = fixed := by
                  simpa using hfx
                subst hfe
                simp [asInt, Bind.bind, Except.bind] at hinf
              · rcases accP with _ | pp
                · have hfe : Node.fixedRep counted 1 none none
                      = fixed := by simpa using hfx
                  subst hfe
                  simp [asInt, Bind.bind, Except.bind] at hinf
                · have hfe : Node.fixedRep counted 1 (some cc) (some pp)
                      = fixed := by simpa using hfx
                  subst hfe
                  simp only [asInt, Bind.bind, Except.bind] at hinf
                  by_cases hz2 : cc = 0
                  · rw [if_pos hz2] at hinf
                    exact absurd hinf (by simp)
                  · rw [if_neg hz2] at hinf
                    have hstb : counted = sts ∧
                        some (cc * ((a - (tl : Int)).fdiv cc)) = c ∧
                        some (pp * ((a - (tl : Int)).fdiv cc)) = p := by
                      have := hinf
                      simp at this
                      exact ⟨this.1, this.2.1, this.2.2⟩
                    obtain ⟨hcnt, hceq, hpeq⟩ := hstb
                    cases f' with
                    | zero => exact absurd hver (by simp [verifyCounts])
                    | succ F' =>
                      simp only [verifyCounts] at hver
                      rw [bindOk] at hver
                      obtain ⟨a', ha', hver⟩ := hver
                      have ha'' : a = a' := by simpa [asInt] using ha'
                      subst ha''
                      rw [bindOk] at hver
                      obtain ⟨errsI, herrsI, hver⟩ := hver
                      rw [bindOk] at hver
                      obtain ⟨cvv, hcvv, hver⟩ := hver
                      by_cases hz3 : cvv = 0
                      · rw [if_pos hz3] at hver
                        exact absurd hver (by simp)
                      · rw [if_neg hz3] at hver
                        simp only [Except.ok.injEq] at hver
                        have herrI0 : errsI = [] :=
                          (List.append_eq_nil.mp hver).1
                        cases F' with
                        | zero =>
                          exact absurd herrsI (by simp [verifyCounts])
                        | succ F₃ =>
                          simp only [verifyCounts] at herrsI
                          rw [bindOk] at herrsI
                          obtain ⟨triv, htriv, herrsI⟩ := herrsI
                          obtain ⟨errsW, S₂, P₂⟩ := triv
                          have hw : errsW = errsI := by
                            simpa using herrsI
                          have herrW0 : errsW = [] := hw.trans herrI0
                          obtain ⟨sc, sp, hsc, hsp, hS2, hP2, hnn, hbd⟩ :=
                            (ih F₂ (by omega)).2 sts
                              (some (a - (tl : Int))) 0 0 counted
                              (some cc) (some pp) htri hcnt F₃
                              (a - (tl : Int)) 0 0 errsW S₂ P₂ htriv
                              herrW0
                              (Or.inr ⟨a - (tl : Int), rfl, by omega⟩)
                          have hcc : cc = sc := by
                            have hq := hsc
                            simp at hq
                            omega
                          subst hcc
                          have hcpos : 1 ≤ cc := by omega
                          have hbud : cc ≤ a - (tl : Int) := by
                            have := hbd hcpos
                            omega
                          have hdn : 0 ≤ (a - (tl : Int)).fdiv cc :=
                            Int.fdiv_nonneg (by omega) (by omega)
                          have hfits : cc * ((a - (tl : Int)).fdiv cc) ≤
                              a - (tl : Int) := by
                            have hid :=
                              Int.fmod_add_fdiv (a - (tl : Int)) cc
                            have hmn : 0 ≤ (a - (tl : Int)).fmod cc :=
                              Int.fmod_nonneg' (a - (tl : Int)) (by omega)
                            omega
                          have htl : (0 : Int) ≤ (tl : Int) := by
                            positivity
                          refine ⟨⟨cc * ((a - (tl : Int)).fdiv cc), ?_,
                            mul_nonneg hnn hdn, fun _ => by omega⟩,
                            p, rfl⟩
                          show some c =
                            some (some (cc * ((a - (tl : Int)).fdiv cc)))
                          rw [← hceq]
          · subst hl
            simp [inferCounts] at hinf
        | row sts side infr c p =>
          simp only [inferCounts] at hinf
          rw [bindOk] at hinf
          obtain ⟨fixed, hfx, hinf⟩ := hinf
          cases F with
          | zero => exact absurd hfx (by simp [inferCounts])
          | succ F₂ =>
            simp only [inferCounts] at hfx
            rw [bindOk] at hfx
            obtain ⟨tri, htri, hfx⟩ := hfx
            obtain ⟨counted, accC, accP⟩ := tri
            cases f' with
            | zero => exact absurd hver (by simp [verifyCounts])
            | succ F' =>
              simp only [verifyCounts] at hver
              cases F' with
              | zero => exact absurd hver (by simp [verifyCounts])
              | succ F₃ =>
                simp only [verifyCounts] at hver
                rw [bindOk] at hver
                obtain ⟨triv, htriv, hver⟩ := hver
                obtain ⟨errsW, S₂, P₂⟩ := triv
                have herrsW : errsW = [] := by
                  simpa using hver
                have hlink' : (av = none ∨
                    ∃ a₀, av = some a₀ ∧ a₀ - 0 = a - 0) := by
                  rcases hlink with h | h
                  · exact Or.inr ⟨a, h, by omega⟩
                  · exact Or.inl h
                rcases accC with _ | cc
                · have hfe : Node.fixedRep counted 1 c p = fixed := by
                    simpa using hfx
                  subst hfe
                  have hcnt : counted = sts := by
                    have := hinf
                    simp at this
                    exact this
                  obtain ⟨sc, sp, hsc, _⟩ := (ih F₂ (by omega)).2 sts av
                    0 0 counted none accP htri hcnt F₃ a 0 0 errsW S₂ P₂
                    htriv herrsW hlink'
                  exact absurd hsc (by simp)
                · rcases accP with _ | pp
                  · have hfe : Node.fixedRep counted 1 c p = fixed := by
                      simpa using hfx
                    subst hfe
                    have hcnt : counted = sts := by
                      have := hinf
                      simp at this
                      exact this
                    obtain ⟨sc, sp, hsc, hsp, _⟩ := (ih F₂ (by omega)).2
                      sts av 0 0 counted (some cc) none htri hcnt F₃ a
                      0 0 errsW S₂ P₂ htriv herrsW hlink'
                    exact absurd hsp (by simp)
                  · have hfe : Node.fixedRep counted 1 (some cc) (some pp)
                        = fixed := by simpa using hfx
                    subst hfe
                    have hstb : counted = sts ∧ some cc = c ∧
                        some pp = p := by
                      have := hinf
                      simp at this
                      exact ⟨this.1, this.2.1, this.2.2⟩
                    obtain ⟨hcnt, hc, hp⟩ := hstb
                    obtain ⟨sc, sp, hsc, hsp, hS2, hP2, hnn, hbd⟩ :=
                      (ih F₂ (by omega)).2 sts av 0 0 counted (some cc)
                        (some pp) htri hcnt F₃ a 0 0 errsW S₂ P₂ htriv
                        herrsW hlink'
                    have hcc : cc = sc := by
                      have hq := hsc
                      simp at hq
                      omega
                    subst hcc
                    refine ⟨⟨cc, ?_, hnn, fun h1 => ?_⟩, p, rfl⟩
                    · show some c = some (some cc)
                      rw [← hc]
                    · have := hbd h1
                      omega
        | rowRepeat rows t c p =>
          simp only [inferCounts] at hinf
          rw [bindOk] at hinf
          obtain ⟨pr, hpr, hinf⟩ := hinf
          obtain ⟨counted, avail₁⟩ := pr
          rw [bindOk] at hinf
          obtain ⟨availN, hN, hinf⟩ := hinf
          rcases hh : counted.head? with _ | h₀
          · rw [hh] at hinf
            exact absurd hinf (by simp)
          · rw [hh] at hinf
            rcases hc0 : h₀.consumesAttr with _ | c0
            · exact absurd hinf (by simp [hc0])
            · have hstb : counted = rows ∧ c0 = c ∧ availN = p := by
                have := hinf
                simp [hc0] at this
                exact ⟨this.1, this.2.1, this.2.2⟩
              obtain ⟨hcnt, hceq, hpeq⟩ := hstb
              have hcnt' := hcnt.symm
              subst hcnt'
              cases f' with
              | zero => exact absurd hver (by simp [verifyCounts])
              | succ F' =>
                simp only [verifyCounts] at hver
                rw [bindOk] at hver
                obtain ⟨prv, hprv, hver⟩ := hver
                obtain ⟨errsR, fin⟩ := prv
                have herrsR : errsR = [] := by
                  by_cases ht : t > 1
                  · rw [if_pos ht] at hver
                    rw [bindOk] at hver
                    obtain ⟨a', ha', hver⟩ := hver
                    rw [bindOk] at hver
                    obtain ⟨fv, hfv, hver⟩ := hver
                    simp only [Except.ok.injEq] at hver
                    exact (List.append_eq_nil.mp hver).1
                  · rw [if_neg ht] at hver
                    simpa using hver
                subst herrsR
                rcases rows with _ | ⟨r₀, rest₀⟩
                · simp at hh
                · have hr₀ : h₀ = r₀ := by
                    symm
                    simpa using hh
                  subst hr₀
                  cases F' with
                  | zero => exact absurd hprv (by simp [verifyRows])
                  | succ F₃ =>
                    simp only [verifyRows] at hprv
                    rw [bindOk] at hprv
                    obtain ⟨errs_r, herrs_r, hprv⟩ := hprv
                    by_cases hkn : h₀.isKnittable
                    · rw [if_pos hkn] at hprv
                      rw [bindOk] at hprv
                      obtain ⟨e, he, hprv⟩ := hprv
                      rw [bindOk] at hprv
                      obtain ⟨a', ha', hprv⟩ := hprv
                      have ha'' : a = a' := by simpa [asInt] using ha'
                      subst ha''
                      rw [bindOk] at hprv
                      obtain ⟨prr, hprr, hprv⟩ := hprv
                      obtain ⟨restv, finv⟩ := prr
                      simp only [Except.ok.injEq, Prod.mk.injEq] at hprv
                      have h12 := List.append_eq_nil.mp hprv.1
                      have h1 := List.append_eq_nil.mp h12.1
                      cases F with
                      | zero =>
                        exact absurd hpr (by simp [inferRowsOnce])
                      | succ F₄ =>
                        simp only [inferRowsOnce] at hpr
                        rw [bindOk] at hpr
                        obtain ⟨r₁, hr₁, hpr⟩ := hpr
                        by_cases hkn₁ : r₁.isKnittable
                        · rw [if_pos hkn₁] at hpr
                          rw [bindOk] at hpr
                          obtain ⟨prr₂, hprr₂, hpr⟩ := hpr
                          obtain ⟨rest₂, availN₂⟩ := prr₂
                          simp only [Except.ok.injEq, Prod.mk.injEq,
                            List.cons.injEq] at hpr
                          have hr₁e := hpr.1.1
                          subst hr₁e
                          have herrs_r0 : verifyCounts F₃ r₁ (some a)
                              = .ok [] := by
                            rw [← h1.1]
                            exact herrs_r
                          obtain ⟨⟨cv, hcv, hnn, _⟩, _⟩ :=
                            (ih F₄ (by omega)).1 r₁ av F₃ a hr₁
                              herrs_r0 hlink
                          have hc0v : c0 = some cv := by
                            rw [hcv] at hc0
                            simpa using hc0.symm
                          have hev : e = cv := by
                            rw [hcv] at he
                            simpa [asInt] using he.symm
                          have hea : e = a := exactlyNil.mp h1.2
                          refine ⟨⟨cv, ?_, hnn, fun _ => by omega⟩,
                            p, rfl⟩
                          show some c = some (some cv)
                          rw [← hceq, hc0v]
                        · rw [if_neg hkn₁] at hpr
                          exact absurd hpr (by simp)
                    · rw [if_neg hkn] at hprv
                      exact absurd hprv (by simp)
        | pattern rows params env pc pp =>
          simp only [inferCounts] at hinf
          rw [bindOk] at hinf
          obtain ⟨counted, hcnt, hinf⟩ := hinf
          have hcopy := hcnt
          cases F with
          | zero => exact absurd hcnt (by simp [inferCounts])
          | succ F₂ =>
            simp only [inferCounts] at hcnt
            rw [bindOk] at hcnt
            obtain ⟨pr, hpr, hcnt⟩ := hcnt
            obtain ⟨counted₂, avail₁⟩ := pr
            rw [bindOk] at hcnt
            obtain ⟨availN, hN, hcnt⟩ := hcnt
            rcases hh : counted₂.head? with _ | h₀
            · rw [hh] at hcnt
              exact absurd hcnt (by simp)
            · rw [hh] at hcnt
              rcases hc0 : h₀.consumesAttr with _ | c0
              · exact absurd hcnt (by simp [hc0])
              · have hcv : Node.rowRepeat counted₂ 1 c0 availN
                    = counted := by
                  have := hcnt
                  simp [hc0] at this
                  exact this
                subst hcv
                have hstb : counted₂ = rows ∧ c0 = pc ∧ availN = pp := by
                  have := hinf
                  simp at this
                  exact ⟨this.1, this.2.1, this.2.2⟩
                obtain ⟨h1, h2, h3⟩ := hstb
                have h1' := h1.symm
                subst h1' h2 h3
                cases f' with
                | zero => exact absurd hver (by simp [verifyCounts])
                | succ F' =>
                  simp only [verifyCounts] at hver
                  obtain ⟨⟨cval, hcval, hnn, hbd⟩, _⟩ :=
                    (ih (F₂ + 1) (by omega)).1
                      (.rowRepeat rows 1 c0 availN) av F' a hcopy
                      hver hlink
                  exact ⟨⟨cval, hcval, hnn, hbd⟩, availN, rfl⟩
        | block ps c p =>
          cases f' with
          | zero => exact absurd hver (by simp [verifyCounts])
          | succ F' => simp [verifyCounts] at hver
        | fixedBlockRepeat blk t c p =>
          cases f' with
          | zero => exact absurd hver (by simp [verifyCounts])
          | succ F' => simp [verifyCounts] at hver
        | get nm =>
          cases f' with
          | zero => exact absurd hver (by simp [verifyCounts])
          | succ F' => simp [verifyCounts] at hver
        | call tgt args =>
          cases f' with
          | zero => exact absurd hver (by simp [verifyCounts])
          | succ F' => simp [verifyCounts] at hver
        | nativeFunction i =>
          cases f' with
          | zero => exact absurd hver (by simp [verifyCounts])
          | succ F' => simp [verifyCounts] at hver
    · intro sts av cI pI counted accC₂ accP₂ hinf hcnt f' a S P errsv S₂ P₂
        hver herrsv hlink
      cases f with
      | zero => exact absurd hinf (by simp [inferStitches])
      | succ F =>
        cases sts with
        | nil =>
          have hx : counted = [] ∧ some cI = accC₂ ∧
              some pI = accP₂ := by
            have := hinf
            simp [inferStitches] at this
            exact ⟨this.1, this.2.1, this.2.2⟩
          cases f' with
          | zero => exact absurd hver (by simp [verifyStitches])
          | succ F' =>
            have hy : errsv = [] ∧ S = S₂ ∧
                P = P₂ := by
              have := hver
              simp [verifyStitches] at this
              exact ⟨this.1, this.2.1, this.2.2⟩
            obtain ⟨hy1, hy2, hy3⟩ := hy
            refine ⟨0, 0, ?_, ?_, by omega, by omega, le_refl 0,
              fun h => absurd h (by omega)⟩
            · rw [← hx.2.1]
              norm_num
            · rw [← hx.2.2]
              norm_num
        | cons s ss =>
          obtain ⟨CA, s', rest, accC₃, accP₃, hCA, hs', hkn, htri, hout⟩ :=
            inferStitches_cons_ok hinf
          simp only [Prod.mk.injEq] at hout
          obtain ⟨hlist, hac, hap⟩ := hout
          rw [hcnt] at hlist
          injection hlist with hse hre
          subst hse
          subst hre
          cases f' with
          | zero => exact absurd hver (by simp [verifyStitches])
          | succ F' =>
            simp only [verifyStitches] at hver
            rw [bindOk] at hver
            obtain ⟨a', ha', hver⟩ := hver
            have ha2 : a = a' := by simpa [asInt] using ha'
            subst ha2
            rw [bindOk] at hver
            obtain ⟨errs, herrs, hver⟩ := hver
            by_cases hknv : s.isKnittable
            · rw [if_pos hknv] at hver
              rw [bindOk] at hver
              obtain ⟨cw, hcw, hver⟩ := hver
              rw [bindOk] at hver
              obtain ⟨pw, hpw, hver⟩ := hver
              rw [bindOk] at hver
              obtain ⟨triv, htriv, hver⟩ := hver
              obtain ⟨restv, S₃, P₃⟩ := triv
              simp only [Except.ok.injEq, Prod.mk.injEq] at hver
              obtain ⟨hev, hS3, hP3⟩ := hver
              have hboth := List.append_eq_nil.mp (hev.trans herrsv)
              have herrs0 : verifyCounts F' s (some (a - S))
                  = .ok [] := by
                rw [← hboth.1]
                exact herrs
              have hch : CA = some (a - S) ∨ CA = none := by
                rcases hCA with ⟨hav, hCAn⟩ | ⟨a₀, hav, hCAs⟩
                · exact Or.inr hCAn
                · rcases hlink with hnone | ⟨a₁, hav₁, hlk⟩
                  · rw [hav] at hnone
                    exact absurd hnone (by simp)
                  · rw [hav] at hav₁
                    have ha01 : a₀ = a₁ := by
                      simpa using hav₁
                    refine Or.inl ?_
                    rw [hCAs]
                    congr 1
                    omega
              obtain ⟨⟨cv, hcv, hnn, hbd⟩, po, hpo⟩ :=
                (ih F (by omega)).1 s CA F' (a - S) hs'
                  herrs0 hch
              have hcw2 : cw = cv := by
                have hq := hcw
                simp [consOf, hcv, asInt] at hq
                omega
              have hpo2 : s.producesAttr = some (some pw) := by
                cases po with
                | none =>
                  simp [prodOf, hpo, asInt] at hpw
                | some pv =>
                  have hpv : pv = pw := by
                    simpa [prodOf, hpo, asInt] using hpw
                  rw [hpo, hpv]
              simp only [hcv, hpo2] at htri
              have hlink2 : av = none ∨
                  ∃ a₀, av = some a₀ ∧
                    a₀ - (cI + cv) = a - (S + cw) := by
                rcases hlink with hnone | ⟨a₀, hav, hlk⟩
                · exact Or.inl hnone
                · exact Or.inr ⟨a₀, hav, by omega⟩
              obtain ⟨sc, sp, hA, hB, hC, hD, hE, hX⟩ :=
                (ih F (by omega)).2 ss av (cI + cv) (pI + pw) ss
                  accC₃ accP₃ htri rfl F' a (S + cw) (P + pw) restv
                  S₃ P₃ htriv hboth.2 hlink2
              refine ⟨cv + sc, pw + sp, ?_, ?_, by omega, by omega,
                by omega, ?_⟩
              · rw [hac, hA]
                congr 1
                ring
              · rw [hap, hB]
                congr 1
                ring
              · intro h1
                by_cases hsc1 : 1 ≤ sc
                · have := hX hsc1
                  omega
                · have hcv1 : 1 ≤ cv := by omega
                  have := hbd hcv1
                  omega
            · rw [if_neg hknv] at hver
              exact absurd hver (by simp)

/-- A successful `verifyRows` step on a non-empty row list forces the
running budget to be known: every row's check converts it with `asInt`. -/
theorem verifyRows_cons_some {f : Nat} {r : Node} {rs : List Node}
    {avV : Option Int} {out : List KnitError × Option Int}
    (h : verifyRows f (r :: rs) avV = .ok out) : ∃ a, avV = some a := by
  cases avV with
  | some a => exact ⟨a, rfl⟩
  | none =>
    cases f with
    | zero => exact absurd h (by simp [verifyRows])
    | succ F =>
      simp only [verifyRows] at h
      rw [bindOk] at h
      obtain ⟨errs, herrs, h⟩ := h
      by_cases hkn : r.isKnittable
      · rw [if_pos hkn] at h
        rw [bindOk] at h
        obtain ⟨e, he, h⟩ := h
        rw [bindOk] at h
        obtain ⟨a, ha, h⟩ := h
        simp [asInt] at ha
      · rw [if_neg hkn] at h
        exact absurd h (by simp)

/-- The conservation chain: a row list left fixed by one inference pass
whose final threaded budget is exactly zero, and accepted without
diagnostics by `verifyRows` on a known budget, conserves stitches row by
row in the sense of `conserves`. -/
theorem chain_conserves (f : Nat) :
    ∀ rows av avV counted avail' f' fin,
      inferRowsOnce f rows av = .ok (counted, avail') →
      counted = rows →
      (av = avV ∨ av = none) →
      verifyRows f' rows avV = .ok ([], fin) →
      ∀ a, avV = some a → avail' = some 0 → conserves rows a := by
  induction f using Nat.strong_induction_on with
  | _ f ih =>
    intro rows av avV counted avail' f' fin hinf hcnt hlink hver a hav h0
    cases f with
    | zero => exact absurd hinf (by simp [inferRowsOnce])
    | succ F =>
      cases rows with
      | nil =>
        have hx : av = avail' := by
          have := hinf
          simp [inferRowsOnce] at this
          exact this.2
        subst hav
        rcases hlink with hl | hl
        · rw [hl, h0] at hx
          have ha0 : a = 0 := by simpa using hx
          subst ha0
          simp only [conserves]
        · rw [hl, h0] at hx
          exact absurd hx (by simp)
      | cons r rs =>
        simp only [inferRowsOnce] at hinf
        rw [bindOk] at hinf
        obtain ⟨r₁, hr₁, hinf⟩ := hinf
        by_cases hkn₁ : r₁.isKnittable
        · rw [if_pos hkn₁] at hinf
          rw [bindOk] at hinf
          obtain ⟨pr, hpr, hinf⟩ := hinf
          obtain ⟨rest₂, availN₂⟩ := pr
          simp only [Except.ok.injEq, Prod.mk.injEq] at hinf
          obtain ⟨hlist, hava⟩ := hinf
          rw [hcnt] at hlist
          injection hlist with hre hrs
          have hre' := hre.symm
          subst hre'
          have hrs' := hrs.symm
          subst hrs'
          subst hav
          cases f' with
          | zero => exact absurd hver (by simp [verifyRows])
          | succ F' =>
            simp only [verifyRows] at hver
            rw [bindOk] at hver
            obtain ⟨errs_r, herrs_r, hver⟩ := hver
            rw [if_pos hkn₁] at hver
            rw [bindOk] at hver
            obtain ⟨e, he, hver⟩ := hver
            rw [bindOk] at hver
            obtain ⟨a', ha', hver⟩ := hver
            have ha'' : a = a' := by simpa [asInt] using ha'
            subst ha''
            rw [bindOk] at hver
            obtain ⟨prr, hprr, hver⟩ := hver
            obtain ⟨restv, finv⟩ := prr
            simp only [Except.ok.injEq, Prod.mk.injEq] at hver
            have h12 := List.append_eq_nil.mp hver.1
            have h1 := List.append_eq_nil.mp h12.1
            have herrs_r0 : verifyCounts F' r (some a) = .ok [] := by
              rw [← h1.1]
              exact herrs_r
            have hlinkM : av = some a ∨ av = none := by
              rcases hlink with hl | hl
              · exact Or.inl hl
              · exact Or.inr hl
            obtain ⟨⟨cv, hcv, hnn, _⟩, _⟩ :=
              (infer_verify_counts F).1 r av F' a hr₁ herrs_r0 hlinkM
            have hev : e = cv := by
              rw [hcv] at he
              simpa [asInt] using he.symm
            have hea : e = a := exactlyNil.mp h1.2
            cases rs with
            | nil =>
              have hrest0 : r.producesAttr.getD none = avail' := by
                cases F with
                | zero => exact absurd hpr (by simp [inferRowsOnce])
                | succ F₂ =>
                  have hq := hpr
                  simp [inferRowsOnce] at hq
                  rw [← hava]
                  exact hq
              rw [h0] at hrest0
              have hprod := getD_some hrest0
              refine ⟨cv, 0, hcv, hprod, by omega, by omega,
                by omega, ?_⟩
              simp only [conserves]
              omega
            | cons r₂ rs' =>
              obtain ⟨a₂, ha₂⟩ := verifyRows_cons_some hprr
              have hprod := getD_some ha₂
              have hverRest : verifyRows F' (r₂ :: rs')
                  (r.producesAttr.getD none) = .ok ([], finv) := by
                rw [← h12.2]
                exact hprr
              have hcons := ih F (by omega) (r₂ :: rs')
                (r.producesAttr.getD none)
                (r.producesAttr.getD none) (r₂ :: rs') avail' F' finv
                (by rw [← hava]; exact hpr) rfl (Or.inl rfl) hverRest
                a₂ ha₂ h0
              have ha₂0 : 0 ≤ a₂ := by
                obtain ⟨x, y, _, _, h5, _⟩ := hcons
                exact h5
              refine ⟨cv, a₂, hcv, hprod, by omega, by omega,
                by omega, ?_⟩
              have hrw : a - cv + a₂ = a₂ := by omega
              rw [hrw]
              exact hcons
        · rw [if_neg hkn₁] at hinf
          exact absurd hinf (by simp)

/-- C1: a pattern that is a fixed point of count inference (the caches
are the inferred counts) and that `verify_pattern` accepts without
diagnostics conserves stitches: walking its rows with a running counter
starting at 0, each row's cached `consumes` is subtracted and its cached
`produces` added, the counter never goes negative, and it ends at 0.
The fixed-point hypothesis expresses that the caches are the ones the
pipeline itself computes; the verifier alone checks `consumes` against
the running budget but trusts each row's cached `produces`. -/
theorem C1_conservation (fi fv : Nat) (rows : List Node)
    (params : List String) (env : Option (List (String × Node)))
    (pc pp : Option Int)
    (hstab : inferCounts fi (.pattern rows params env pc pp) none =
      .ok (.pattern rows params env pc pp))
    (hver : verifyPattern fv (.pattern rows params env pc pp) = .ok []) :
    conserves rows 0 := by
  simp only [verifyPattern] at hver
  rw [bindOk] at hver
  obtain ⟨errs₁, hv1, hver⟩ := hver
  rw [if_pos (show (Node.pattern rows params env pc pp).isKnittable
    = true from rfl)] at hver
  rw [bindOk] at hver
  obtain ⟨errs₄, hv4, hver⟩ := hver
  simp only [Except.ok.injEq] at hver
  have h123 := List.append_eq_nil.mp hver
  have h12 := List.append_eq_nil.mp h123.1
  have h1 := List.append_eq_nil.mp h12.1
  have hpc : pc = some 0 := by
    have h2 := h1.2
    simp [Node.consumesAttr] at h2
    exact h2
  have hpp : pp = some 0 := by
    have h3 := h12.2
    simp [Node.producesAttr] at h3
    exact h3
  cases fv with
  | zero => exact absurd hv1 (by simp [verifyCounts])
  | succ G =>
    simp only [verifyCounts] at hv1
    cases G with
    | zero => exact absurd hv1 (by simp [verifyCounts])
    | succ G₂ =>
      simp only [verifyCounts] at hv1
      rw [bindOk] at hv1
      obtain ⟨prv, hverRows, hv1⟩ := hv1
      obtain ⟨errsR, fin⟩ := prv
      have herrsR : errsR = errs₁ := by simpa using hv1
      have hverRows' : verifyRows G₂ rows (some 0) = .ok ([], fin) := by
        rw [← h1.1, ← herrsR]
        exact hverRows
      cases fi with
      | zero => exact absurd hstab (by simp [inferCounts])
      | succ F =>
        simp only [inferCounts] at hstab
        rw [bindOk] at hstab
        obtain ⟨counted, hcnt, hstab⟩ := hstab
        cases F with
        | zero => exact absurd hcnt (by simp [inferCounts])
        | succ F₂ =>
          simp only [inferCounts] at hcnt
          rw [bindOk] at hcnt
          obtain ⟨pr, hpr, hcnt⟩ := hcnt
          obtain ⟨counted₂, avail₁⟩ := pr
          rw [bindOk] at hcnt
          obtain ⟨availN, hN, hcnt⟩ := hcnt
          cases F₂ with
          | zero => exact absurd hpr (by simp [inferRowsOnce])
          | succ F₃ =>
            have hN' : avail₁ = availN := by
              simpa [inferAvailPasses] using hN
            rcases hh : counted₂.head? with _ | h₀
            · rw [hh] at hcnt
              exact absurd hcnt (by simp)
            · rw [hh] at hcnt
              rcases hc0 : h₀.consumesAttr with _ | c0
              · exact absurd hcnt (by simp [hc0])
              · have hcv : Node.rowRepeat counted₂ 1 c0 availN
                    = counted := by
                  have := hcnt
                  simp [hc0] at this
                  exact this
                subst hcv
                have hstb : counted₂ = rows ∧ c0 = pc ∧ availN = pp := by
                  have := hstab
                  simp at this
                  exact ⟨this.1, this.2.1, this.2.2⟩
                have havail₁0 : avail₁ = some 0 := by
                  rw [hN', hstb.2.2, hpp]
                exact chain_conserves (F₃ + 1) rows none (some 0)
                  counted₂ avail₁ G₂ fin hpr hstb.1 (Or.inr rfl)
                  hverRows' 0 rfl havail₁0

/-- Witness for C1: a three-row pattern (cast on 3, a knit row through
an expanding repeat, bind off 3) with the caches inference computes; it
is a fixed point of inference, verifies cleanly, and conserves. -/
theorem C1_conservation_witness :
    inferCounts 20 (.pattern
      [.row [.fixedRep [.stitchLit .CAST_ON] 3 (some 0) (some 3)]
        none false (some 0) (some 3),
       .row [.expandingRep [.stitchLit .KNIT] 0 (some 3) (some 3)]
        none false (some 3) (some 3),
       .row [.fixedRep [.stitchLit .BIND_OFF] 3 (some 3) (some 0)]
        none false (some 3) (some 0)] [] none (some 0) (some 0)) none =
      .ok (.pattern
      [.row [.fixedRep [.stitchLit .CAST_ON] 3 (some 0) (some 3)]
        none false (some 0) (some 3),
       .row [.expandingRep [.stitchLit .KNIT] 0 (some 3) (some 3)]
        none false (some 3) (some 3),
       .row [.fixedRep [.stitchLit .BIND_OFF] 3 (some 3) (some 0)]
        none false (some 3) (some 0)] [] none (some 0) (some 0)) ∧
    verifyPattern 20 (.pattern
      [.row [.fixedRep [.stitchLit .CAST_ON] 3 (some 0) (some 3)]
        none false (some 0) (some 3),
       .row [.expandingRep [.stitchLit .KNIT] 0 (some 3) (some 3)]
        none false (some 3) (some 3),
       .row [.fixedRep [.stitchLit .BIND_OFF] 3 (some 3) (some 0)]
        none false (some 3) (some 0)] [] none (some 0) (some 0)) =
      .ok [] ∧
    conserves
      [.row [.fixedRep [.stitchLit .CAST_ON] 3 (some 0) (some 3)]
        none false (some 0) (some 3),
       .row [.expandingRep [.stitchLit .KNIT] 0 (some 3) (some 3)]
        none false (some 3) (some 3),
       .row [.fixedRep [.stitchLit .BIND_OFF] 3 (some 3) (some 0)]
        none false (some 3) (some 0)] 0 :=
  ⟨by rfl, by rfl,
    C1_conservation 20 20
      [.row [.fixedRep [.stitchLit .CAST_ON] 3 (some 0) (some 3)]
        none false (some 0) (some 3),
       .row [.expandingRep [.stitchLit .KNIT] 0 (some 3) (some 3)]
        none false (some 3) (some 3),
       .row [.fixedRep [.stitchLit .BIND_OFF] 3 (some 3) (some 0)]
        none false (some 3) (some 0)] [] none (some 0) (some 0)
      (by rfl) (by rfl)⟩

end KnitScript
